import Mathlib

/-!
# A shallow embedding of `src/vector.h` (`RawMemory<T>` and `Vector<T>`)

Conventions of the embedding.

* A block of raw storage is a `List (Option T)`: slot `i` is `some x` when it
  holds a constructed object with value `x`, and `none` when no object with a
  known value lives there (never constructed, or destroyed).  The null pointer
  is the empty block `[]`; `Allocate` returns it for `n = 0`.
* A position (`iterator`, `const_iterator`) of a vector is the offset from
  `begin()`.
* `size_t` fields and variables are `Nat`; every `size_t` addition,
  multiplication and subtraction of the source is taken modulo `2 ^ 64`.
  Pointer arithmetic is arithmetic of offsets into a block; within the
  preconditions of the operations no pointer before the start of a block is
  formed, and outside them the offset is truncated at 0.
* `World` carries what an element type can observe or decide: the number of
  live `T` instances (an instrumented element type counting constructions
  minus destructions), the schedule of which of the coming element operations
  that are allowed to throw do throw, and whether a `RawMemory` bounds
  assertion has failed.
* Heap allocation itself always succeeds.
* The arguments of a variadic call are represented by the element they
  construct; where the types of the arguments decide which constructor a call
  resolves to (`EmplaceBack`), they are a `BackArgs`.
-/

set_option autoImplicit false

namespace VectorH

variable {T : Type}

/-! ## Machine integers -/

/-- The number of values of `size_t`. -/
def SIZE_MOD : Nat := 18446744073709551616

/-- Reduction of an arithmetic result to `size_t`. -/
def usize (n : Nat) : Nat := n % SIZE_MOD

/-- Subtraction `a - b` in `size_t`. -/
def usub (a b : Nat) : Nat := (a + (SIZE_MOD - b % SIZE_MOD)) % SIZE_MOD

/-! ## The element type and the world around the container -/

/-- Compile-time properties of the element type `T` that the source branches
on, the state a value is left in by a move, and the value of `T()`. -/
structure Elem (T : Type) where
  nothrow_move_constructible : Bool
  copy_constructible : Bool
  nothrow_move_assignable : Bool
  moved_from : T → T
  value_init : T

/-- Everything outside the vector objects. -/
structure World where
  live : Int
  throws : List Bool
  asserts_ok : Bool
  deriving DecidableEq

/-- An element operation that may throw asks the schedule whether it does.
An exhausted schedule never throws. -/
def World.tick (w : World) : Bool × World :=
  match w.throws with
  | [] => (false, w)
  | b :: rest => (b, { w with throws := rest })

/-- Change of the number of live instances. -/
def World.add (w : World) (n : Int) : World := { w with live := w.live + n }

/-- How a call ends: it returns, an exception leaves it, or `std::terminate` is called
(the statement `throw;` with no exception being handled). -/
inductive Outcome (α : Type) where
  | ok (a : α)
  | threw
  | terminated
  deriving DecidableEq

/-! ## Standard-library algorithms on raw storage -/

/-- Content of a slot; outside the block, or where nothing was constructed,
there is no value to read. -/
def slot (buf : List (Option T)) (i : Nat) : Option T := buf.getD i none

/-- Ticks of a move construction: none for a nothrow-move-constructible type. -/
def move_construct_tick (E : Elem T) (w : World) : Bool × World :=
  if E.nothrow_move_constructible then (false, w) else w.tick

/-- Ticks of a move assignment: none for a nothrow-move-assignable type. -/
def move_assign_tick (E : Elem T) (w : World) : Bool × World :=
  if E.nothrow_move_assignable then (false, w) else w.tick

/-- Effect of `buf[dst] = std::move(buf[src])` on the block. -/
def move_assign_at (E : Elem T) (buf : List (Option T)) (src dst : Nat) : List (Option T) :=
  (buf.set dst (slot buf src)).set src ((slot buf src).map E.moved_from)

/-- The function `std::destroy_n(buf + p, n)`. -/
def destroy_n (buf : List (Option T)) (p : Nat) : Nat → World → List (Option T) × World
  | 0, w => (buf, w)
  | n + 1, w =>
    match destroy_n buf p n w with
    | (buf1, w1) => (buf1.set (p + n) none, w1.add (-1))

/-- The loop of `std::uninitialized_copy_n(src + s, n, dst + d)`; `done` counts the
objects already constructed, which are destroyed when a copy throws. -/
def uninitialized_copy_loop (src : List (Option T)) (s d : Nat) :
    Nat → Nat → List (Option T) → World → Bool × List (Option T) × World
  | 0, _, dst, w => (false, dst, w)
  | r + 1, done, dst, w =>
    match w.tick with
    | (true, w1) =>
      match destroy_n dst d done w1 with
      | (dst1, w2) => (true, dst1, w2)
    | (false, w1) =>
      uninitialized_copy_loop src s d r (done + 1) (dst.set (d + done) (slot src (s + done)))
        (w1.add 1)

/-- The function `std::uninitialized_copy_n(src + s, n, dst + d)`: whether it threw,
the destination block and the world. -/
def uninitialized_copy_n (src : List (Option T)) (s n : Nat) (dst : List (Option T)) (d : Nat)
    (w : World) : Bool × List (Option T) × World :=
  uninitialized_copy_loop src s d n 0 dst w

/-- The loop of `std::uninitialized_move_n(src + s, n, dst + d)`. -/
def uninitialized_move_loop (E : Elem T) (s d : Nat) :
    Nat → Nat → List (Option T) → List (Option T) → World →
      Bool × List (Option T) × List (Option T) × World
  | 0, _, src, dst, w => (false, src, dst, w)
  | r + 1, done, src, dst, w =>
    match move_construct_tick E w with
    | (true, w1) =>
      match destroy_n dst d done w1 with
      | (dst1, w2) => (true, src, dst1, w2)
    | (false, w1) =>
      uninitialized_move_loop E s d r (done + 1)
        (src.set (s + done) ((slot src (s + done)).map E.moved_from))
        (dst.set (d + done) (slot src (s + done))) (w1.add 1)

/-- The function `std::uninitialized_move_n(src + s, n, dst + d)`: whether it threw,
the source block, the destination block and the world. -/
def uninitialized_move_n (E : Elem T) (src : List (Option T)) (s n : Nat)
    (dst : List (Option T)) (d : Nat) (w : World) :
    Bool × List (Option T) × List (Option T) × World :=
  uninitialized_move_loop E s d n 0 src dst w

/-- The relocation every growing operation of the source spells out:
`if constexpr (is_nothrow_move_constructible_v<T> || !is_copy_constructible_v<T>)`
move, else copy. -/
def relocate_n (E : Elem T) (src : List (Option T)) (s n : Nat) (dst : List (Option T))
    (d : Nat) (w : World) : Bool × List (Option T) × List (Option T) × World :=
  if E.nothrow_move_constructible || !E.copy_constructible then
    uninitialized_move_n E src s n dst d w
  else
    match uninitialized_copy_n src s n dst d w with
    | (t, dst1, w1) => (t, src, dst1, w1)

/-- The loop of `std::uninitialized_value_construct_n(buf + p, n)`. -/
def uninitialized_value_construct_loop (E : Elem T) (p : Nat) :
    Nat → Nat → List (Option T) → World → Bool × List (Option T) × World
  | 0, _, buf, w => (false, buf, w)
  | r + 1, done, buf, w =>
    match w.tick with
    | (true, w1) =>
      match destroy_n buf p done w1 with
      | (buf1, w2) => (true, buf1, w2)
    | (false, w1) =>
      uninitialized_value_construct_loop E p r (done + 1) (buf.set (p + done) (some E.value_init))
        (w1.add 1)

/-- The function `std::uninitialized_value_construct_n(buf + p, n)`. -/
def uninitialized_value_construct_n (E : Elem T) (buf : List (Option T)) (p n : Nat)
    (w : World) : Bool × List (Option T) × World :=
  uninitialized_value_construct_loop E p n 0 buf w

/-- The function `std::move(buf + first, buf + first + n, buf + d_first)`, front to back. -/
def move_range (E : Elem T) : Nat → Nat → Nat → List (Option T) → World →
    Bool × List (Option T) × World
  | 0, _, _, buf, w => (false, buf, w)
  | n + 1, first, d_first, buf, w =>
    match move_assign_tick E w with
    | (true, w1) => (true, buf, w1)
    | (false, w1) => move_range E n (first + 1) (d_first + 1) (move_assign_at E buf first d_first) w1

/-- The function `std::move_backward(buf + first, buf + first + n, buf + d_last)`, back
to front. -/
def move_backward (E : Elem T) (first : Nat) : Nat → Nat → List (Option T) → World →
    Bool × List (Option T) × World
  | 0, _, buf, w => (false, buf, w)
  | n + 1, d_last, buf, w =>
    match move_assign_tick E w with
    | (true, w1) => (true, buf, w1)
    | (false, w1) =>
      move_backward E first n (d_last - 1) (move_assign_at E buf (first + n) (d_last - 1)) w1

/-! ## `RawMemory<T>` -/

/-- Fields of `RawMemory<T>`; the null `buffer_` is `[]`. -/
structure RawMemory (T : Type) where
  buffer_ : List (Option T)
  capacity_ : Nat
  deriving DecidableEq

/-- The function `RawMemory::Allocate`. -/
def RawMemory.Allocate (n : Nat) : List (Option T) :=
  if n ≠ 0 then List.replicate n none else []

/-- The constructor `RawMemory() = default`. -/
def RawMemory.ctor_default : RawMemory T := { buffer_ := [], capacity_ := 0 }

/-- The constructor `RawMemory(size_t capacity)`. -/
def RawMemory.ctor (capacity : Nat) : RawMemory T :=
  { buffer_ := RawMemory.Allocate capacity, capacity_ := capacity }

/-- The constructor `RawMemory(RawMemory&& other)`: the new object and `other` afterwards. -/
def RawMemory.ctor_move (other : RawMemory T) : RawMemory T × RawMemory T :=
  ({ buffer_ := other.buffer_, capacity_ := other.capacity_ }, { buffer_ := [], capacity_ := 0 })

/-- The operator `RawMemory::operator=(RawMemory&& rhs)` for `rhs` another object: the
target and `rhs` afterwards.  The block the target held is not deallocated. -/
def RawMemory.assign_move (_this rhs : RawMemory T) : RawMemory T × RawMemory T :=
  ({ buffer_ := rhs.buffer_, capacity_ := rhs.capacity_ }, { buffer_ := [], capacity_ := 0 })

/-- The operator `RawMemory::operator+`: its assertion `offset <= capacity_`. -/
def RawMemory.plus (m : RawMemory T) (offset : Nat) (w : World) : World :=
  { w with asserts_ok := w.asserts_ok && decide (offset ≤ m.capacity_) }

/-- The operator `RawMemory::operator[]`: its assertion `index < capacity_`. -/
def RawMemory.index (m : RawMemory T) (index : Nat) (w : World) : World :=
  { w with asserts_ok := w.asserts_ok && decide (index < m.capacity_) }

/-- The function `RawMemory::Swap`. -/
def RawMemory.Swap (this other : RawMemory T) : RawMemory T × RawMemory T :=
  ({ buffer_ := other.buffer_, capacity_ := other.capacity_ },
   { buffer_ := this.buffer_, capacity_ := this.capacity_ })

/-- The function `RawMemory::Capacity`. -/
def RawMemory.Capacity (m : RawMemory T) : Nat := m.capacity_

/-! ## `Vector<T>` -/

/-- Fields of `Vector<T>`. -/
structure Vector (T : Type) where
  insrt_mve_called : Bool
  insrt_cpy_called : Bool
  data_ : RawMemory T
  size_ : Nat
  deriving DecidableEq

/-- The function `Vector::Size`. -/
def Vector.Size (v : Vector T) : Nat := v.size_

/-- The function `Vector::Capacity`. -/
def Vector.Capacity (v : Vector T) : Nat := v.data_.Capacity

/-- The element sequence of a vector: the slots `[0, Size())`. -/
def Vector.elems (v : Vector T) : List (Option T) := v.data_.buffer_.take v.size_

/-- The constructor `Vector() = default`. -/
def Vector.ctor_default : Vector T :=
  { insrt_mve_called := false, insrt_cpy_called := false, data_ := RawMemory.ctor_default,
    size_ := 0 }

/-- The destructor `~Vector()` followed by `~RawMemory()`: the elements are destroyed when
the block is not null and `size_ > 0`. -/
def Vector.dtor (v : Vector T) (w : World) : World :=
  if v.data_.buffer_.isEmpty = false ∧ v.size_ > 0 then (destroy_n v.data_.buffer_ 0 v.size_ w).2 else w

/-- The function `Vector::Swap`: `this` and `other` afterwards. -/
def Vector.Swap (this other : Vector T) : Vector T × Vector T :=
  ({ this with data_ := (RawMemory.Swap this.data_ other.data_).1, size_ := other.size_ },
   { other with data_ := (RawMemory.Swap this.data_ other.data_).2, size_ := this.size_ })

/-- The constructors `Vector(Vector&& other, size_t size, const T& elem)`,
`Vector(Vector&& other, size_t size, T&& elem)` and
`Vector(Vector&& other, size_t size, Args&&... args)`, which differ only in how the new
element `elem` is constructed: the new object (when the constructor returns), `other`
afterwards, the world.  When the constructor throws, the block it allocated is freed by
`~RawMemory()` and no destructor of `Vector` runs. -/
def Vector.ctor_push (E : Elem T) (other : Vector T) (size : Nat) (elem : T) (w : World) :
    Outcome (Vector T) × Vector T × World :=
  let data : RawMemory T := RawMemory.ctor size
  match (data.plus other.size_ w).tick with
  | (true, w1) => (Outcome.threw, other, w1)
  | (false, w1) =>
    match relocate_n E other.data_.buffer_ 0 other.size_
        (data.buffer_.set other.size_ (some elem)) 0 (w1.add 1) with
    | (true, src, _, w2) =>
      (Outcome.threw, { other with data_ := { other.data_ with buffer_ := src } }, w2)
    | (false, src, dst, w2) =>
      (Outcome.ok { insrt_mve_called := false, insrt_cpy_called := false,
                    data_ := { data with buffer_ := dst }, size_ := usize (other.size_ + 1) },
       { other with data_ := { other.data_ with buffer_ := src } }, w2)

/-- The function `Vector::PushBack(const T& value)`. -/
def Vector.PushBack (E : Elem T) (v : Vector T) (value : T) (w : World) :
    Outcome Unit × Vector T × World :=
  if v.data_.Capacity = v.size_ then
    match Vector.ctor_push E v (if v.size_ = 0 then 1 else usize (2 * v.size_)) value w with
    | (Outcome.ok new_vec, other, w1) =>
      (Outcome.ok (), (Vector.Swap other new_vec).1, Vector.dtor (Vector.Swap other new_vec).2 w1)
    | (Outcome.threw, other, w1) => (Outcome.threw, other, w1)
    | (Outcome.terminated, other, w1) => (Outcome.terminated, other, w1)
  else
    match (v.data_.plus v.size_ w).tick with
    | (true, w1) => (Outcome.threw, v, w1)
    | (false, w1) =>
      (Outcome.ok (),
       { v with data_ := { v.data_ with buffer_ := v.data_.buffer_.set v.size_ (some value) },
                size_ := usize (v.size_ + 1) },
       w1.add 1)

/-- The function `Vector::PushBack(T&& value)`; the state `value` is left in belongs to the
caller. -/
def Vector.PushBack_move (E : Elem T) (v : Vector T) (value : T) (w : World) :
    Outcome Unit × Vector T × World :=
  if v.data_.Capacity = v.size_ then
    match Vector.ctor_push E v (if v.size_ = 0 then 1 else usize (2 * v.size_)) value w with
    | (Outcome.ok new_vec, other, w1) =>
      (Outcome.ok (), (Vector.Swap other new_vec).1, Vector.dtor (Vector.Swap other new_vec).2 w1)
    | (Outcome.threw, other, w1) => (Outcome.threw, other, w1)
    | (Outcome.terminated, other, w1) => (Outcome.terminated, other, w1)
  else
    match (v.data_.plus v.size_ w).tick with
    | (true, w1) => (Outcome.threw, v, w1)
    | (false, w1) =>
      (Outcome.ok (),
       { v with data_ := { v.data_ with buffer_ := v.data_.buffer_.set v.size_ (some value) },
                size_ := usize (v.size_ + 1) },
       w1.add 1)

/-- The constructor `Vector(size_t size)`. -/
def Vector.ctor_size (E : Elem T) (size : Nat) (w : World) : Outcome (Vector T) × World :=
  let data : RawMemory T := RawMemory.ctor size
  match uninitialized_value_construct_n E data.buffer_ 0 size w with
  | (true, _, w1) => (Outcome.threw, w1)
  | (false, buf, w1) =>
    (Outcome.ok { insrt_mve_called := false, insrt_cpy_called := false,
                  data_ := { data with buffer_ := buf }, size_ := size }, w1)

/-- The constructor `Vector(const Vector& other)`. -/
def Vector.ctor_copy (other : Vector T) (w : World) : Outcome (Vector T) × World :=
  let data : RawMemory T := RawMemory.ctor other.size_
  match uninitialized_copy_n other.data_.buffer_ 0 other.size_ data.buffer_ 0 w with
  | (true, _, w1) => (Outcome.threw, w1)
  | (false, buf, w1) =>
    (Outcome.ok { insrt_mve_called := false, insrt_cpy_called := false,
                  data_ := { data with buffer_ := buf }, size_ := other.size_ }, w1)

/-- The constructor `Vector(Vector&& other)`: the new object and `other` afterwards.
`size_(std::move(other.size_))` copies the number and leaves `other.size_` as it was. -/
def Vector.ctor_move (other : Vector T) : Vector T × Vector T :=
  ({ insrt_mve_called := false, insrt_cpy_called := false,
     data_ := (RawMemory.ctor_move other.data_).1, size_ := other.size_ },
   { other with data_ := (RawMemory.ctor_move other.data_).2 })

/-- The operator `Vector::operator=(Vector&& rhs)` for `rhs` another object: the target and
`rhs` afterwards. -/
def Vector.assign_move (this rhs : Vector T) : Vector T × Vector T :=
  ({ this with data_ := (RawMemory.assign_move this.data_ rhs.data_).1, size_ := rhs.size_ },
   { rhs with data_ := (RawMemory.assign_move this.data_ rhs.data_).2 })

/-- The operator `Vector::operator=(Vector&& rhs)` when `rhs` is the target itself: the
storage assignment nulls the only block handle. -/
def Vector.assign_move_self (this : Vector T) : Vector T :=
  { this with data_ := { buffer_ := [], capacity_ := 0 } }

/-- The loops `for (size_t i = 0; i < n; i++) data_[i] = rhs.data_[i];` of the copy
assignment, from index `i` on with `r` iterations to go. -/
def copy_assign_loop (this_data rhs_data : RawMemory T) :
    Nat → Nat → List (Option T) → World → Bool × List (Option T) × World
  | 0, _, buf, w => (false, buf, w)
  | r + 1, i, buf, w =>
    match (rhs_data.index i (this_data.index i w)).tick with
    | (true, w1) => (true, buf, w1)
    | (false, w1) =>
      copy_assign_loop this_data rhs_data r (i + 1) (buf.set i (slot rhs_data.buffer_ i)) w1

/-- The operator `Vector::operator=(const Vector& rhs)`; `rhs = none` stands for
`this == &rhs`.  The source is taken by reference to const and is not written. -/
def Vector.assign_copy (this : Vector T) (rhs : Option (Vector T)) (w : World) :
    Outcome Unit × Vector T × World :=
  match rhs with
  | none => (Outcome.ok (), this, w)
  | some rhs =>
    if rhs.size_ > this.data_.Capacity then
      match Vector.ctor_copy rhs w with
      | (Outcome.ok rhs_copy, w1) =>
        (Outcome.ok (), (Vector.Swap this rhs_copy).1, Vector.dtor (Vector.Swap this rhs_copy).2 w1)
      | (Outcome.threw, w1) => (Outcome.threw, this, w1)
      | (Outcome.terminated, w1) => (Outcome.terminated, this, w1)
    else if rhs.size_ < this.size_ then
      match copy_assign_loop this.data_ rhs.data_ rhs.size_ 0 this.data_.buffer_ w with
      | (true, buf, w1) => (Outcome.threw, { this with data_ := { this.data_ with buffer_ := buf } }, w1)
      | (false, buf, w1) =>
        match destroy_n buf rhs.size_ (usub this.size_ rhs.size_) w1 with
        | (buf1, w2) =>
          (Outcome.ok (),
           { this with data_ := { this.data_ with buffer_ := buf1 }, size_ := rhs.size_ }, w2)
    else
      match copy_assign_loop this.data_ rhs.data_ this.size_ 0 this.data_.buffer_ w with
      | (true, buf, w1) => (Outcome.threw, { this with data_ := { this.data_ with buffer_ := buf } }, w1)
      | (false, buf, w1) =>
        match uninitialized_copy_n rhs.data_.buffer_ this.size_ (usub rhs.size_ this.size_) buf
            this.size_ w1 with
        | (true, buf1, w2) =>
          (Outcome.threw, { this with data_ := { this.data_ with buffer_ := buf1 } }, w2)
        | (false, buf1, w2) =>
          (Outcome.ok (),
           { this with data_ := { this.data_ with buffer_ := buf1 }, size_ := rhs.size_ }, w2)

/-- The function `Vector::Reserve`. -/
def Vector.Reserve (E : Elem T) (v : Vector T) (new_capacity : Nat) (w : World) :
    Outcome Unit × Vector T × World :=
  if new_capacity ≤ v.data_.Capacity then (Outcome.ok (), v, w)
  else
    let new_data : RawMemory T := RawMemory.ctor new_capacity
    match relocate_n E v.data_.buffer_ 0 v.size_ new_data.buffer_ 0 w with
    | (true, src, _, w1) => (Outcome.threw, { v with data_ := { v.data_ with buffer_ := src } }, w1)
    | (false, src, dst, w1) =>
      match destroy_n src 0 v.size_ w1 with
      | (src1, w2) =>
        (Outcome.ok (),
         { v with data_ := (RawMemory.Swap { v.data_ with buffer_ := src1 }
                              { new_data with buffer_ := dst }).1 }, w2)

/-- The function `Vector::Resize`. -/
def Vector.Resize (E : Elem T) (v : Vector T) (new_size : Nat) (w : World) :
    Outcome Unit × Vector T × World :=
  let s1 : List (Option T) × World :=
    if new_size < v.size_ then destroy_n v.data_.buffer_ new_size (usub v.size_ new_size) w
    else (v.data_.buffer_, w)
  let v1 : Vector T := { v with data_ := { v.data_ with buffer_ := s1.1 } }
  if new_size > v.size_ then
    match Vector.Reserve E v1 new_size s1.2 with
    | (Outcome.ok _, v2, w2) =>
      match uninitialized_value_construct_n E v2.data_.buffer_ v2.size_ (usub new_size v2.size_)
          w2 with
      | (true, buf, w3) => (Outcome.threw, { v2 with data_ := { v2.data_ with buffer_ := buf } }, w3)
      | (false, buf, w3) =>
        (Outcome.ok (), { v2 with data_ := { v2.data_ with buffer_ := buf }, size_ := new_size }, w3)
    | (Outcome.threw, v2, w2) => (Outcome.threw, v2, w2)
    | (Outcome.terminated, v2, w2) => (Outcome.terminated, v2, w2)
  else (Outcome.ok (), { v1 with size_ := new_size }, s1.2)

/-- The function `Vector::PopBack`. -/
def Vector.PopBack (v : Vector T) (w : World) : Vector T × World :=
  match destroy_n v.data_.buffer_ (v.size_ - 1) 1 w with
  | (buf, w1) => ({ v with data_ := { v.data_ with buffer_ := buf }, size_ := usub v.size_ 1 }, w1)

/-- How the branches on `insrt_cpy_called`, `insrt_mve_called` and
`is_copy_constructible_v<T>` build the new element of `Emplace`. -/
inductive NewElem where
  | forward
  | move
  | rethrow
  deriving DecidableEq

/-- The branch taken by the flag tests of `Emplace` and of its growth constructor:
`T(std::forward<Args>(args)...)`, `T(std::move(args)...)`, or the statement `throw;`. -/
def Vector.new_elem (E : Elem T) (v : Vector T) : NewElem :=
  if v.insrt_cpy_called then
    if E.copy_constructible then NewElem.forward else NewElem.rethrow
  else if v.insrt_mve_called then NewElem.move
  else
    if E.copy_constructible then NewElem.forward else NewElem.move

/-- The constructor `Vector(Vector&& other, size_t size, int64_t dist, Args&&... args)`,
where `x` is the element the arguments construct.  Both handlers `catch (...)` destroy
and then fall through: nothing is thrown again. -/
def Vector.ctor_emplace (E : Elem T) (other : Vector T) (size dist : Nat) (x : T) (w : World) :
    Outcome (Vector T) × Vector T × World :=
  let data : RawMemory T := RawMemory.ctor size
  match Vector.new_elem E other with
  | NewElem.rethrow => (Outcome.terminated, other, w)
  | _ =>
    match (data.plus dist w).tick with
    | (true, w1) => (Outcome.threw, other, w1)
    | (false, w1) =>
      match relocate_n E other.data_.buffer_ 0 dist (data.buffer_.set dist (some x)) 0
          (w1.add 1) with
      | (t1, src1, dst1, w2) =>
        match (if t1 then destroy_n dst1 dist 1 w2 else (dst1, w2)) with
        | (dst2, w3) =>
          match relocate_n E src1 dist (usub other.size_ dist) dst2 (dist + 1) w3 with
          | (t2, src2, dst3, w4) =>
            match (if t2 then destroy_n dst3 0 (dist + 1) w4 else (dst3, w4)) with
            | (dst4, w5) =>
              (Outcome.ok { insrt_mve_called := false, insrt_cpy_called := false,
                            data_ := { data with buffer_ := dst4 },
                            size_ := usize (other.size_ + 1) },
               { other with data_ := { other.data_ with buffer_ := src2 } }, w5)

/-- The arguments of `EmplaceBack(Args&&... args)`, told apart by the constructor that the
call `Vector<T> new_vec(std::move(*this), ..., std::forward<Args>(args)...)` of its growth
branch resolves to.

* `plain x`: the call selects one of the three constructors of lines 98-136, which put the
  new element behind the old ones; `x` is the element `T(args...)`.
* `int64_first dist x y`: the first argument is an `int64_t` of value `dist` (not negative
  here; a negative one is converted by `data_ + dist` to an offset above every capacity)
  and `T` is not `int64_t`.  Then the constructor template
  `Vector(Vector&&, size_t, int64_t dist, Args&&...)` of line 138 matches the arguments
  exactly and is more specialised than the variadic template of line 124, so overload
  resolution selects it: the first argument becomes the position and only the remaining
  arguments construct the element.  `x` is `T(args...)`, built from all the arguments (by
  the in-place branch), and `y` is `T` built from the remaining arguments, `T()` when
  there are none (by the selected constructor). -/
inductive BackArgs (T : Type) where
  | plain (x : T)
  | int64_first (dist : Nat) (x y : T)

/-- The element `T(std::forward<Args>(args)...)` built from all the arguments. -/
def BackArgs.value : BackArgs T → T
  | BackArgs.plain x => x
  | BackArgs.int64_first _ x _ => x

/-- The constructor call `Vector<T> new_vec(std::move(*this), size, std::forward<Args>(args)...)`
of `EmplaceBack`, after overload resolution. -/
def Vector.ctor_back (E : Elem T) (other : Vector T) (size : Nat) (args : BackArgs T)
    (w : World) : Outcome (Vector T) × Vector T × World :=
  match args with
  | BackArgs.plain x => Vector.ctor_push E other size x w
  | BackArgs.int64_first dist _ y => Vector.ctor_emplace E other size dist y w

/-- The function `Vector::EmplaceBack(Args&&... args)`; it returns `data_[size_ - 1]`, here
the index of that slot. -/
def Vector.EmplaceBack (E : Elem T) (v : Vector T) (args : BackArgs T) (w : World) :
    Outcome Nat × Vector T × World :=
  if v.data_.Capacity = v.size_ then
    match Vector.ctor_back E v (if v.size_ = 0 then 1 else usize (2 * v.size_)) args w with
    | (Outcome.ok new_vec, other, w1) =>
      (Outcome.ok (usub (Vector.Swap other new_vec).1.size_ 1), (Vector.Swap other new_vec).1,
       (Vector.Swap other new_vec).1.data_.index (usub (Vector.Swap other new_vec).1.size_ 1)
         (Vector.dtor (Vector.Swap other new_vec).2 w1))
    | (Outcome.threw, other, w1) => (Outcome.threw, other, w1)
    | (Outcome.terminated, other, w1) => (Outcome.terminated, other, w1)
  else
    match (v.data_.plus v.size_ w).tick with
    | (true, w1) => (Outcome.threw, v, w1)
    | (false, w1) =>
      (Outcome.ok (usub (usize (v.size_ + 1)) 1),
       { v with data_ := { v.data_ with buffer_ := v.data_.buffer_.set v.size_ (some args.value) },
                size_ := usize (v.size_ + 1) },
       v.data_.index (usub (usize (v.size_ + 1)) 1) (w1.add 1))

/-- The function `Vector::Emplace(const_iterator pos, Args&&... args)` with
`dist = pos - cbegin()` and `x` the element the arguments construct; it returns the
position of the new element. -/
def Vector.Emplace (E : Elem T) (v : Vector T) (dist : Nat) (x : T) (w : World) :
    Outcome Nat × Vector T × World :=
  if v.data_.Capacity = v.size_ then
    match Vector.ctor_emplace E v (if v.size_ = 0 then 1 else usize (2 * v.size_)) dist x w with
    | (Outcome.ok new_vec, other, w1) =>
      (Outcome.ok dist, (Vector.Swap other new_vec).1, Vector.dtor (Vector.Swap other new_vec).2 w1)
    | (Outcome.threw, other, w1) => (Outcome.threw, other, w1)
    | (Outcome.terminated, other, w1) => (Outcome.terminated, other, w1)
  else if dist ≠ v.size_ then
    match Vector.new_elem E v with
    | NewElem.rethrow => (Outcome.terminated, v, w)
    | _ =>
      -- T&& temp = T(...);
      match w.tick with
      | (true, w1) => (Outcome.threw, v, w1)
      | (false, w1) =>
        -- new (data_ + size_) T(std::move(*end()));  where end() is slot size_
        match move_construct_tick E (v.data_.plus v.size_ (w1.add 1)) with
        | (true, w2) => (Outcome.threw, v, w2.add (-1))
        | (false, w2) =>
          -- std::move_backward(from, end() - 1, end());
          match move_backward E dist (v.size_ - 1 - dist) v.size_
              ((v.data_.buffer_.set v.size_ ((slot v.data_.buffer_ v.size_).map E.moved_from)).set
                v.size_ (slot v.data_.buffer_ v.size_)) (w2.add 1) with
          | (true, buf, w3) =>
            (Outcome.threw, { v with data_ := { v.data_ with buffer_ := buf } }, w3.add (-1))
          | (false, buf, w3) =>
            -- *fin = std::move(temp);  size_ += 1;  temp dies on return
            match move_assign_tick E w3 with
            | (true, w4) =>
              (Outcome.threw, { v with data_ := { v.data_ with buffer_ := buf } }, w4.add (-1))
            | (false, w4) =>
              (Outcome.ok dist,
               { v with data_ := { v.data_ with buffer_ := buf.set dist (some x) },
                        size_ := usize (v.size_ + 1) },
               w4.add (-1))
  else
    match (v.data_.plus v.size_ w).tick with
    | (true, w1) => (Outcome.threw, v, w1)
    | (false, w1) =>
      (Outcome.ok dist,
       { v with data_ := { v.data_ with buffer_ := v.data_.buffer_.set v.size_ (some x) },
                size_ := usize (v.size_ + 1) },
       w1.add 1)

/-- The function `Vector::Insert(const_iterator pos, const T& value)`; the statement that
would clear the flag follows the `return` and never runs. -/
def Vector.Insert (E : Elem T) (v : Vector T) (pos : Nat) (value : T) (w : World) :
    Outcome Nat × Vector T × World :=
  Vector.Emplace E { v with insrt_cpy_called := true } pos value w

/-- The function `Vector::Insert(const_iterator pos, T&& value)`. -/
def Vector.Insert_move (E : Elem T) (v : Vector T) (pos : Nat) (value : T) (w : World) :
    Outcome Nat × Vector T × World :=
  Vector.Emplace E { v with insrt_mve_called := true } pos value w

/-- The function `Vector::Erase(const_iterator pos)` with `pos` the offset from `cbegin()`;
it returns the position `fin`. -/
def Vector.Erase (E : Elem T) (v : Vector T) (pos : Nat) (w : World) :
    Outcome Nat × Vector T × World :=
  let dist := pos + 1
  match move_range E (v.size_ - dist) dist (dist - 1) v.data_.buffer_ w with
  | (true, buf, w1) => (Outcome.threw, { v with data_ := { v.data_ with buffer_ := buf } }, w1)
  | (false, buf, w1) =>
    match destroy_n buf (v.size_ - 1) 1 w1 with
    | (buf1, w2) =>
      (Outcome.ok (dist - 1),
       { v with data_ := { v.data_ with buffer_ := buf1 }, size_ := usub v.size_ 1 }, w2)

/-- The element type `int`: moves cannot throw and leave the value where it was. -/
def intElem : Elem Int :=
  { nothrow_move_constructible := true, copy_constructible := true,
    nothrow_move_assignable := true, moved_from := fun x => x, value_init := 0 }

/-- An instrumented element type as in scenario S4: copyable, every copy and move may
throw. -/
def probeElem : Elem Int :=
  { nothrow_move_constructible := false, copy_constructible := true,
    nothrow_move_assignable := false, moved_from := fun _ => 0, value_init := 0 }

/-- The element type `char`. -/
def charElem : Elem Char :=
  { nothrow_move_constructible := true, copy_constructible := true,
    nothrow_move_assignable := true, moved_from := fun x => x, value_init := Char.ofNat 0 }

/-- A world with nothing scheduled to throw. -/
def World.quiet (live : Int) : World := { live := live, throws := [], asserts_ok := true }

/-- No element operation is scheduled to throw. -/
def World.calm (w : World) : Prop := ∀ b ∈ w.throws, b = false

instance (w : World) : Decidable w.calm := by
  unfold World.calm
  infer_instance

/-- A vector holding `xs` in a block of `cap` slots. -/
def Vector.of (xs : List T) (cap : Nat) : Vector T :=
  { insrt_mve_called := false, insrt_cpy_called := false,
    data_ := { buffer_ := xs.map some ++ List.replicate (cap - xs.length) none, capacity_ := cap },
    size_ := xs.length }

/-- The representation invariant of a vector: `size_ <= capacity_`, and the block has
`capacity_` slots. -/
def Vector.Valid (v : Vector T) : Prop :=
  v.size_ ≤ v.data_.capacity_ ∧ v.data_.buffer_.length = v.data_.capacity_

instance (v : Vector T) : Decidable v.Valid := by
  unfold Vector.Valid
  infer_instance

/-- Successive calls of `PushBack(const T&)`, whatever their outcome. -/
def push_all (E : Elem T) : List T → Vector T → World → Vector T × World
  | [], v, w => (v, w)
  | x :: xs, v, w => push_all E xs (Vector.PushBack E v x w).2.1 (Vector.PushBack E v x w).2.2

/-! ## Slots of a block -/

theorem slot_eq (buf : List (Option T)) (i : Nat) : slot buf i = (buf[i]?).getD none := by
  simp [slot, List.getD_eq_getElem?_getD]

theorem slot_of_le (buf : List (Option T)) (i : Nat) (h : buf.length ≤ i) : slot buf i = none := by
  simp [slot_eq, List.getElem?_eq_none h]

theorem slot_set (buf : List (Option T)) (j i : Nat) (x : Option T) :
    slot (buf.set j x) i = if j = i ∧ j < buf.length then x else slot buf i := by
  simp only [slot_eq, List.getElem?_set]
  by_cases h : j = i
  · subst h
    by_cases h2 : j < buf.length
    · simp [h2]
    · simp [h2, List.getElem?_eq_none (Nat.le_of_not_lt h2)]
  · simp [h]

theorem slot_take (buf : List (Option T)) (n i : Nat) :
    slot (buf.take n) i = if i < n then slot buf i else none := by
  simp only [slot_eq, List.getElem?_take]
  split <;> simp

theorem slot_drop (buf : List (Option T)) (n i : Nat) :
    slot (buf.drop n) i = slot buf (n + i) := by
  simp [slot_eq, List.getElem?_drop]

theorem slot_append (a b : List (Option T)) (i : Nat) :
    slot (a ++ b) i = if i < a.length then slot a i else slot b (i - a.length) := by
  simp only [slot_eq]
  split
  · rename_i h; rw [List.getElem?_append_left h]
  · rename_i h; rw [List.getElem?_append_right (Nat.le_of_not_lt h)]

theorem slot_replicate (n i : Nat) : slot (List.replicate n (none : Option T)) i = none := by
  simp only [slot_eq, List.getElem?_replicate]
  split <;> simp

theorem slot_singleton (x : Option T) (i : Nat) : slot [x] i = if i = 0 then x else none := by
  cases i <;> simp [slot]

theorem ext_slot (a b : List (Option T)) (hl : a.length = b.length)
    (h : ∀ i, i < a.length → slot a i = slot b i) : a = b := by
  apply List.ext_getElem hl
  intro i h1 h2
  have := h i h1
  simp only [slot_eq, List.getElem?_eq_getElem h1, List.getElem?_eq_getElem h2,
    Option.getD_some] at this
  exact this

theorem slot_Allocate (n i : Nat) : slot (RawMemory.Allocate n : List (Option T)) i = none := by
  unfold RawMemory.Allocate
  split
  · exact slot_replicate n i
  · simp [slot]

theorem length_Allocate (n : Nat) : (RawMemory.Allocate n : List (Option T)).length = n := by
  unfold RawMemory.Allocate
  split
  · simp
  · rename_i h
    simp at h
    simp [h]

/-! ## The world -/

theorem tick_calm (w : World) (h : w.calm) : ∃ w1, w.tick = (false, w1) ∧ w1.calm := by
  unfold World.tick
  unfold World.calm at h
  rcases hw : w.throws with _ | ⟨b, rest⟩
  · exact ⟨w, rfl, by unfold World.calm; rw [hw]; simp⟩
  · rw [hw] at h
    have hb : b = false := h b (by simp)
    subst hb
    exact ⟨{ w with throws := rest }, rfl, fun c hc => h c (by simp [hc])⟩

@[simp] theorem add_calm (w : World) (n : Int) : (w.add n).calm = w.calm := rfl

@[simp] theorem plus_calm (m : RawMemory T) (k : Nat) (w : World) :
    (m.plus k w).calm = w.calm := rfl

@[simp] theorem index_calm (m : RawMemory T) (k : Nat) (w : World) :
    (m.index k w).calm = w.calm := rfl

@[simp] theorem add_throws (w : World) (n : Int) : (w.add n).throws = w.throws := rfl

@[simp] theorem plus_throws (m : RawMemory T) (k : Nat) (w : World) :
    (m.plus k w).throws = w.throws := rfl

@[simp] theorem index_throws (m : RawMemory T) (k : Nat) (w : World) :
    (m.index k w).throws = w.throws := rfl

theorem move_construct_tick_calm (E : Elem T) (w : World) (h : w.calm) :
    ∃ w1, move_construct_tick E w = (false, w1) ∧ w1.calm := by
  unfold move_construct_tick
  split
  · exact ⟨w, rfl, h⟩
  · exact tick_calm w h

theorem move_assign_tick_calm (E : Elem T) (w : World)
    (h : w.calm ∨ E.nothrow_move_assignable = true) :
    ∃ w1, move_assign_tick E w = (false, w1) ∧ (w.calm → w1.calm) := by
  unfold move_assign_tick
  split
  · exact ⟨w, rfl, fun hc => hc⟩
  · rename_i hn
    rcases h with h | h
    · obtain ⟨w1, h1, h2⟩ := tick_calm w h
      exact ⟨w1, h1, fun _ => h2⟩
    · exact absurd h hn

/-! ## The algorithms -/

theorem destroy_n_throws (buf : List (Option T)) (p n : Nat) (w : World) :
    (destroy_n buf p n w).2.throws = w.throws := by
  induction n with
  | zero => rfl
  | succ k ih => simpa [destroy_n] using ih

theorem destroy_n_calm (buf : List (Option T)) (p n : Nat) (w : World) :
    (destroy_n buf p n w).2.calm = w.calm := by
  unfold World.calm
  rw [destroy_n_throws]

theorem destroy_n_live (buf : List (Option T)) (p n : Nat) (w : World) :
    (destroy_n buf p n w).2.live = w.live - n := by
  induction n with
  | zero => simp [destroy_n]
  | succ k ih =>
    simp only [destroy_n, World.add, ih]
    push_cast
    ring

theorem destroy_n_length (buf : List (Option T)) (p n : Nat) (w : World) :
    (destroy_n buf p n w).1.length = buf.length := by
  induction n with
  | zero => rfl
  | succ k ih => simpa [destroy_n] using ih

theorem destroy_n_slot (buf : List (Option T)) (p n : Nat) (w : World) (i : Nat) :
    slot (destroy_n buf p n w).1 i = if p ≤ i ∧ i < p + n then none else slot buf i := by
  induction n with
  | zero =>
    simp only [destroy_n]
    rw [if_neg (by omega)]
  | succ k ih =>
    simp only [destroy_n, slot_set, ih, destroy_n_length]
    by_cases h1 : p + k = i
    · subst h1
      by_cases h2 : p + k < buf.length
      · simp [h2]
      · have h3 : slot buf (p + k) = none := slot_of_le buf _ (by omega)
        simp [h2, h3]
    · have h4 : (p ≤ i ∧ i < p + (k + 1)) ↔ (p ≤ i ∧ i < p + k) := by omega
      simp [h1, h4]

theorem uninitialized_copy_loop_spec (src : List (Option T)) (s d : Nat) :
    ∀ (r done : Nat) (dst : List (Option T)) (w : World),
      (uninitialized_copy_loop src s d r done dst w).1 = false →
      (uninitialized_copy_loop src s d r done dst w).2.1.length = dst.length ∧
      ∀ i, slot (uninitialized_copy_loop src s d r done dst w).2.1 i =
        if d + done ≤ i ∧ i < d + done + r ∧ i < dst.length then slot src (s + (i - d))
        else slot dst i := by
  intro r
  induction r with
  | zero =>
    intro done dst w _
    refine ⟨rfl, fun i => ?_⟩
    simp only [uninitialized_copy_loop]
    rw [if_neg (by omega)]
  | succ k ih =>
    intro done dst w h
    unfold uninitialized_copy_loop at h ⊢
    rcases ht : w.tick with ⟨t, w1⟩
    rw [ht] at h
    cases t with
    | true => simp at h
    | false =>
      simp only at h ⊢
      obtain ⟨hl, hs⟩ := ih _ _ _ h
      refine ⟨by simpa using hl, ?_⟩
      intro i
      rw [hs i, slot_set, List.length_set]
      by_cases h1 : d + done = i
      · subst h1
        by_cases h2 : d + done < dst.length
        · have h3 : s + (d + done - d) = s + done := by omega
          simp [h2, h3]
        · have h3 : slot dst (d + done) = none := slot_of_le dst _ (by omega)
          simp [h2, h3]
      · have h4 : (d + (done + 1) ≤ i ∧ i < d + (done + 1) + k ∧ i < dst.length) ↔
            (d + done ≤ i ∧ i < d + done + (k + 1) ∧ i < dst.length) := by omega
        simp [h1, h4]

theorem uninitialized_copy_loop_quiet (src : List (Option T)) (s d : Nat) :
    ∀ (r done : Nat) (dst : List (Option T)) (w : World), w.calm →
      (uninitialized_copy_loop src s d r done dst w).1 = false ∧
      (uninitialized_copy_loop src s d r done dst w).2.2.calm := by
  intro r
  induction r with
  | zero => intro done dst w h; exact ⟨rfl, h⟩
  | succ k ih =>
    intro done dst w h
    unfold uninitialized_copy_loop
    obtain ⟨w1, ht, hc⟩ := tick_calm w h
    rw [ht]
    exact ih _ _ _ hc

theorem uninitialized_move_loop_spec (E : Elem T) (s d : Nat) :
    ∀ (r done : Nat) (src dst : List (Option T)) (w : World),
      (uninitialized_move_loop E s d r done src dst w).1 = false →
      (uninitialized_move_loop E s d r done src dst w).2.2.1.length = dst.length ∧
      ∀ i, slot (uninitialized_move_loop E s d r done src dst w).2.2.1 i =
        if d + done ≤ i ∧ i < d + done + r ∧ i < dst.length then slot src (s + (i - d))
        else slot dst i := by
  intro r
  induction r with
  | zero =>
    intro done src dst w _
    refine ⟨rfl, fun i => ?_⟩
    simp only [uninitialized_move_loop]
    rw [if_neg (by omega)]
  | succ k ih =>
    intro done src dst w h
    unfold uninitialized_move_loop at h ⊢
    rcases ht : move_construct_tick E w with ⟨t, w1⟩
    rw [ht] at h
    cases t with
    | true => simp at h
    | false =>
      simp only at h ⊢
      obtain ⟨hl, hs⟩ := ih _ _ _ _ h
      refine ⟨by simpa using hl, ?_⟩
      intro i
      rw [hs i]
      simp only [slot_set, List.length_set]
      by_cases h1 : d + done = i
      · subst h1
        by_cases h2 : d + done < dst.length
        · have h5 : s + (d + done - d) = s + done := by omega
          rw [if_neg (by omega), if_pos ⟨rfl, h2⟩, if_pos (by omega), h5]
        · have h3 : slot dst (d + done) = none := slot_of_le dst _ (by omega)
          rw [if_neg (by omega), if_neg (by omega), if_neg (by omega)]
      · by_cases h6 : d + (done + 1) ≤ i ∧ i < d + (done + 1) + k ∧ i < dst.length
        · rw [if_pos h6, if_neg (by omega), if_pos (by omega)]
        · rw [if_neg h6, if_neg (by omega), if_neg (by omega)]

theorem uninitialized_move_loop_quiet (E : Elem T) (s d : Nat) :
    ∀ (r done : Nat) (src dst : List (Option T)) (w : World), w.calm →
      (uninitialized_move_loop E s d r done src dst w).1 = false ∧
      (uninitialized_move_loop E s d r done src dst w).2.2.2.calm := by
  intro r
  induction r with
  | zero => intro done src dst w h; exact ⟨rfl, h⟩
  | succ k ih =>
    intro done src dst w h
    unfold uninitialized_move_loop
    obtain ⟨w1, ht, hc⟩ := move_construct_tick_calm E w h
    rw [ht]
    exact ih _ _ _ _ hc

theorem uninitialized_move_loop_nothrow (E : Elem T) (s d : Nat)
    (hE : E.nothrow_move_constructible = true) :
    ∀ (r done : Nat) (src dst : List (Option T)) (w : World),
      (uninitialized_move_loop E s d r done src dst w).1 = false := by
  intro r
  induction r with
  | zero => intro done src dst w; rfl
  | succ k ih =>
    intro done src dst w
    unfold uninitialized_move_loop
    simp only [move_construct_tick, hE, if_true]
    exact ih _ _ _ _

theorem relocate_n_spec (E : Elem T) (src : List (Option T)) (s n : Nat)
    (dst : List (Option T)) (d : Nat) (w : World)
    (h : (relocate_n E src s n dst d w).1 = false) :
    (relocate_n E src s n dst d w).2.2.1.length = dst.length ∧
    ∀ i, slot (relocate_n E src s n dst d w).2.2.1 i =
      if d ≤ i ∧ i < d + n ∧ i < dst.length then slot src (s + (i - d)) else slot dst i := by
  unfold relocate_n at h ⊢
  split
  · rename_i hc
    rw [if_pos hc] at h
    simpa [uninitialized_move_n] using uninitialized_move_loop_spec E s d n 0 src dst w h
  · rename_i hc
    rw [if_neg hc] at h
    simpa [uninitialized_copy_n] using uninitialized_copy_loop_spec src s d n 0 dst w h

theorem relocate_n_quiet (E : Elem T) (src : List (Option T)) (s n : Nat)
    (dst : List (Option T)) (d : Nat) (w : World) (h : w.calm) :
    (relocate_n E src s n dst d w).1 = false ∧
    (relocate_n E src s n dst d w).2.2.2.calm := by
  unfold relocate_n
  split
  · exact uninitialized_move_loop_quiet E s d n 0 src dst w h
  · exact uninitialized_copy_loop_quiet src s d n 0 dst w h

theorem relocate_n_source (E : Elem T) (src : List (Option T)) (s n : Nat)
    (dst : List (Option T)) (d : Nat) (w : World) (hE : E.copy_constructible = true)
    (h : (relocate_n E src s n dst d w).1 = true) :
    (relocate_n E src s n dst d w).2.1 = src := by
  unfold relocate_n at h ⊢
  split
  · rename_i hc
    rw [if_pos hc] at h
    have hn : E.nothrow_move_constructible = true := by simpa [hE] using hc
    have := uninitialized_move_loop_nothrow E s d hn n 0 src dst w
    simp [uninitialized_move_n, this] at h
  · rfl

theorem take_splice (buf1 buf : List (Option T)) (n d : Nat) (x : Option T)
    (hd : d ≤ n) (hn : n ≤ buf.length) (hlen : n < buf1.length)
    (hpre : ∀ i, i < d → slot buf1 i = slot buf i) (hx : slot buf1 d = x)
    (hsuf : ∀ i, d < i → i ≤ n → slot buf1 i = slot buf (i - 1)) :
    buf1.take (n + 1) = (buf.take n).take d ++ [x] ++ (buf.take n).drop d := by
  apply ext_slot
  · simp only [List.length_take, List.length_append, List.length_drop, List.length_singleton]
    omega
  · intro i hi
    simp only [List.length_take] at hi
    have hi2 : i < n + 1 := by omega
    simp only [slot_take, slot_append, slot_singleton, slot_drop, List.length_take,
      List.length_append, List.length_singleton, if_pos hi2]
    by_cases h1 : i < d
    · have : i < min d (min n buf.length) + 1 := by omega
      have h3 : i < min d (min n buf.length) := by omega
      rw [if_pos this, if_pos h3, if_pos h1, if_pos (by omega)]
      exact hpre i h1
    · by_cases h2 : i = d
      · subst h2
        have : i < min i (min n buf.length) + 1 := by omega
        have h3 : ¬ i < min i (min n buf.length) := by omega
        have h4 : i - min i (min n buf.length) = 0 := by omega
        rw [if_pos this, if_neg h3, if_pos h4]
        exact hx
      · have : ¬ i < min d (min n buf.length) + 1 := by omega
        have h5 : d + (i - (min d (min n buf.length) + 1)) = i - 1 := by omega
        rw [if_neg this, h5, if_pos (by omega)]
        exact hsuf i (by omega) (by omega)

theorem usize_of_lt (n : Nat) (h : n < SIZE_MOD) : usize n = n := Nat.mod_eq_of_lt h

theorem usub_of_le (a b : Nat) (hb : b ≤ a) (ha : a < SIZE_MOD) : usub a b = a - b := by
  unfold usub
  unfold SIZE_MOD at *
  omega

theorem ctor_push_ok (E : Elem T) (other : Vector T) (size : Nat) (elem : T) (w : World)
    (nv o2 : Vector T) (w2 : World)
    (h : Vector.ctor_push E other size elem w = (Outcome.ok nv, o2, w2)) :
    nv.size_ = usize (other.size_ + 1) ∧ nv.data_.capacity_ = size ∧
    nv.data_.buffer_.length = size ∧
    ∀ i, slot nv.data_.buffer_ i =
      if i < other.size_ ∧ i < size then slot other.data_.buffer_ i
      else if i = other.size_ ∧ i < size then some elem else none := by
  unfold Vector.ctor_push at h
  simp only at h
  split at h
  · simp at h
  · split at h
    · simp at h
    · rename_i w1 _ _ src dst w3 hr
      simp only [Prod.mk.injEq, Outcome.ok.injEq] at h
      obtain ⟨h1, -, -⟩ := h
      have hf : (relocate_n E other.data_.buffer_ 0 other.size_
          ((RawMemory.ctor size).buffer_.set other.size_ (some elem)) 0 (w1.add 1)).1 = false := by
        rw [hr]
      obtain ⟨hl, hs⟩ := relocate_n_spec _ _ _ _ _ _ _ hf
      rw [hr] at hl hs
      simp only [RawMemory.ctor, List.length_set, length_Allocate] at hl hs
      subst h1
      refine ⟨rfl, rfl, hl, fun i => ?_⟩
      simp only [RawMemory.ctor]
      rw [hs i, slot_set, slot_Allocate, length_Allocate]
      by_cases h2 : i < other.size_ ∧ i < size
      · rw [if_pos (by omega), if_pos h2]
        simp
      · rw [if_neg (by omega), if_neg h2]
        by_cases h3 : i = other.size_ ∧ i < size
        · rw [if_pos (by omega), if_pos h3]
        · rw [if_neg (by omega), if_neg h3]

theorem ctor_push_quiet (E : Elem T) (other : Vector T) (size : Nat) (elem : T) (w : World)
    (h : w.calm) :
    ∃ nv o2 w2, Vector.ctor_push E other size elem w = (Outcome.ok nv, o2, w2) ∧
      w2.calm := by
  unfold Vector.ctor_push
  simp only
  obtain ⟨w1, ht, hc⟩ := tick_calm ((RawMemory.ctor size : RawMemory T).plus other.size_ w) h
  rw [ht]
  simp only
  obtain ⟨h1, h2⟩ := relocate_n_quiet E other.data_.buffer_ 0 other.size_
    ((RawMemory.ctor size).buffer_.set other.size_ (some elem)) 0 (w1.add 1) hc
  generalize relocate_n E other.data_.buffer_ 0 other.size_
    ((RawMemory.ctor size).buffer_.set other.size_ (some elem)) 0 (w1.add 1) = r at h1 h2 ⊢
  obtain ⟨t, src, dst, w3⟩ := r
  simp only at h1 h2
  subst h1
  exact ⟨_, _, _, rfl, h2⟩

theorem take_push (buf1 buf : List (Option T)) (n : Nat) (x : Option T)
    (hn : n ≤ buf.length) (hlen : n < buf1.length)
    (hpre : ∀ i, i < n → slot buf1 i = slot buf i) (hx : slot buf1 n = x) :
    buf1.take (n + 1) = buf.take n ++ [x] := by
  have h := take_splice buf1 buf n n x le_rfl hn hlen hpre hx (fun i h1 h2 => by omega)
  rw [h, List.take_take, Nat.min_self, List.drop_eq_nil_of_le (by simp), List.append_nil]

theorem PushBack_post (E : Elem T) (v : Vector T) (x : T) (w : World) (hv : v.Valid)
    (hfit : 2 * v.size_ < SIZE_MOD) (h : (Vector.PushBack E v x w).1 = Outcome.ok ()) :
    (Vector.PushBack E v x w).2.1.elems = v.elems ++ [some x] ∧
    (Vector.PushBack E v x w).2.1.size_ = v.size_ + 1 ∧
    (Vector.PushBack E v x w).2.1.data_.capacity_ =
      (if v.data_.capacity_ = v.size_ then (if v.size_ = 0 then 1 else 2 * v.size_)
       else v.data_.capacity_) ∧
    (Vector.PushBack E v x w).2.1.Valid := by
  obtain ⟨hsz, hlen⟩ := hv
  have hS : usize (v.size_ + 1) = v.size_ + 1 :=
    usize_of_lt _ (by unfold SIZE_MOD at *; omega)
  have hD : usize (2 * v.size_) = 2 * v.size_ := usize_of_lt _ hfit
  unfold Vector.PushBack at h ⊢
  by_cases hc : v.data_.Capacity = v.size_
  · rw [if_pos hc] at h ⊢
    rcases hcp : Vector.ctor_push E v (if v.size_ = 0 then 1 else usize (2 * v.size_)) x w with
      ⟨o, other, w1⟩
    rw [hcp] at h
    cases o with
    | threw => simp at h
    | terminated => simp at h
    | ok nv =>
      obtain ⟨h1, h2, h3, h4⟩ := ctor_push_ok _ _ _ _ _ _ _ _ hcp
      rw [hD] at h2 h3 h4
      rw [hS] at h1
      have hc2 : v.data_.capacity_ = v.size_ := hc
      have hcap : v.size_ < (if v.size_ = 0 then 1 else 2 * v.size_) := by
        split <;> omega
      simp only [Vector.Swap, RawMemory.Swap, Vector.elems, Vector.Valid]
      refine ⟨?_, h1, ?_, ?_, h3.trans h2.symm⟩
      · rw [h1]
        apply take_push
        · omega
        · omega
        · intro i hi
          rw [h4 i, if_pos (by omega)]
        · rw [h4, if_neg (by omega), if_pos ⟨rfl, hcap⟩]
      · rw [h2, if_pos hc2]
      · rw [h1, h2]; omega
  · rw [if_neg hc] at h ⊢
    have hc2 : v.data_.capacity_ ≠ v.size_ := hc
    rcases ht : (v.data_.plus v.size_ w).tick with ⟨t, w1⟩
    rw [ht] at h
    cases t with
    | true => simp at h
    | false =>
      simp only [Vector.elems, Vector.Valid, hS]
      refine ⟨?_, trivial, ?_, ?_, ?_⟩
      · apply take_push
        · omega
        · simp; omega
        · intro i hi
          rw [slot_set, if_neg (by omega)]
        · rw [slot_set, if_pos ⟨rfl, by omega⟩]
      · rw [if_neg hc2]
      · omega
      · simpa using hlen

theorem dtor_calm (v : Vector T) (w : World) : (Vector.dtor v w).calm = w.calm := by
  unfold Vector.dtor
  split
  · exact destroy_n_calm _ _ _ _
  · rfl

theorem PushBack_quiet (E : Elem T) (v : Vector T) (x : T) (w : World) (h : w.calm) :
    (Vector.PushBack E v x w).1 = Outcome.ok () ∧ (Vector.PushBack E v x w).2.2.calm := by
  unfold Vector.PushBack
  split
  · obtain ⟨nv, o2, w2, h1, h2⟩ :=
      ctor_push_quiet E v (if v.size_ = 0 then 1 else usize (2 * v.size_)) x w h
    rw [h1]
    simp only [true_and, dtor_calm]
    exact h2
  · obtain ⟨w1, ht, hc⟩ := tick_calm (v.data_.plus v.size_ w) h
    rw [ht]
    exact ⟨rfl, hc⟩

theorem PushBack_move_eq (E : Elem T) (v : Vector T) (x : T) (w : World) :
    Vector.PushBack_move E v x w = Vector.PushBack E v x w := rfl


theorem uninitialized_move_loop_source (E : Elem T) (s d : Nat) :
    ∀ (r done : Nat) (src dst : List (Option T)) (w : World) (i : Nat), s + done + r ≤ i →
      slot (uninitialized_move_loop E s d r done src dst w).2.1 i = slot src i := by
  intro r
  induction r with
  | zero => intro done src dst w i _; rfl
  | succ k ih =>
    intro done src dst w i hi
    unfold uninitialized_move_loop
    rcases ht : move_construct_tick E w with ⟨t, w1⟩
    cases t with
    | true => rfl
    | false =>
      simp only
      rw [ih _ _ _ _ i (by omega), slot_set, if_neg (by omega)]

theorem relocate_n_source_slot (E : Elem T) (src : List (Option T)) (s n : Nat)
    (dst : List (Option T)) (d : Nat) (w : World) (i : Nat) (hi : s + n ≤ i) :
    slot (relocate_n E src s n dst d w).2.1 i = slot src i := by
  unfold relocate_n
  split
  · exact uninitialized_move_loop_source E s d n 0 src dst w i (by omega)
  · rfl

theorem ctor_emplace_quiet (E : Elem T) (other : Vector T) (size dist : Nat) (x : T) (w : World)
    (hq : w.calm) (hflag : Vector.new_elem E other ≠ NewElem.rethrow)
    (hd : dist ≤ other.size_) (hs : other.size_ < SIZE_MOD) :
    ∃ nv o2 w2, Vector.ctor_emplace E other size dist x w = (Outcome.ok nv, o2, w2) ∧
      w2.calm ∧ nv.size_ = usize (other.size_ + 1) ∧ nv.data_.capacity_ = size ∧
      nv.data_.buffer_.length = size ∧
      ∀ i, i < size → slot nv.data_.buffer_ i =
        if i < dist then slot other.data_.buffer_ i
        else if i = dist then some x
        else if i ≤ other.size_ then slot other.data_.buffer_ (i - 1) else none := by
  have hsub : usub other.size_ dist = other.size_ - dist := usub_of_le _ _ hd hs
  unfold Vector.ctor_emplace
  simp only
  obtain ⟨w1, ht, hc1⟩ := tick_calm ((RawMemory.ctor size : RawMemory T).plus dist w) hq
  rw [ht, hsub]
  simp only
  have hw0 : (w1.add 1).calm := hc1
  generalize w1.add 1 = w0 at hw0 ⊢
  obtain ⟨h1, h2⟩ := relocate_n_quiet E other.data_.buffer_ 0 dist
    ((RawMemory.ctor size).buffer_.set dist (some x)) 0 w0 hw0
  have h1s := relocate_n_spec E other.data_.buffer_ 0 dist
    ((RawMemory.ctor size).buffer_.set dist (some x)) 0 w0 h1
  have h1r := fun i hi => relocate_n_source_slot E other.data_.buffer_ 0 dist
    ((RawMemory.ctor size).buffer_.set dist (some x)) 0 w0 i hi
  generalize relocate_n E other.data_.buffer_ 0 dist
    ((RawMemory.ctor size).buffer_.set dist (some x)) 0 w0 = r1 at h1 h2 h1s h1r ⊢
  obtain ⟨t1, src1, dst1, w2⟩ := r1
  simp only at h1 h2 h1s h1r
  subst h1
  simp only [Bool.false_eq_true, if_false]
  obtain ⟨h3, h4⟩ := relocate_n_quiet E src1 dist (other.size_ - dist) dst1 (dist + 1) w2 h2
  have h3s := relocate_n_spec E src1 dist (other.size_ - dist) dst1 (dist + 1) w2 h3
  generalize relocate_n E src1 dist (other.size_ - dist) dst1 (dist + 1) w2 = r2 at h3 h4 h3s ⊢
  obtain ⟨t2, src2, dst3, w4⟩ := r2
  simp only at h3 h4 h3s
  subst h3
  simp only [Bool.false_eq_true, if_false]
  obtain ⟨hl1, hs1⟩ := h1s
  obtain ⟨hl3, hs3⟩ := h3s
  simp only [RawMemory.ctor, List.length_set, length_Allocate] at hl1 hs1
  cases hne : Vector.new_elem E other with
  | rethrow => exact absurd hne hflag
  | forward =>
    refine ⟨_, _, _, rfl, h4, rfl, rfl, by rw [hl3, hl1], ?_⟩
    intro i hi
    simp only
    rw [hs3 i, hl1]
    by_cases c1 : i < dist
    · rw [if_neg (by omega), hs1 i, if_pos (by omega), if_pos c1]
      simp
    · by_cases c2 : i = dist
      · rw [if_neg (by omega), hs1 i, if_neg (by omega), if_neg c1, if_pos c2, slot_set,
          if_pos ⟨c2.symm, by rw [length_Allocate]; omega⟩]
      · by_cases c3 : i ≤ other.size_
        · rw [if_pos (by omega), if_neg c1, if_neg c2, if_pos c3, h1r _ (by omega)]
          congr 1
          omega
        · rw [if_neg (by omega), hs1 i, if_neg (by omega), if_neg c1, if_neg c2, if_neg c3,
            slot_set, if_neg (by omega), slot_Allocate]
  | move =>
    refine ⟨_, _, _, rfl, h4, rfl, rfl, by rw [hl3, hl1], ?_⟩
    intro i hi
    simp only
    rw [hs3 i, hl1]
    by_cases c1 : i < dist
    · rw [if_neg (by omega), hs1 i, if_pos (by omega), if_pos c1]
      simp
    · by_cases c2 : i = dist
      · rw [if_neg (by omega), hs1 i, if_neg (by omega), if_neg c1, if_pos c2, slot_set,
          if_pos ⟨c2.symm, by rw [length_Allocate]; omega⟩]
      · by_cases c3 : i ≤ other.size_
        · rw [if_pos (by omega), if_neg c1, if_neg c2, if_pos c3, h1r _ (by omega)]
          congr 1
          omega
        · rw [if_neg (by omega), hs1 i, if_neg (by omega), if_neg c1, if_neg c2, if_neg c3,
            slot_set, if_neg (by omega), slot_Allocate]

theorem Emplace_grow_quiet (E : Elem T) (v : Vector T) (d : Nat) (x : T) (w : World)
    (hv : v.Valid) (hfull : v.data_.capacity_ = v.size_) (hd : d ≤ v.size_)
    (hfit : 2 * v.size_ < SIZE_MOD) (hq : w.calm)
    (hflag : Vector.new_elem E v ≠ NewElem.rethrow) :
    (Vector.Emplace E v d x w).1 = Outcome.ok d ∧
    (Vector.Emplace E v d x w).2.1.elems = v.elems.take d ++ [some x] ++ v.elems.drop d ∧
    (Vector.Emplace E v d x w).2.1.size_ = v.size_ + 1 ∧
    (Vector.Emplace E v d x w).2.1.data_.capacity_ = max 1 (2 * v.size_) ∧
    (Vector.Emplace E v d x w).2.1.Valid ∧
    (Vector.Emplace E v d x w).2.2.calm := by
  obtain ⟨hsz, hlen⟩ := hv
  have hS : usize (v.size_ + 1) = v.size_ + 1 :=
    usize_of_lt _ (by unfold SIZE_MOD at *; omega)
  have hD : usize (2 * v.size_) = 2 * v.size_ := usize_of_lt _ hfit
  have hcap : (if v.size_ = 0 then 1 else 2 * v.size_) = max 1 (2 * v.size_) := by
    split <;> omega
  obtain ⟨nv, o2, w2, h0, h1, h2, h3, h4, h5⟩ := ctor_emplace_quiet E v
    (if v.size_ = 0 then 1 else usize (2 * v.size_)) d x w hq hflag hd
    (by unfold SIZE_MOD at *; omega)
  rw [hD, hcap] at h3 h4 h5
  rw [hS] at h2
  unfold Vector.Emplace
  rw [if_pos (show v.data_.Capacity = v.size_ from hfull), h0]
  simp only [Vector.Swap, RawMemory.Swap, Vector.elems, Vector.Valid, dtor_calm]
  refine ⟨trivial, ?_, h2, h3, ⟨by rw [h2, h3]; omega, h4.trans h3.symm⟩, h1⟩
  rw [h2]
  apply take_splice _ _ _ _ _ hd (by omega) (by omega)
  · intro i hi
    rw [h5 i (by omega), if_pos hi]
  · rw [h5 d (by omega), if_neg (by omega), if_pos rfl]
  · intro i hi1 hi2
    rw [h5 i (by omega), if_neg (by omega), if_neg (by omega), if_pos hi2]

theorem uninitialized_copy_loop_throws (src : List (Option T)) (s d : Nat) :
    ∀ (k r done : Nat) (dst : List (Option T)) (w : World) (rest : List Bool), k < r →
      w.throws = List.replicate k false ++ true :: rest →
      (uninitialized_copy_loop src s d r done dst w).1 = true := by
  intro k
  induction k with
  | zero =>
    intro r done dst w rest hk hw
    obtain ⟨r1, rfl⟩ : ∃ r1, r = r1 + 1 := ⟨r - 1, by omega⟩
    unfold uninitialized_copy_loop
    have ht : w.tick = (true, { w with throws := rest }) := by
      simp [World.tick, hw]
    rw [ht]
  | succ j ih =>
    intro r done dst w rest hk hw
    obtain ⟨r1, rfl⟩ : ∃ r1, r = r1 + 1 := ⟨r - 1, by omega⟩
    unfold uninitialized_copy_loop
    have ht : w.tick = (false, { w with throws := List.replicate j false ++ true :: rest }) := by
      simp [World.tick, hw, List.replicate_succ]
    rw [ht]
    exact ih r1 _ _ _ rest (by omega) rfl

theorem ctor_push_strong (E : Elem T) (other : Vector T) (size : Nat) (elem : T) (w : World)
    (hE : E.copy_constructible = true) :
    (∃ nv, (Vector.ctor_push E other size elem w).1 = Outcome.ok nv) ∨
    ((Vector.ctor_push E other size elem w).1 = Outcome.threw ∧
     (Vector.ctor_push E other size elem w).2.1 = other) := by
  unfold Vector.ctor_push
  simp only
  split
  · exact Or.inr ⟨rfl, rfl⟩
  · split
    · rename_i w1 _ _ src dst w3 hr
      have hs := relocate_n_source E other.data_.buffer_ 0 other.size_
        ((RawMemory.ctor size).buffer_.set other.size_ (some elem)) 0 (w1.add 1) hE (by rw [hr])
      rw [hr] at hs
      simp only at hs
      subst hs
      exact Or.inr ⟨rfl, rfl⟩
    · exact Or.inl ⟨_, rfl⟩

theorem PushBack_strong (E : Elem T) (v : Vector T) (x : T) (w : World)
    (hE : E.copy_constructible = true) (hfull : v.data_.capacity_ = v.size_) :
    (Vector.PushBack E v x w).1 = Outcome.ok () ∨
    ((Vector.PushBack E v x w).1 = Outcome.threw ∧ (Vector.PushBack E v x w).2.1 = v) := by
  unfold Vector.PushBack
  rw [if_pos (show v.data_.Capacity = v.size_ from hfull)]
  have h := ctor_push_strong E v (if v.size_ = 0 then 1 else usize (2 * v.size_)) x w hE
  generalize Vector.ctor_push E v (if v.size_ = 0 then 1 else usize (2 * v.size_)) x w = r at h ⊢
  obtain ⟨o, other, w1⟩ := r
  rcases h with ⟨nv, h1⟩ | ⟨h1, h2⟩
  · simp only at h1
    subst h1
    exact Or.inl rfl
  · simp only at h1 h2
    subst h1
    subst h2
    exact Or.inr ⟨rfl, rfl⟩

theorem PushBack_relocation_throws (E : Elem T) (v : Vector T) (x : T) (w : World)
    (hE : E.copy_constructible = true) (hN : E.nothrow_move_constructible = false)
    (hfull : v.data_.capacity_ = v.size_) (k : Nat) (rest : List Bool) (hk : k < v.size_)
    (hw : w.throws = false :: (List.replicate k false ++ true :: rest)) :
    (Vector.PushBack E v x w).1 = Outcome.threw := by
  unfold Vector.PushBack
  rw [if_pos (show v.data_.Capacity = v.size_ from hfull)]
  unfold Vector.ctor_push
  simp only
  have ht : ∀ w0 : World, w0.throws = false :: (List.replicate k false ++ true :: rest) →
      ∃ w1, w0.tick = (false, w1) ∧ w1.throws = List.replicate k false ++ true :: rest := by
    intro w0 h0
    exact ⟨{ w0 with throws := List.replicate k false ++ true :: rest },
      by simp [World.tick, h0], rfl⟩
  obtain ⟨w1, h1, h2⟩ := ht ((RawMemory.ctor (if v.size_ = 0 then 1 else usize (2 * v.size_)) :
    RawMemory T).plus v.size_ w) (by simpa using hw)
  rw [h1]
  simp only
  have hr : (relocate_n E v.data_.buffer_ 0 v.size_
      ((RawMemory.ctor (if v.size_ = 0 then 1 else usize (2 * v.size_))).buffer_.set
        v.size_ (some x)) 0 (w1.add 1)).1 = true := by
    unfold relocate_n
    rw [if_neg (by simp [hE, hN])]
    have := uninitialized_copy_loop_throws v.data_.buffer_ 0 0 k v.size_ 0
      ((RawMemory.ctor (if v.size_ = 0 then 1 else usize (2 * v.size_))).buffer_.set
        v.size_ (some x)) (w1.add 1) rest hk (by simpa using h2)
    simpa [uninitialized_copy_n] using this
  generalize relocate_n E v.data_.buffer_ 0 v.size_
    ((RawMemory.ctor (if v.size_ = 0 then 1 else usize (2 * v.size_))).buffer_.set
      v.size_ (some x)) 0 (w1.add 1) = r at hr ⊢
  obtain ⟨t, src, dst, w3⟩ := r
  simp only at hr
  subst hr
  rfl

theorem move_assign_at_length (E : Elem T) (buf : List (Option T)) (src dst : Nat) :
    (move_assign_at E buf src dst).length = buf.length := by
  simp [move_assign_at]

theorem move_assign_at_slot (E : Elem T) (buf : List (Option T)) (src dst i : Nat) :
    slot (move_assign_at E buf src dst) i =
      if src = i ∧ src < buf.length then (slot buf src).map E.moved_from
      else if dst = i ∧ dst < buf.length then slot buf src else slot buf i := by
  simp only [move_assign_at, slot_set, List.length_set]

theorem move_range_spec (E : Elem T) :
    ∀ (n f : Nat) (buf : List (Option T)) (w : World), f + n < buf.length →
      (move_range E n (f + 1) f buf w).1 = false →
      (move_range E n (f + 1) f buf w).2.1.length = buf.length ∧
      ∀ i, slot (move_range E n (f + 1) f buf w).2.1 i =
        if f ≤ i ∧ i < f + n then slot buf (i + 1)
        else if i = f + n ∧ 0 < n then (slot buf i).map E.moved_from else slot buf i := by
  intro n
  induction n with
  | zero =>
    intro f buf w _ _
    refine ⟨rfl, fun i => ?_⟩
    simp only [move_range]
    rw [if_neg (by omega), if_neg (by omega)]
  | succ k ih =>
    intro f buf w hf h
    unfold move_range at h ⊢
    rcases ht : move_assign_tick E w with ⟨t, w1⟩
    rw [ht] at h
    cases t with
    | true => simp at h
    | false =>
      simp only at h ⊢
      obtain ⟨hl, hs⟩ := ih (f + 1) (move_assign_at E buf (f + 1) f) w1
        (by rw [move_assign_at_length]; omega) h
      refine ⟨by rw [hl, move_assign_at_length], fun i => ?_⟩
      rw [hs i]
      simp only [move_assign_at_slot]
      by_cases c1 : f + 1 ≤ i ∧ i < f + 1 + k
      · rw [if_pos c1, if_neg (by omega), if_neg (by omega), if_pos (by omega)]
      · rw [if_neg c1]
        by_cases c2 : i = f + 1 + k ∧ 0 < k
        · rw [if_pos c2, if_neg (by omega), if_neg (by omega), if_neg (by omega),
            if_pos (by omega)]
        · rw [if_neg c2]
          by_cases c3 : i = f + 1
          · subst c3
            rw [if_pos ⟨rfl, by omega⟩, if_neg (by omega), if_pos (by omega)]
          · rw [if_neg (by omega)]
            by_cases c4 : i = f
            · subst c4
              rw [if_pos ⟨rfl, by omega⟩, if_pos (by omega)]
            · rw [if_neg (by omega), if_neg (by omega), if_neg (by omega)]

theorem move_range_quiet (E : Elem T) :
    ∀ (n f g : Nat) (buf : List (Option T)) (w : World),
      (w.calm ∨ E.nothrow_move_assignable = true) →
      (move_range E n f g buf w).1 = false ∧
      (w.calm → (move_range E n f g buf w).2.2.calm) := by
  intro n
  induction n with
  | zero => intro f g buf w _; exact ⟨rfl, fun hc => hc⟩
  | succ k ih =>
    intro f g buf w h
    unfold move_range
    obtain ⟨w1, ht, hc⟩ := move_assign_tick_calm E w h
    rw [ht]
    have h1 : w1.calm ∨ E.nothrow_move_assignable = true := by
      rcases h with h | h
      · exact Or.inl (hc h)
      · exact Or.inr h
    exact ⟨(ih _ _ _ w1 h1).1, fun hw => (ih _ _ _ w1 h1).2 (hc hw)⟩

theorem Erase_post (E : Elem T) (v : Vector T) (d : Nat) (w : World) (hv : v.Valid)
    (hd : d < v.size_) (hfit : v.size_ < SIZE_MOD) (r : Nat)
    (h : (Vector.Erase E v d w).1 = Outcome.ok r) :
    r = d ∧
    (Vector.Erase E v d w).2.1.elems = v.elems.take d ++ v.elems.drop (d + 1) ∧
    (Vector.Erase E v d w).2.1.size_ = v.size_ - 1 ∧
    (Vector.Erase E v d w).2.1.data_.capacity_ = v.data_.capacity_ ∧
    (d < v.size_ - 1 → slot (Vector.Erase E v d w).2.1.elems d = slot v.elems (d + 1)) ∧
    (Vector.Erase E v d w).2.1.Valid := by
  obtain ⟨hsz, hlen⟩ := hv
  have hS : usub v.size_ 1 = v.size_ - 1 := usub_of_le _ _ (by omega) hfit
  unfold Vector.Erase at h ⊢
  simp only [Nat.add_sub_cancel] at h ⊢
  have hm := move_range_spec E (v.size_ - (d + 1)) d v.data_.buffer_ w (by omega)
  generalize move_range E (v.size_ - (d + 1)) (d + 1) d v.data_.buffer_ w = m at hm h ⊢
  obtain ⟨t, buf, w1⟩ := m
  cases t with
  | true => simp at h
  | false =>
    simp only [Outcome.ok.injEq] at h
    obtain ⟨hl, hs⟩ := hm rfl
    simp only at hl hs
    have hslot : ∀ i, i < v.size_ - 1 →
        slot (destroy_n buf (v.size_ - 1) 1 w1).1 i =
          if i < d then slot v.data_.buffer_ i else slot v.data_.buffer_ (i + 1) := by
      intro i hi
      rw [destroy_n_slot, if_neg (by omega), hs i]
      by_cases c1 : i < d
      · rw [if_neg (by omega), if_neg (by omega), if_pos c1]
      · rw [if_pos (by omega), if_neg c1]
    simp only [Vector.elems, Vector.Valid, hS]
    refine ⟨h.symm, ?_, trivial, trivial, ?_, by omega, by rw [destroy_n_length, hl, hlen]⟩
    · apply ext_slot
      · simp only [List.length_take, List.length_append, List.length_drop, destroy_n_length]
        omega
      · intro i hi
        simp only [List.length_take, destroy_n_length] at hi
        simp only [slot_take, slot_append, slot_drop, List.length_take]
        rw [if_pos (by omega), hslot i (by omega)]
        by_cases c1 : i < d
        · rw [if_pos c1, if_pos (by omega), if_pos c1, if_pos (by omega)]
        · rw [if_neg c1, if_neg (by omega), if_pos (by omega)]
          have e : d + 1 + (i - min d (min v.size_ v.data_.buffer_.length)) = i + 1 := by omega
          rw [e]
    · intro hlt
      simp only [slot_take]
      rw [if_pos hlt, if_pos (by omega), hslot d hlt, if_neg (by omega)]

theorem Erase_quiet (E : Elem T) (v : Vector T) (d : Nat) (w : World)
    (h : w.calm ∨ E.nothrow_move_assignable = true) :
    (Vector.Erase E v d w).1 = Outcome.ok d := by
  unfold Vector.Erase
  simp only [Nat.add_sub_cancel]
  have hm := (move_range_quiet E (v.size_ - (d + 1)) (d + 1) d v.data_.buffer_ w h).1
  generalize move_range E (v.size_ - (d + 1)) (d + 1) d v.data_.buffer_ w = m at hm ⊢
  obtain ⟨t, buf, w1⟩ := m
  simp only at hm
  subst hm
  rfl

theorem uninitialized_copy_n_spec (src : List (Option T)) (s n : Nat) (dst : List (Option T))
    (d : Nat) (w : World) (h : (uninitialized_copy_n src s n dst d w).1 = false) :
    (uninitialized_copy_n src s n dst d w).2.1.length = dst.length ∧
    ∀ i, slot (uninitialized_copy_n src s n dst d w).2.1 i =
      if d ≤ i ∧ i < d + n ∧ i < dst.length then slot src (s + (i - d)) else slot dst i := by
  unfold uninitialized_copy_n at h ⊢
  simpa using uninitialized_copy_loop_spec src s d n 0 dst w h

theorem uninitialized_copy_n_quiet (src : List (Option T)) (s n : Nat) (dst : List (Option T))
    (d : Nat) (w : World) (h : w.calm) :
    (uninitialized_copy_n src s n dst d w).1 = false ∧
    (uninitialized_copy_n src s n dst d w).2.2.calm :=
  uninitialized_copy_loop_quiet src s d n 0 dst w h

theorem take_eq_of_slot (a b : List (Option T)) (n : Nat) (ha : n ≤ a.length)
    (hb : n ≤ b.length) (h : ∀ i, i < n → slot a i = slot b i) : a.take n = b.take n := by
  apply ext_slot
  · simp only [List.length_take]
    omega
  · intro i hi
    simp only [List.length_take] at hi
    simp only [slot_take]
    rw [if_pos (by omega), if_pos (by omega)]
    exact h i (by omega)

theorem copy_assign_loop_spec (this_data rhs_data : RawMemory T) :
    ∀ (r i : Nat) (buf : List (Option T)) (w : World),
      (copy_assign_loop this_data rhs_data r i buf w).1 = false →
      (copy_assign_loop this_data rhs_data r i buf w).2.1.length = buf.length ∧
      ∀ j, slot (copy_assign_loop this_data rhs_data r i buf w).2.1 j =
        if i ≤ j ∧ j < i + r ∧ j < buf.length then slot rhs_data.buffer_ j else slot buf j := by
  intro r
  induction r with
  | zero =>
    intro i buf w _
    refine ⟨rfl, fun j => ?_⟩
    simp only [copy_assign_loop]
    rw [if_neg (by omega)]
  | succ k ih =>
    intro i buf w h
    unfold copy_assign_loop at h ⊢
    rcases ht : (rhs_data.index i (this_data.index i w)).tick with ⟨t, w1⟩
    rw [ht] at h
    cases t with
    | true => simp at h
    | false =>
      simp only at h ⊢
      obtain ⟨hl, hs⟩ := ih _ _ _ h
      refine ⟨by simpa using hl, fun j => ?_⟩
      rw [hs j]
      simp only [slot_set, List.length_set]
      by_cases c1 : i + 1 ≤ j ∧ j < i + 1 + k ∧ j < buf.length
      · rw [if_pos c1, if_pos (by omega)]
      · rw [if_neg c1]
        by_cases c2 : i = j ∧ i < buf.length
        · rw [if_pos c2, if_pos (by omega), c2.1]
        · rw [if_neg c2, if_neg (by omega)]

theorem copy_assign_loop_quiet (this_data rhs_data : RawMemory T) :
    ∀ (r i : Nat) (buf : List (Option T)) (w : World), w.calm →
      (copy_assign_loop this_data rhs_data r i buf w).1 = false ∧
      (copy_assign_loop this_data rhs_data r i buf w).2.2.calm := by
  intro r
  induction r with
  | zero => intro i buf w h; exact ⟨rfl, h⟩
  | succ k ih =>
    intro i buf w h
    unfold copy_assign_loop
    obtain ⟨w1, ht, hc⟩ := tick_calm (rhs_data.index i (this_data.index i w)) h
    rw [ht]
    exact ih _ _ _ hc

theorem assign_copy_post (this rhs : Vector T) (w : World) (hv1 : this.Valid) (hv2 : rhs.Valid)
    (hfit2 : rhs.size_ < SIZE_MOD)
    (h : (Vector.assign_copy this (some rhs) w).1 = Outcome.ok ()) :
    (Vector.assign_copy this (some rhs) w).2.1.size_ = rhs.size_ ∧
    (Vector.assign_copy this (some rhs) w).2.1.elems = rhs.elems ∧
    (Vector.assign_copy this (some rhs) w).2.1.data_.capacity_ =
      (if rhs.size_ ≤ this.data_.capacity_ then this.data_.capacity_ else rhs.size_) ∧
    (Vector.assign_copy this (some rhs) w).2.1.Valid := by
  obtain ⟨hsz1, hlen1⟩ := hv1
  obtain ⟨hsz2, hlen2⟩ := hv2
  unfold Vector.assign_copy at h ⊢
  simp only at h ⊢
  by_cases c1 : rhs.size_ > this.data_.Capacity
  · rw [if_pos c1] at h ⊢
    have c1b : ¬ rhs.size_ ≤ this.data_.capacity_ := Nat.not_le.mpr c1
    unfold Vector.ctor_copy at h ⊢
    simp only at h ⊢
    have hc := uninitialized_copy_n_spec rhs.data_.buffer_ 0 rhs.size_
      (RawMemory.ctor rhs.size_ : RawMemory T).buffer_ 0 w
    generalize uninitialized_copy_n rhs.data_.buffer_ 0 rhs.size_
      (RawMemory.ctor rhs.size_ : RawMemory T).buffer_ 0 w = m at hc h ⊢
    obtain ⟨t, buf, w1⟩ := m
    cases t with
    | true => simp at h
    | false =>
      obtain ⟨hl, hs⟩ := hc rfl
      simp only [RawMemory.ctor, length_Allocate] at hl hs
      simp only [Vector.Swap, RawMemory.Swap, Vector.elems, Vector.Valid, RawMemory.ctor]
      refine ⟨trivial, ?_, by rw [if_neg c1b], le_refl _, hl⟩
      apply take_eq_of_slot _ _ _ (by omega) (by omega)
      intro i hi
      rw [hs i, if_pos (by omega)]
      simp
  · rw [if_neg c1] at h ⊢
    have c1b : rhs.size_ ≤ this.data_.capacity_ := Nat.not_lt.mp c1
    by_cases c2 : rhs.size_ < this.size_
    · rw [if_pos c2] at h ⊢
      have hc := copy_assign_loop_spec this.data_ rhs.data_ rhs.size_ 0 this.data_.buffer_ w
      generalize copy_assign_loop this.data_ rhs.data_ rhs.size_ 0 this.data_.buffer_ w = m
        at hc h ⊢
      obtain ⟨t, buf, w1⟩ := m
      cases t with
      | true => simp at h
      | false =>
        obtain ⟨hl, hs⟩ := hc rfl
        simp only at hl hs
        simp only [Vector.elems, Vector.Valid]
        refine ⟨trivial, ?_, by rw [if_pos c1b], c1b, by rw [destroy_n_length, hl, hlen1]⟩
        apply take_eq_of_slot _ _ _ (by rw [destroy_n_length]; omega) (by omega)
        intro i hi
        rw [destroy_n_slot, if_neg (by omega), hs i, if_pos (by omega)]
    · rw [if_neg c2] at h ⊢
      have hc := copy_assign_loop_spec this.data_ rhs.data_ this.size_ 0 this.data_.buffer_ w
      generalize copy_assign_loop this.data_ rhs.data_ this.size_ 0 this.data_.buffer_ w = m
        at hc h ⊢
      obtain ⟨t, buf, w1⟩ := m
      cases t with
      | true => simp at h
      | false =>
        obtain ⟨hl, hs⟩ := hc rfl
        simp only at hl hs h ⊢
        have hu : usub rhs.size_ this.size_ = rhs.size_ - this.size_ :=
          usub_of_le _ _ (by omega) hfit2
        rw [hu] at h ⊢
        have hc2 := uninitialized_copy_n_spec rhs.data_.buffer_ this.size_
          (rhs.size_ - this.size_) buf this.size_ w1
        generalize uninitialized_copy_n rhs.data_.buffer_ this.size_ (rhs.size_ - this.size_) buf
          this.size_ w1 = m2 at hc2 h ⊢
        obtain ⟨t2, buf2, w2⟩ := m2
        cases t2 with
        | true => simp at h
        | false =>
          obtain ⟨hl2, hs2⟩ := hc2 rfl
          simp only at hl2 hs2
          simp only [Vector.elems, Vector.Valid]
          refine ⟨trivial, ?_, by rw [if_pos c1b], c1b, by rw [hl2, hl, hlen1]⟩
          apply take_eq_of_slot _ _ _ (by omega) (by omega)
          intro i hi
          rw [hs2 i]
          by_cases c3 : i < this.size_
          · rw [if_neg (by omega), hs i, if_pos (by omega)]
          · rw [if_pos (by omega)]
            congr 1
            omega

theorem ctor_copy_quiet (rhs : Vector T) (w : World) (h : w.calm) :
    ∃ nv w1, Vector.ctor_copy rhs w = (Outcome.ok nv, w1) ∧ w1.calm := by
  unfold Vector.ctor_copy
  simp only
  have hc := uninitialized_copy_n_quiet rhs.data_.buffer_ 0 rhs.size_
    (RawMemory.ctor rhs.size_ : RawMemory T).buffer_ 0 w h
  generalize uninitialized_copy_n rhs.data_.buffer_ 0 rhs.size_
    (RawMemory.ctor rhs.size_ : RawMemory T).buffer_ 0 w = m at hc ⊢
  obtain ⟨t, buf, w1⟩ := m
  obtain ⟨h1, h2⟩ := hc
  simp only at h1 h2
  subst h1
  exact ⟨_, _, rfl, h2⟩

theorem assign_copy_quiet (this rhs : Vector T) (w : World) (h : w.calm) :
    (Vector.assign_copy this (some rhs) w).1 = Outcome.ok () := by
  unfold Vector.assign_copy
  simp only
  split
  · obtain ⟨nv, w1, h1, -⟩ := ctor_copy_quiet rhs w h
    rw [h1]
  · split
    · have hc := copy_assign_loop_quiet this.data_ rhs.data_ rhs.size_ 0 this.data_.buffer_ w h
      generalize copy_assign_loop this.data_ rhs.data_ rhs.size_ 0 this.data_.buffer_ w = m
        at hc ⊢
      obtain ⟨t, buf, w1⟩ := m
      obtain ⟨h1, -⟩ := hc
      simp only at h1
      subst h1
      rfl
    · have hc := copy_assign_loop_quiet this.data_ rhs.data_ this.size_ 0 this.data_.buffer_ w h
      generalize copy_assign_loop this.data_ rhs.data_ this.size_ 0 this.data_.buffer_ w = m
        at hc ⊢
      obtain ⟨t, buf, w1⟩ := m
      obtain ⟨h1, h2⟩ := hc
      simp only at h1 h2
      subst h1
      simp only
      have hc2 := uninitialized_copy_n_quiet rhs.data_.buffer_ this.size_
        (usub rhs.size_ this.size_) buf this.size_ w1 h2
      generalize uninitialized_copy_n rhs.data_.buffer_ this.size_ (usub rhs.size_ this.size_) buf
        this.size_ w1 = m2 at hc2 ⊢
      obtain ⟨t2, buf2, w2⟩ := m2
      obtain ⟨h3, -⟩ := hc2
      simp only at h3
      subst h3
      rfl

/-! ## C1: `PushBack` appends -/

/-- C1: on a valid vector, a call `PushBack(x)` (copy or move overload) that returns leaves
the element sequence equal to the old one followed by `x` and `Size()` equal to the old
size plus one, in place (`size < capacity`) and on reallocation (`size == capacity`)
alike; it returns whenever no element operation throws; and five pushes of 10, 20, 30,
40, 50 into an empty vector give `[10, 20, 30, 40, 50]` with `Size() = 5`. -/
theorem C1_PushBack_appends (E : Elem T) (v : Vector T) (x : T) (w : World)
    (hv : v.Valid) (hfit : 2 * v.size_ < SIZE_MOD) :
    (w.calm →
      (Vector.PushBack E v x w).1 = Outcome.ok () ∧
      (Vector.PushBack_move E v x w).1 = Outcome.ok ()) ∧
    ((Vector.PushBack E v x w).1 = Outcome.ok () →
      (Vector.PushBack E v x w).2.1.elems = v.elems ++ [some x] ∧
      (Vector.PushBack E v x w).2.1.Size = v.Size + 1) ∧
    ((Vector.PushBack_move E v x w).1 = Outcome.ok () →
      (Vector.PushBack_move E v x w).2.1.elems = v.elems ++ [some x] ∧
      (Vector.PushBack_move E v x w).2.1.Size = v.Size + 1) ∧
    (push_all intElem [10, 20, 30, 40, 50] Vector.ctor_default (World.quiet 0)).1.elems =
      [some 10, some 20, some 30, some 40, some 50] ∧
    (push_all intElem [10, 20, 30, 40, 50] Vector.ctor_default (World.quiet 0)).1.Size = 5 := by
  refine ⟨fun hq => ?_, fun h => ?_, fun h => ?_, by decide, by decide⟩
  · rw [PushBack_move_eq]
    exact ⟨(PushBack_quiet E v x w hq).1, (PushBack_quiet E v x w hq).1⟩
  · obtain ⟨h1, h2, -, -⟩ := PushBack_post E v x w hv hfit h
    exact ⟨h1, h2⟩
  · rw [PushBack_move_eq] at h ⊢
    obtain ⟨h1, h2, -, -⟩ := PushBack_post E v x w hv hfit h
    exact ⟨h1, h2⟩

/-- Witness of C1: the fifth push of scenario S1, which reallocates a full vector. -/
theorem C1_PushBack_appends_witness :
    (Vector.of [(10 : Int), 20, 30, 40] 4).Valid ∧
    2 * (Vector.of [(10 : Int), 20, 30, 40] 4).size_ < SIZE_MOD ∧
    (Vector.PushBack intElem (Vector.of [10, 20, 30, 40] 4) 50 (World.quiet 4)).2.1.elems =
      (Vector.of [10, 20, 30, 40] 4).elems ++ [some 50] :=
  ⟨by decide, by decide,
   ((C1_PushBack_appends intElem (Vector.of [10, 20, 30, 40] 4) 50 (World.quiet 4)
      (by decide) (by decide)).2.1
      ((C1_PushBack_appends intElem (Vector.of [10, 20, 30, 40] 4) 50 (World.quiet 4)
        (by decide) (by decide)).1 (by decide)).1).1⟩

/-! ## C2: `Emplace` / `Insert` in place, before the end -/

/-- C2 (the code departs from the claim): on `[1, 2, 3]` in a block of four slots,
`Insert(begin() + 1, 9)` and `Emplace(begin() + 1, 9)` return position 1 and leave a
vector of size 4 with capacity 4 whose slots are `1, 9, 2` followed by a slot that was
move-constructed from its own unconstructed content: `*end()` is slot `size`, not the old
tail, so the old tail `3` is overwritten by the shift and reaches no slot.  The claim has
`[1, 9, 2, 3]` there. -/
theorem C2_in_place_insert_drops_tail :
    Vector.Insert intElem (Vector.of [1, 2, 3] 4) 1 9 (World.quiet 3) =
      (Outcome.ok 1,
       { insrt_mve_called := false, insrt_cpy_called := true,
         data_ := { buffer_ := [some 1, some 9, some 2, none], capacity_ := 4 }, size_ := 4 },
       World.quiet 4) ∧
    (Vector.Emplace intElem (Vector.of [1, 2, 3] 4) 1 9 (World.quiet 3)).2.1.elems =
      [some 1, some 9, some 2, none] ∧
    (Vector.Emplace intElem (Vector.of [1, 2, 3] 4) 1 9 (World.quiet 3)).2.1.elems ≠
      (Vector.of [1, 2, 3] 4).elems.take 1 ++ [some 9] ++ (Vector.of [1, 2, 3] 4).elems.drop 1 := by
  decide

/-! ## C3: `Emplace` / `Insert` on the reallocation path -/

/-- The reallocation path when nothing throws: on a valid full vector (`size == capacity`)
and for every position `0 <= d <= size`, when no element operation throws, `Emplace(begin() + d, x)`, `Insert(begin() + d, x)` (copy
overload, for a copy-constructible `T`) and `Insert(begin() + d, x)` (move overload) return
and leave the element sequence `old[0..d) ++ [x] ++ old[d..size)`, `Size()` equal to
`size + 1` and `Capacity()` equal to `max(1, 2 * size)`; `[1, 2, 4, 5]` with capacity 4
and `Insert(begin() + 2, 3)` gives `[1, 2, 3, 4, 5]`, `Size() = 5`, `Capacity() = 8`.
The flag `insrt_cpy_called` is set by `Insert(const T&)` alone, which exists only for a
copy-constructible `T`: that is `hflag`. -/
theorem Emplace_reallocation_calm (E : Elem T) (v : Vector T) (d : Nat) (x : T) (w : World)
    (hv : v.Valid) (hfull : v.Size = v.Capacity) (hd : d ≤ v.Size)
    (hfit : 2 * v.size_ < SIZE_MOD) (hq : w.calm)
    (hflag : v.insrt_cpy_called = true → E.copy_constructible = true) :
    ((Vector.Emplace E v d x w).1 = Outcome.ok d ∧
     (Vector.Emplace E v d x w).2.1.elems = v.elems.take d ++ [some x] ++ v.elems.drop d ∧
     (Vector.Emplace E v d x w).2.1.Size = v.Size + 1 ∧
     (Vector.Emplace E v d x w).2.1.Capacity = max 1 (2 * v.Size)) ∧
    (E.copy_constructible = true →
     (Vector.Insert E v d x w).1 = Outcome.ok d ∧
     (Vector.Insert E v d x w).2.1.elems = v.elems.take d ++ [some x] ++ v.elems.drop d ∧
     (Vector.Insert E v d x w).2.1.Size = v.Size + 1 ∧
     (Vector.Insert E v d x w).2.1.Capacity = max 1 (2 * v.Size)) ∧
    ((Vector.Insert_move E v d x w).1 = Outcome.ok d ∧
     (Vector.Insert_move E v d x w).2.1.elems = v.elems.take d ++ [some x] ++ v.elems.drop d ∧
     (Vector.Insert_move E v d x w).2.1.Size = v.Size + 1 ∧
     (Vector.Insert_move E v d x w).2.1.Capacity = max 1 (2 * v.Size)) ∧
    ((Vector.Insert intElem (Vector.of [1, 2, 4, 5] 4) 2 3 (World.quiet 4)).2.1.elems =
       [some 1, some 2, some 3, some 4, some 5] ∧
     (Vector.Insert intElem (Vector.of [1, 2, 4, 5] 4) 2 3 (World.quiet 4)).2.1.Size = 5 ∧
     (Vector.Insert intElem (Vector.of [1, 2, 4, 5] 4) 2 3 (World.quiet 4)).2.1.Capacity = 8) := by
  have hfull2 : v.data_.capacity_ = v.size_ := hfull.symm
  refine ⟨?_, fun hc => ?_, ?_, by decide⟩
  · have hne : Vector.new_elem E v ≠ NewElem.rethrow := by
      unfold Vector.new_elem
      by_cases h1 : v.insrt_cpy_called = true
      · simp [h1, hflag h1]
      · by_cases h2 : v.insrt_mve_called = true
        · simp [h1, h2]
        · by_cases h3 : E.copy_constructible = true <;> simp [h1, h2, h3]
    obtain ⟨h1, h2, h3, h4, -, -⟩ := Emplace_grow_quiet E v d x w hv hfull2 hd hfit hq hne
    exact ⟨h1, h2, h3, h4⟩
  · have hne : Vector.new_elem E { v with insrt_cpy_called := true } ≠ NewElem.rethrow := by
      simp [Vector.new_elem, hc]
    obtain ⟨h1, h2, h3, h4, -, -⟩ := Emplace_grow_quiet E { v with insrt_cpy_called := true }
      d x w hv hfull2 hd hfit hq hne
    exact ⟨h1, h2, h3, h4⟩
  · have hne : Vector.new_elem E { v with insrt_mve_called := true } ≠ NewElem.rethrow := by
      unfold Vector.new_elem
      by_cases h1 : v.insrt_cpy_called = true
      · simp [h1, hflag h1]
      · simp [h1]
    obtain ⟨h1, h2, h3, h4, -, -⟩ := Emplace_grow_quiet E { v with insrt_mve_called := true }
      d x w hv hfull2 hd hfit hq hne
    exact ⟨h1, h2, h3, h4⟩

/-- C3 (the code departs from the claim): on the full `[1, 2, 4, 5]` (size 4, capacity 4)
of a copyable element type whose copies may throw, `Insert(begin() + 2, 3)` and
`Emplace(begin() + 2, 3)` whose first relocation copy throws still run the reallocation
path to its end and return position 2, because the handler `catch (...)` of the growth
constructor does not throw again (the defect of C8).  `Size()` is 5 and `Capacity()` is 8,
but the element sequence is not `old[0..2) ++ [3] ++ old[2..4)`: slots 0, 1 and 2 hold no
object.  The claim has `[1, 2, 3, 4, 5]` whenever the call returns. -/
theorem C3_reallocation_after_swallowed_throw :
    (Vector.of [(1 : Int), 2, 4, 5] 4).Valid ∧
    (Vector.of [(1 : Int), 2, 4, 5] 4).Size = (Vector.of [(1 : Int), 2, 4, 5] 4).Capacity ∧
    ((Vector.Insert probeElem (Vector.of [1, 2, 4, 5] 4) 2 3
        { live := 4, throws := [false, true], asserts_ok := true }).1 = Outcome.ok 2 ∧
     (Vector.Insert probeElem (Vector.of [1, 2, 4, 5] 4) 2 3
        { live := 4, throws := [false, true], asserts_ok := true }).2.1.Size = 5 ∧
     (Vector.Insert probeElem (Vector.of [1, 2, 4, 5] 4) 2 3
        { live := 4, throws := [false, true], asserts_ok := true }).2.1.Capacity = 8 ∧
     (Vector.Insert probeElem (Vector.of [1, 2, 4, 5] 4) 2 3
        { live := 4, throws := [false, true], asserts_ok := true }).2.1.elems =
       [none, none, none, some 4, some 5] ∧
     (Vector.Insert probeElem (Vector.of [1, 2, 4, 5] 4) 2 3
        { live := 4, throws := [false, true], asserts_ok := true }).2.1.elems ≠
       (Vector.of [1, 2, 4, 5] 4).elems.take 2 ++ [some 3] ++
         (Vector.of [1, 2, 4, 5] 4).elems.drop 2) ∧
    ((Vector.Emplace probeElem (Vector.of [1, 2, 4, 5] 4) 2 3
        { live := 4, throws := [false, true], asserts_ok := true }).1 = Outcome.ok 2 ∧
     (Vector.Emplace probeElem (Vector.of [1, 2, 4, 5] 4) 2 3
        { live := 4, throws := [false, true], asserts_ok := true }).2.1.elems =
       [none, none, none, some 4, some 5] ∧
     (Vector.Emplace probeElem (Vector.of [1, 2, 4, 5] 4) 2 3
        { live := 4, throws := [false, true], asserts_ok := true }).2.1.elems ≠
       (Vector.of [1, 2, 4, 5] 4).elems.take 2 ++ [some 3] ++
         (Vector.of [1, 2, 4, 5] 4).elems.drop 2) := by
  decide

/-! ## C4: moving a vector -/

/-- C4 (the code departs from the claim): for `a = [1, 2, 3]`, the move construction
`b = move(a)` gives `b == [1, 2, 3]` and `a.Capacity() == 0`, but `a.Size()` stays 3:
`size_(std::move(other.size_))` copies the number and nothing clears it.  Move assignment
into `[9]` leaves the source with `Size() == 3` and `Capacity() == 0` in the same way.  The
claim has `a.Size() == 0`. -/
theorem C4_move_keeps_source_size :
    (Vector.ctor_move (Vector.of [(1 : Int), 2, 3] 3)).1.elems = [some 1, some 2, some 3] ∧
    (Vector.ctor_move (Vector.of [(1 : Int), 2, 3] 3)).2.Capacity = 0 ∧
    (Vector.ctor_move (Vector.of [(1 : Int), 2, 3] 3)).2.Size = 3 ∧
    (Vector.assign_move (Vector.of [(9 : Int)] 1) (Vector.of [1, 2, 3] 3)).1.elems =
      [some 1, some 2, some 3] ∧
    (Vector.assign_move (Vector.of [(9 : Int)] 1) (Vector.of [1, 2, 3] 3)).2.Capacity = 0 ∧
    (Vector.assign_move (Vector.of [(9 : Int)] 1) (Vector.of [1, 2, 3] 3)).2.Size = 3 := by
  decide

/-! ## C5: `Size() <= Capacity()` -/

/-- C5 (the code departs from the claim): the source of a move construction or of a move
assignment keeps its `size_` while its storage is emptied, so for `a = [1, 2, 3]` the
moved-from `a` has `Size() == 3 > 0 == Capacity()`, although `a` satisfied
`Size() <= Capacity()` before the move. -/
theorem C5_moved_from_source_breaks_invariant :
    (Vector.of [(1 : Int), 2, 3] 3).Size ≤ (Vector.of [(1 : Int), 2, 3] 3).Capacity ∧
    ¬ ((Vector.ctor_move (Vector.of [(1 : Int), 2, 3] 3)).2.Size ≤
        (Vector.ctor_move (Vector.of [(1 : Int), 2, 3] 3)).2.Capacity) ∧
    ¬ ((Vector.assign_move (Vector.of [(9 : Int)] 1) (Vector.of [1, 2, 3] 3)).2.Size ≤
        (Vector.assign_move (Vector.of [(9 : Int)] 1) (Vector.of [1, 2, 3] 3)).2.Capacity) := by
  decide

/-! ## C6: `PushBack` on a full vector when relocation throws -/

/-- C6: for a copy-constructible `T` (which `PushBack(const T&)` requires), a call of
`PushBack` (either overload) on a full vector either returns or throws and leaves the
vector as it was: `Size()`, `Capacity()` and every slot equal their values before the
call.  In particular, when moves of `T` may throw, so that relocation copies, and the copy
of the `(k + 1)`-th existing element throws, the exception leaves `PushBack` and the vector
is unchanged. -/
theorem C6_PushBack_relocation_failure (E : Elem T) (v : Vector T) (x : T) (w : World)
    (hE : E.copy_constructible = true) (hfull : v.Size = v.Capacity) :
    ((Vector.PushBack E v x w).1 = Outcome.ok () ∨
      ((Vector.PushBack E v x w).1 = Outcome.threw ∧ (Vector.PushBack E v x w).2.1 = v)) ∧
    ((Vector.PushBack_move E v x w).1 = Outcome.ok () ∨
      ((Vector.PushBack_move E v x w).1 = Outcome.threw ∧
        (Vector.PushBack_move E v x w).2.1 = v)) ∧
    (∀ (k : Nat) (rest : List Bool), E.nothrow_move_constructible = false → k < v.Size →
      w.throws = false :: (List.replicate k false ++ true :: rest) →
      (Vector.PushBack E v x w).1 = Outcome.threw ∧ (Vector.PushBack E v x w).2.1 = v ∧
      (Vector.PushBack E v x w).2.1.Size = v.Size ∧
      (Vector.PushBack E v x w).2.1.Capacity = v.Capacity ∧
      (Vector.PushBack E v x w).2.1.elems = v.elems) := by
  have h1 := PushBack_strong E v x w hE hfull.symm
  refine ⟨h1, h1, fun k rest hN hk hw => ?_⟩
  have h2 := PushBack_relocation_throws E v x w hE hN hfull.symm k rest hk hw
  rcases h1 with h3 | ⟨-, h4⟩
  · rw [h2] at h3
    exact absurd h3 (by simp)
  · exact ⟨h2, h4, by rw [h4], by rw [h4], by rw [h4]⟩

/-- Witness of C6: scenario S4, four elements and the third relocation throwing. -/
theorem C6_PushBack_relocation_failure_witness :
    probeElem.copy_constructible = true ∧
    (Vector.of [(1 : Int), 2, 3, 4] 4).Size = (Vector.of [(1 : Int), 2, 3, 4] 4).Capacity ∧
    (Vector.PushBack probeElem (Vector.of [1, 2, 3, 4] 4) 5
        { live := 4, throws := [false, false, false, true], asserts_ok := true }).1 =
      Outcome.threw ∧
    (Vector.PushBack probeElem (Vector.of [1, 2, 3, 4] 4) 5
        { live := 4, throws := [false, false, false, true], asserts_ok := true }).2.1 =
      Vector.of [1, 2, 3, 4] 4 :=
  ⟨rfl, by decide,
   ((C6_PushBack_relocation_failure probeElem (Vector.of [1, 2, 3, 4] 4) 5
      { live := 4, throws := [false, false, false, true], asserts_ok := true } rfl
      (by decide)).2.2 2 [] rfl (by decide) rfl).1,
   ((C6_PushBack_relocation_failure probeElem (Vector.of [1, 2, 3, 4] 4) 5
      { live := 4, throws := [false, false, false, true], asserts_ok := true } rfl
      (by decide)).2.2 2 [] rfl (by decide) rfl).2.1⟩

/-! ## C7: live instances after a failed growing `PushBack` -/

/-- C7 (the code departs from the claim): in scenario S4, four live elements and the third
relocation throwing, the failed `PushBack` leaves 5 live instances, not 4.  The growth
constructor built the new element in the new block before relocating; when the relocation
throws, `std::uninitialized_copy_n` destroys the two copies it made, the block is freed by
`~RawMemory()`, and nothing destroys the new element. -/
theorem C7_failed_PushBack_leaks_new_element :
    (Vector.PushBack probeElem (Vector.of [1, 2, 3, 4] 4) 5
        { live := 4, throws := [false, false, false, true], asserts_ok := true }) =
      (Outcome.threw, Vector.of [1, 2, 3, 4] 4,
       { live := 5, throws := [], asserts_ok := true }) := by
  decide

/-! ## C8: `Emplace` / `Insert` on a full vector when relocation throws -/

/-- C8 (the code departs from the claim): on the full `[1, 2, 4, 5]`, when the first copy of
the prefix relocation of `Insert(begin() + 2, 3)` throws, the handler `catch (...)` of the
growth constructor destroys the new element and does not throw again: `Insert` returns
position 2 as if it had succeeded, and the vector now has `Size() == 5`, `Capacity() == 8`
and slots 0, 1, 2 without an object.  When a copy of the suffix relocation throws instead,
`Insert` also returns, with no object in any of the five slots.  The claim has the exception
propagated and the vector unchanged. -/
theorem C8_Insert_swallows_relocation_failure :
    Vector.Insert probeElem (Vector.of [1, 2, 4, 5] 4) 2 3
        { live := 4, throws := [false, true], asserts_ok := true } =
      (Outcome.ok 2,
       { insrt_mve_called := false, insrt_cpy_called := true,
         data_ := { buffer_ := [none, none, none, some 4, some 5, none, none, none],
                    capacity_ := 8 },
         size_ := 5 },
       { live := 2, throws := [], asserts_ok := true }) ∧
    Vector.Insert probeElem (Vector.of [1, 2, 4, 5] 4) 2 3
        { live := 4, throws := [false, false, false, true], asserts_ok := true } =
      (Outcome.ok 2,
       { insrt_mve_called := false, insrt_cpy_called := true,
         data_ := { buffer_ := [none, none, none, none, none, none, none, none],
                    capacity_ := 8 },
         size_ := 5 },
       { live := 0, throws := [], asserts_ok := true }) := by
  decide

/-! ## C9: `Erase` -/

/-- C9: on a valid vector and for every position `0 <= d < size`, `Erase(begin() + d)`
returns when no move assignment throws, and whenever it returns it returns the position
at index `d`, leaves the element sequence `old[0..d) ++ old[d+1..size)`, `Size()` one
less and `Capacity()` unchanged, and for `d < size - 1` the returned position holds the
former successor `old[d + 1]`; `Erase(begin())` on `[a, b, c, d]` gives `[b, c, d]` and a
position dereferencing to `b`. -/
theorem C9_Erase_removes (E : Elem T) (v : Vector T) (d : Nat) (w : World)
    (hv : v.Valid) (hd : d < v.Size) (hfit : v.size_ < SIZE_MOD) :
    ((w.calm ∨ E.nothrow_move_assignable = true) →
      (Vector.Erase E v d w).1 = Outcome.ok d) ∧
    (∀ r, (Vector.Erase E v d w).1 = Outcome.ok r →
      r = d ∧
      (Vector.Erase E v d w).2.1.elems = v.elems.take d ++ v.elems.drop (d + 1) ∧
      (Vector.Erase E v d w).2.1.Size = v.Size - 1 ∧
      (Vector.Erase E v d w).2.1.Capacity = v.Capacity ∧
      (d < v.Size - 1 → slot (Vector.Erase E v d w).2.1.elems r = slot v.elems (d + 1))) ∧
    ((Vector.Erase charElem (Vector.of ['a', 'b', 'c', 'd'] 4) 0 (World.quiet 4)).1 =
        Outcome.ok 0 ∧
     (Vector.Erase charElem (Vector.of ['a', 'b', 'c', 'd'] 4) 0 (World.quiet 4)).2.1.elems =
        [some 'b', some 'c', some 'd'] ∧
     slot (Vector.Erase charElem (Vector.of ['a', 'b', 'c', 'd'] 4) 0 (World.quiet 4)).2.1.elems 0 =
        some 'b' ∧
     (Vector.Erase charElem (Vector.of ['a', 'b', 'c', 'd'] 4) 0 (World.quiet 4)).2.1.Size = 3 ∧
     (Vector.Erase charElem (Vector.of ['a', 'b', 'c', 'd'] 4) 0 (World.quiet 4)).2.1.Capacity =
        4) := by
  refine ⟨fun hq => Erase_quiet E v d w hq, fun r h => ?_, by decide⟩
  obtain ⟨h1, h2, h3, h4, h5, -⟩ := Erase_post E v d w hv hd hfit r h
  subst h1
  exact ⟨rfl, h2, h3, h4, h5⟩

/-- Witness of C9: erasing index 1 of `[1, 2, 3, 4]` held in a block of six slots. -/
theorem C9_Erase_removes_witness :
    (Vector.of [(1 : Int), 2, 3, 4] 6).Valid ∧
    1 < (Vector.of [(1 : Int), 2, 3, 4] 6).Size ∧
    (Vector.Erase intElem (Vector.of [1, 2, 3, 4] 6) 1 (World.quiet 4)).1 = Outcome.ok 1 ∧
    (Vector.Erase intElem (Vector.of [1, 2, 3, 4] 6) 1 (World.quiet 4)).2.1.elems =
      (Vector.of [1, 2, 3, 4] 6).elems.take 1 ++ (Vector.of [1, 2, 3, 4] 6).elems.drop 2 :=
  ⟨by decide, by decide,
   (C9_Erase_removes intElem (Vector.of [1, 2, 3, 4] 6) 1 (World.quiet 4) (by decide)
      (by decide) (by decide)).1 (Or.inl (by decide)),
   ((C9_Erase_removes intElem (Vector.of [1, 2, 3, 4] 6) 1 (World.quiet 4) (by decide)
      (by decide) (by decide)).2.1 1
      ((C9_Erase_removes intElem (Vector.of [1, 2, 3, 4] 6) 1 (World.quiet 4) (by decide)
        (by decide) (by decide)).1 (Or.inl (by decide)))).2.1⟩

/-! ## C10: copy assignment -/

/-- C10: for two distinct valid vectors, the copy assignment `target = source` returns
when no element operation throws, and whenever it returns the target has
`Size() == source.Size()` and the element sequence of the source, its capacity is
unchanged when `source.Size() <= target.Capacity()` and is otherwise at least
`source.Size()`; the source, taken by reference to const, is not written.
`a = [1, 2, 3, 4, 5]`, `b = [9, 9]`, `a = b` gives `a == [9, 9]`, `Size() = 2`,
`Capacity() >= 5`.  Self-assignment leaves the vector unchanged. -/
theorem C10_copy_assignment (target source : Vector T) (w : World)
    (ht : target.Valid) (hs : source.Valid) (hfit : source.size_ < SIZE_MOD) :
    (w.calm → (Vector.assign_copy target (some source) w).1 = Outcome.ok ()) ∧
    ((Vector.assign_copy target (some source) w).1 = Outcome.ok () →
      (Vector.assign_copy target (some source) w).2.1.Size = source.Size ∧
      (Vector.assign_copy target (some source) w).2.1.elems = source.elems ∧
      (source.Size ≤ target.Capacity →
        (Vector.assign_copy target (some source) w).2.1.Capacity = target.Capacity) ∧
      (¬ source.Size ≤ target.Capacity →
        source.Size ≤ (Vector.assign_copy target (some source) w).2.1.Capacity)) ∧
    Vector.assign_copy target none w = (Outcome.ok (), target, w) ∧
    ((Vector.assign_copy (Vector.of [(1 : Int), 2, 3, 4, 5] 5) (some (Vector.of [9, 9] 2))
        (World.quiet 7)).2.1.elems = [some 9, some 9] ∧
     (Vector.assign_copy (Vector.of [(1 : Int), 2, 3, 4, 5] 5) (some (Vector.of [9, 9] 2))
        (World.quiet 7)).2.1.Size = 2 ∧
     5 ≤ (Vector.assign_copy (Vector.of [(1 : Int), 2, 3, 4, 5] 5) (some (Vector.of [9, 9] 2))
        (World.quiet 7)).2.1.Capacity) := by
  refine ⟨fun hq => assign_copy_quiet target source w hq, fun h => ?_, rfl, by decide⟩
  obtain ⟨h1, h2, h3, -⟩ := assign_copy_post target source w ht hs hfit h
  refine ⟨h1, h2, fun hc => ?_, fun hc => ?_⟩
  · show (Vector.assign_copy target (some source) w).2.1.data_.capacity_ = target.data_.capacity_
    rw [h3, if_pos (show source.size_ ≤ target.data_.capacity_ from hc)]
  · show source.size_ ≤ (Vector.assign_copy target (some source) w).2.1.data_.capacity_
    rw [h3, if_neg (show ¬ source.size_ ≤ target.data_.capacity_ from hc)]

/-- Witness of C10: scenario S5, `[9, 9]` assigned to `[1, 2, 3, 4, 5]`. -/
theorem C10_copy_assignment_witness :
    (Vector.of [(1 : Int), 2, 3, 4, 5] 5).Valid ∧ (Vector.of [(9 : Int), 9] 2).Valid ∧
    (Vector.assign_copy (Vector.of [(1 : Int), 2, 3, 4, 5] 5) (some (Vector.of [9, 9] 2))
      (World.quiet 7)).2.1.elems = (Vector.of [(9 : Int), 9] 2).elems :=
  ⟨by decide, by decide,
   ((C10_copy_assignment (Vector.of [(1 : Int), 2, 3, 4, 5] 5) (Vector.of [9, 9] 2)
      (World.quiet 7) (by decide) (by decide) (by decide)).2.1
      ((C10_copy_assignment (Vector.of [(1 : Int), 2, 3, 4, 5] 5) (Vector.of [9, 9] 2)
        (World.quiet 7) (by decide) (by decide) (by decide)).1 (by decide))).2.1⟩

/-! ## Capacity after an insertion -/

theorem EmplaceBack_vec (E : Elem T) (v : Vector T) (x : T) (w : World) :
    (Vector.EmplaceBack E v (BackArgs.plain x) w).2.1 = (Vector.PushBack E v x w).2.1 ∧
    ((Vector.PushBack E v x w).1 = Outcome.ok () →
      (Vector.EmplaceBack E v (BackArgs.plain x) w).1 =
        Outcome.ok (usub (Vector.PushBack E v x w).2.1.size_ 1)) ∧
    (∀ r, (Vector.EmplaceBack E v (BackArgs.plain x) w).1 = Outcome.ok r →
      (Vector.PushBack E v x w).1 = Outcome.ok ()) := by
  unfold Vector.EmplaceBack Vector.PushBack Vector.ctor_back
  simp only [BackArgs.value]
  split
  · generalize Vector.ctor_push E v (if v.size_ = 0 then 1 else usize (2 * v.size_)) x w = r
    obtain ⟨o, other, w1⟩ := r
    cases o with
    | ok nv => exact ⟨rfl, fun _ => rfl, fun _ _ => rfl⟩
    | threw => exact ⟨rfl, fun h => by simp at h, fun r h => by simp at h⟩
    | terminated => exact ⟨rfl, fun h => by simp at h, fun r h => by simp at h⟩
  · generalize (v.data_.plus v.size_ w).tick = r
    obtain ⟨t, w1⟩ := r
    cases t with
    | true => exact ⟨rfl, fun h => by simp at h, fun r h => by simp at h⟩
    | false => exact ⟨rfl, fun _ => rfl, fun _ _ => rfl⟩

theorem ctor_emplace_capacity (E : Elem T) (other : Vector T) (size dist : Nat) (x : T)
    (w : World) (nv o2 : Vector T) (w2 : World)
    (h : Vector.ctor_emplace E other size dist x w = (Outcome.ok nv, o2, w2)) :
    nv.data_.capacity_ = size ∧ nv.size_ = usize (other.size_ + 1) := by
  unfold Vector.ctor_emplace at h
  simp only at h
  split at h
  · simp at h
  · split at h
    · simp at h
    · simp only [Prod.mk.injEq, Outcome.ok.injEq] at h
      obtain ⟨h1, -, -⟩ := h
      subst h1
      exact ⟨rfl, rfl⟩

theorem Emplace_capacity (E : Elem T) (v : Vector T) (d : Nat) (x : T) (w : World)
    (hfit : 2 * v.size_ < SIZE_MOD) (r : Nat) (h : (Vector.Emplace E v d x w).1 = Outcome.ok r) :
    (Vector.Emplace E v d x w).2.1.data_.capacity_ =
      (if v.data_.capacity_ = v.size_ then max 1 (2 * v.data_.capacity_)
       else v.data_.capacity_) := by
  have hD : usize (2 * v.size_) = 2 * v.size_ := usize_of_lt _ hfit
  unfold Vector.Emplace at h ⊢
  by_cases hc : v.data_.Capacity = v.size_
  · have hc2 : v.data_.capacity_ = v.size_ := hc
    rw [if_pos hc] at h ⊢
    rw [if_pos hc2]
    have hcap := ctor_emplace_capacity E v (if v.size_ = 0 then 1 else usize (2 * v.size_)) d x w
    generalize Vector.ctor_emplace E v (if v.size_ = 0 then 1 else usize (2 * v.size_)) d x w = m
      at hcap h ⊢
    obtain ⟨o, other, w1⟩ := m
    cases o with
    | threw => simp at h
    | terminated => simp at h
    | ok nv =>
      obtain ⟨h1, -⟩ := hcap nv other w1 rfl
      simp only [Vector.Swap, RawMemory.Swap]
      rw [h1, hD, hc2]
      split <;> omega
  · have hc2 : ¬ v.data_.capacity_ = v.size_ := hc
    rw [if_neg hc] at h ⊢
    rw [if_neg hc2]
    split
    · split
      · rfl
      · split
        · rfl
        · split
          · rfl
          · split
            · rfl
            · split
              · rfl
              · rfl
    · split
      · rfl
      · rfl

theorem ctor_back_capacity (E : Elem T) (other : Vector T) (size : Nat) (args : BackArgs T)
    (w : World) (nv o2 : Vector T) (w2 : World)
    (h : Vector.ctor_back E other size args w = (Outcome.ok nv, o2, w2)) :
    nv.data_.capacity_ = size := by
  cases args with
  | plain x => exact (ctor_push_ok E other size x w nv o2 w2 h).2.1
  | int64_first dist x y => exact (ctor_emplace_capacity E other size dist y w nv o2 w2 h).1

theorem EmplaceBack_capacity (E : Elem T) (v : Vector T) (args : BackArgs T) (w : World)
    (hfit : 2 * v.size_ < SIZE_MOD) (r : Nat)
    (h : (Vector.EmplaceBack E v args w).1 = Outcome.ok r) :
    (Vector.EmplaceBack E v args w).2.1.data_.capacity_ =
      (if v.data_.capacity_ = v.size_ then max 1 (2 * v.data_.capacity_)
       else v.data_.capacity_) := by
  have hD : usize (2 * v.size_) = 2 * v.size_ := usize_of_lt _ hfit
  unfold Vector.EmplaceBack at h ⊢
  by_cases hc : v.data_.Capacity = v.size_
  · have hc2 : v.data_.capacity_ = v.size_ := hc
    rw [if_pos hc] at h ⊢
    rw [if_pos hc2]
    have hcap := ctor_back_capacity E v (if v.size_ = 0 then 1 else usize (2 * v.size_)) args w
    generalize Vector.ctor_back E v (if v.size_ = 0 then 1 else usize (2 * v.size_)) args w = m
      at hcap h ⊢
    obtain ⟨o, other, w1⟩ := m
    cases o with
    | threw => simp at h
    | terminated => simp at h
    | ok nv =>
      have h1 := hcap nv other w1 rfl
      simp only [Vector.Swap, RawMemory.Swap]
      rw [h1, hD, hc2]
      split <;> omega
  · have hc2 : ¬ v.data_.capacity_ = v.size_ := hc
    rw [if_neg hc] at h ⊢
    rw [if_neg hc2]
    split
    · rfl
    · rfl

theorem move_backward_length (E : Elem T) (first : Nat) :
    ∀ (n d_last : Nat) (buf : List (Option T)) (w : World),
      (move_backward E first n d_last buf w).2.1.length = buf.length := by
  intro n
  induction n with
  | zero => intro d_last buf w; rfl
  | succ k ih =>
    intro d_last buf w
    unfold move_backward
    generalize move_assign_tick E w = r
    obtain ⟨t, w1⟩ := r
    cases t with
    | true => rfl
    | false =>
      simp only
      rw [ih, move_assign_at_length]

theorem move_backward_quiet (E : Elem T) (first : Nat) :
    ∀ (n d_last : Nat) (buf : List (Option T)) (w : World),
      (w.calm ∨ E.nothrow_move_assignable = true) →
      (move_backward E first n d_last buf w).1 = false ∧
      (w.calm → (move_backward E first n d_last buf w).2.2.calm) := by
  intro n
  induction n with
  | zero => intro d_last buf w _; exact ⟨rfl, fun hc => hc⟩
  | succ k ih =>
    intro d_last buf w h
    unfold move_backward
    obtain ⟨w1, ht, hc⟩ := move_assign_tick_calm E w h
    rw [ht]
    have h1 : w1.calm ∨ E.nothrow_move_assignable = true := by
      rcases h with h | h
      · exact Or.inl (hc h)
      · exact Or.inr h
    exact ⟨(ih _ _ w1 h1).1, fun hw => (ih _ _ w1 h1).2 (hc hw)⟩

theorem Emplace_in_place_quiet (E : Elem T) (v : Vector T) (d : Nat) (x : T) (w : World)
    (hv : v.Valid) (hroom : v.data_.capacity_ ≠ v.size_) (hd : d ≤ v.size_)
    (hfit : 2 * v.size_ < SIZE_MOD) (hq : w.calm)
    (hflag : Vector.new_elem E v ≠ NewElem.rethrow) :
    (Vector.Emplace E v d x w).1 = Outcome.ok d ∧
    slot (Vector.Emplace E v d x w).2.1.data_.buffer_ d = some x ∧
    (Vector.Emplace E v d x w).2.1.size_ = v.size_ + 1 ∧
    (Vector.Emplace E v d x w).2.1.data_.capacity_ = v.data_.capacity_ ∧
    (Vector.Emplace E v d x w).2.1.data_.buffer_.length = v.data_.capacity_ := by
  obtain ⟨hsz, hlen⟩ := hv
  have hS : usize (v.size_ + 1) = v.size_ + 1 :=
    usize_of_lt _ (by unfold SIZE_MOD at *; omega)
  unfold Vector.Emplace
  rw [if_neg (show ¬ v.data_.Capacity = v.size_ from hroom)]
  by_cases hde : d = v.size_
  · rw [if_neg (by simpa using hde)]
    obtain ⟨w1, ht, -⟩ := tick_calm (v.data_.plus v.size_ w) hq
    rw [ht]
    simp only
    refine ⟨trivial, ?_, hS, trivial, by simpa using hlen⟩
    rw [hde, slot_set, if_pos ⟨rfl, by omega⟩]
  · rw [if_pos hde]
    obtain ⟨w1, ht, hc1⟩ := tick_calm w hq
    obtain ⟨w2, ht2, hc2⟩ := move_construct_tick_calm E (v.data_.plus v.size_ (w1.add 1)) hc1
    have hmb := move_backward_quiet E d (v.size_ - 1 - d) v.size_
      ((v.data_.buffer_.set v.size_ ((slot v.data_.buffer_ v.size_).map E.moved_from)).set
        v.size_ (slot v.data_.buffer_ v.size_)) (w2.add 1) (Or.inl hc2)
    have hml := move_backward_length E d (v.size_ - 1 - d) v.size_
      ((v.data_.buffer_.set v.size_ ((slot v.data_.buffer_ v.size_).map E.moved_from)).set
        v.size_ (slot v.data_.buffer_ v.size_)) (w2.add 1)
    generalize hmeq : move_backward E d (v.size_ - 1 - d) v.size_
      ((v.data_.buffer_.set v.size_ ((slot v.data_.buffer_ v.size_).map E.moved_from)).set
        v.size_ (slot v.data_.buffer_ v.size_)) (w2.add 1) = m at hmb hml
    obtain ⟨t, buf, w3⟩ := m
    obtain ⟨hm1, hm2⟩ := hmb
    simp only at hm1 hm2 hml
    subst hm1
    obtain ⟨w4, ht4, -⟩ := move_assign_tick_calm E w3 (Or.inl (hm2 hc2))
    simp only [List.length_set] at hml
    cases hne : Vector.new_elem E v with
    | rethrow => exact absurd hne hflag
    | forward =>
      simp only [ht, ht2, hmeq, ht4]
      refine ⟨trivial, ?_, hS, trivial, by rw [List.length_set, hml, hlen]⟩
      rw [slot_set, if_pos ⟨rfl, by omega⟩]
    | move =>
      simp only [ht, ht2, hmeq, ht4]
      refine ⟨trivial, ?_, hS, trivial, by rw [List.length_set, hml, hlen]⟩
      rw [slot_set, if_pos ⟨rfl, by omega⟩]

theorem new_elem_of_flag (E : Elem T) (v : Vector T)
    (hflag : v.insrt_cpy_called = true → E.copy_constructible = true) :
    Vector.new_elem E v ≠ NewElem.rethrow := by
  unfold Vector.new_elem
  by_cases h1 : v.insrt_cpy_called = true
  · simp [h1, hflag h1]
  · by_cases h2 : v.insrt_mve_called = true
    · simp [h1, h2]
    · by_cases h3 : E.copy_constructible = true <;> simp [h1, h2, h3]

theorem new_elem_Insert (E : Elem T) (v : Vector T) (hc : E.copy_constructible = true) :
    Vector.new_elem E { v with insrt_cpy_called := true } ≠ NewElem.rethrow := by
  simp [Vector.new_elem, hc]

theorem new_elem_Insert_move (E : Elem T) (v : Vector T)
    (hflag : v.insrt_cpy_called = true → E.copy_constructible = true) :
    Vector.new_elem E { v with insrt_mve_called := true } ≠ NewElem.rethrow := by
  unfold Vector.new_elem
  by_cases h1 : v.insrt_cpy_called = true
  · simp [h1, hflag h1]
  · simp [h1]

theorem elems_length (v : Vector T) (hv : v.Valid) : v.elems.length = v.size_ := by
  obtain ⟨hsz, hlen⟩ := hv
  simp only [Vector.elems, List.length_take]
  omega

theorem Emplace_position (E : Elem T) (v : Vector T) (d : Nat) (x : T) (w : World)
    (hv : v.Valid) (hd : d ≤ v.size_) (hfit : 2 * v.size_ < SIZE_MOD) (hq : w.calm)
    (hflag : Vector.new_elem E v ≠ NewElem.rethrow) :
    (Vector.Emplace E v d x w).1 = Outcome.ok d ∧
    slot (Vector.Emplace E v d x w).2.1.elems d = some x := by
  by_cases hc : v.data_.capacity_ = v.size_
  · obtain ⟨h1, h2, -, -, -, -⟩ := Emplace_grow_quiet E v d x w hv hc hd hfit hq hflag
    refine ⟨h1, ?_⟩
    have hl := elems_length v hv
    rw [h2]
    simp only [slot_append, slot_singleton, List.length_append, List.length_take,
      List.length_singleton, hl]
    rw [if_pos (by omega), if_neg (by omega), if_pos (by omega)]
  · obtain ⟨h1, h2, h3, -, h5⟩ := Emplace_in_place_quiet E v d x w hv hc hd hfit hq hflag
    refine ⟨h1, ?_⟩
    simp only [Vector.elems, slot_take]
    rw [if_pos (by omega)]
    exact h2

/-! ## C11: the growth policy -/

/-- C11: on a valid vector, whenever `PushBack` (either overload), `EmplaceBack` (whichever
growth constructor its arguments select), `Emplace` or `Insert` (either overload) returns,
`Capacity()` is exactly `max(1, 2 * old capacity)` if `size == capacity` held before the
call, and is unchanged if `size < capacity` held; and the calls do return when no element
operation throws (for `Emplace` / `Insert` at a position `0 <= d <= size`). -/
theorem C11_capacity_after_insertion (E : Elem T) (v : Vector T) (d : Nat) (x : T) (w : World)
    (hv : v.Valid) (hfit : 2 * v.size_ < SIZE_MOD) :
    ((Vector.PushBack E v x w).1 = Outcome.ok () →
      (Vector.PushBack E v x w).2.1.Capacity =
        if v.Size = v.Capacity then max 1 (2 * v.Capacity) else v.Capacity) ∧
    ((Vector.PushBack_move E v x w).1 = Outcome.ok () →
      (Vector.PushBack_move E v x w).2.1.Capacity =
        if v.Size = v.Capacity then max 1 (2 * v.Capacity) else v.Capacity) ∧
    (∀ (args : BackArgs T) r, (Vector.EmplaceBack E v args w).1 = Outcome.ok r →
      (Vector.EmplaceBack E v args w).2.1.Capacity =
        if v.Size = v.Capacity then max 1 (2 * v.Capacity) else v.Capacity) ∧
    (∀ r, (Vector.Emplace E v d x w).1 = Outcome.ok r →
      (Vector.Emplace E v d x w).2.1.Capacity =
        if v.Size = v.Capacity then max 1 (2 * v.Capacity) else v.Capacity) ∧
    (∀ r, (Vector.Insert E v d x w).1 = Outcome.ok r →
      (Vector.Insert E v d x w).2.1.Capacity =
        if v.Size = v.Capacity then max 1 (2 * v.Capacity) else v.Capacity) ∧
    (∀ r, (Vector.Insert_move E v d x w).1 = Outcome.ok r →
      (Vector.Insert_move E v d x w).2.1.Capacity =
        if v.Size = v.Capacity then max 1 (2 * v.Capacity) else v.Capacity) ∧
    (w.calm →
      (Vector.PushBack E v x w).1 = Outcome.ok () ∧
      (Vector.PushBack_move E v x w).1 = Outcome.ok () ∧
      (∃ r, (Vector.EmplaceBack E v (BackArgs.plain x) w).1 = Outcome.ok r)) ∧
    (w.calm → d ≤ v.Size → (v.insrt_cpy_called = true → E.copy_constructible = true) →
      (Vector.Emplace E v d x w).1 = Outcome.ok d ∧
      (Vector.Insert_move E v d x w).1 = Outcome.ok d ∧
      (E.copy_constructible = true → (Vector.Insert E v d x w).1 = Outcome.ok d)) := by
  have hpush : (Vector.PushBack E v x w).1 = Outcome.ok () →
      (Vector.PushBack E v x w).2.1.data_.capacity_ =
        if v.size_ = v.data_.capacity_ then max 1 (2 * v.data_.capacity_)
        else v.data_.capacity_ := by
    intro h
    obtain ⟨-, -, h3, -⟩ := PushBack_post E v x w hv hfit h
    rw [h3]
    by_cases hc : v.data_.capacity_ = v.size_
    · rw [if_pos hc, if_pos hc.symm, hc]
      split <;> omega
    · rw [if_neg hc, if_neg (fun h => hc h.symm)]
  have hemp : ∀ (u : Vector T), u.data_ = v.data_ → u.size_ = v.size_ →
      ∀ r, (Vector.Emplace E u d x w).1 = Outcome.ok r →
      (Vector.Emplace E u d x w).2.1.data_.capacity_ =
        if v.size_ = v.data_.capacity_ then max 1 (2 * v.data_.capacity_)
        else v.data_.capacity_ := by
    intro u hu1 hu2 r h
    rw [Emplace_capacity E u d x w (by rw [hu2]; exact hfit) r h, hu1, hu2]
    by_cases hc : v.data_.capacity_ = v.size_
    · rw [if_pos hc, if_pos hc.symm]
    · rw [if_neg hc, if_neg (fun h => hc h.symm)]
  refine ⟨hpush, hpush, fun args r h => ?_, hemp v rfl rfl, hemp _ rfl rfl, hemp _ rfl rfl,
    fun hq => ?_, fun hq hd hflag => ?_⟩
  · show (Vector.EmplaceBack E v args w).2.1.data_.capacity_ =
      if v.size_ = v.data_.capacity_ then max 1 (2 * v.data_.capacity_) else v.data_.capacity_
    rw [EmplaceBack_capacity E v args w hfit r h]
    by_cases hc : v.data_.capacity_ = v.size_
    · rw [if_pos hc, if_pos hc.symm]
    · rw [if_neg hc, if_neg (fun h => hc h.symm)]
  · have hp := (PushBack_quiet E v x w hq).1
    exact ⟨hp, hp, _, (EmplaceBack_vec E v x w).2.1 hp⟩
  · exact ⟨(Emplace_position E v d x w hv hd hfit hq (new_elem_of_flag E v hflag)).1,
      (Emplace_position E { v with insrt_mve_called := true } d x w hv hd hfit hq
        (new_elem_Insert_move E v hflag)).1,
      fun hc => (Emplace_position E { v with insrt_cpy_called := true } d x w hv hd hfit hq
        (new_elem_Insert E v hc)).1⟩

/-- Witness of C11: a push onto the full `[1, 2, 3, 4]` doubles the capacity to 8. -/
theorem C11_capacity_after_insertion_witness :
    (Vector.of [(1 : Int), 2, 3, 4] 4).Valid ∧
    2 * (Vector.of [(1 : Int), 2, 3, 4] 4).size_ < SIZE_MOD ∧
    (Vector.PushBack intElem (Vector.of [1, 2, 3, 4] 4) 5 (World.quiet 4)).2.1.Capacity =
      if (Vector.of [(1 : Int), 2, 3, 4] 4).Size = (Vector.of [(1 : Int), 2, 3, 4] 4).Capacity
      then max 1 (2 * (Vector.of [(1 : Int), 2, 3, 4] 4).Capacity)
      else (Vector.of [(1 : Int), 2, 3, 4] 4).Capacity :=
  ⟨by decide, by decide,
   (C11_capacity_after_insertion intElem (Vector.of [1, 2, 3, 4] 4) 0 5 (World.quiet 4)
      (by decide) (by decide)).1
     ((C11_capacity_after_insertion intElem (Vector.of [1, 2, 3, 4] 4) 0 5 (World.quiet 4)
      (by decide) (by decide)).2.2.2.2.2.2.1 (by decide)).1⟩


/-! ## C12: the growth law -/

theorem push_all_growth (E : Elem T) :
    ∀ (xs : List T) (v : Vector T) (w : World), v.Valid → w.calm →
      v.data_.capacity_ ≤ 2 * v.size_ → 2 * (v.size_ + xs.length) ≤ SIZE_MOD →
      (push_all E xs v w).1.size_ = v.size_ + xs.length ∧
      (push_all E xs v w).1.size_ ≤ (push_all E xs v w).1.data_.capacity_ ∧
      (push_all E xs v w).1.data_.capacity_ ≤ 2 * (push_all E xs v w).1.size_ := by
  intro xs
  induction xs with
  | nil =>
    intro v w hv _ hcap _
    exact ⟨rfl, hv.1, hcap⟩
  | cons x rest ih =>
    intro v w hv hq hcap hfit
    simp only [List.length_cons] at hfit
    unfold push_all
    obtain ⟨hok, hq1⟩ := PushBack_quiet E v x w hq
    obtain ⟨-, h2, h3, h4⟩ := PushBack_post E v x w hv (by omega) hok
    have hcap1 : (Vector.PushBack E v x w).2.1.data_.capacity_ ≤
        2 * (Vector.PushBack E v x w).2.1.size_ := by
      rw [h2, h3]
      split
      · split <;> omega
      · omega
    obtain ⟨i1, i2, i3⟩ := ih _ _ h4 hq1 hcap1 (by rw [h2]; omega)
    refine ⟨?_, i2, i3⟩
    rw [i1, h2, List.length_cons]
    omega

/-- C12: for every `n` (with `2 * n` within `size_t`), after `n` calls of `PushBack` on a
default-constructed vector, none of which throws, `Size() == n` and
`n <= Capacity() <= 2 * n`; with `n = 5` the capacity is 8. -/
theorem C12_growth_law (E : Elem T) (n : Nat) (xs : List T) (w : World)
    (hn : xs.length = n) (hfit : 2 * n ≤ SIZE_MOD) (hq : w.calm) :
    ((push_all E xs Vector.ctor_default w).1.Size = n ∧
     n ≤ (push_all E xs Vector.ctor_default w).1.Capacity ∧
     (push_all E xs Vector.ctor_default w).1.Capacity ≤ 2 * n) ∧
    (push_all intElem [10, 20, 30, 40, 50] Vector.ctor_default (World.quiet 0)).1.Capacity = 8 := by
  refine ⟨?_, by decide⟩
  obtain ⟨h1, h2, h3⟩ := push_all_growth E xs Vector.ctor_default w
    ⟨Nat.le_refl _, rfl⟩ hq (Nat.le_refl _)
    (by simp only [Vector.ctor_default, Nat.zero_add, hn]; exact hfit)
  have h0 : (push_all E xs Vector.ctor_default w).1.size_ = n := by
    rw [h1, hn]
    simp [Vector.ctor_default]
  exact ⟨h0, by rw [← h0]; exact h2, by rw [← h0]; exact h3⟩

/-- Witness of C12: three pushes into an empty vector. -/
theorem C12_growth_law_witness :
    ([(7 : Int), 8, 9] : List Int).length = 3 ∧ (World.quiet 0).calm ∧
    (push_all intElem [7, 8, 9] Vector.ctor_default (World.quiet 0)).1.Size = 3 ∧
    3 ≤ (push_all intElem [7, 8, 9] Vector.ctor_default (World.quiet 0)).1.Capacity ∧
    (push_all intElem [7, 8, 9] Vector.ctor_default (World.quiet 0)).1.Capacity ≤ 2 * 3 :=
  ⟨rfl, by decide,
   (C12_growth_law intElem 3 [7, 8, 9] (World.quiet 0) rfl (by decide) (by decide)).1⟩


/-! ## C13: the position returned by `Emplace` -/

/-- The returned position when nothing throws: on a valid vector, for every position
`0 <= d <= size`, on the reallocation path and on the in-place path alike, when no element
operation throws, `Emplace(begin() + d, x)`
and `Insert(begin() + d, x)` (either overload) return the position at index `d` of the
vector after the call, and the element at that index is `x`. -/
theorem Emplace_returns_position_calm (E : Elem T) (v : Vector T) (d : Nat) (x : T) (w : World)
    (hv : v.Valid) (hd : d ≤ v.Size) (hfit : 2 * v.size_ < SIZE_MOD) (hq : w.calm)
    (hflag : v.insrt_cpy_called = true → E.copy_constructible = true) :
    ((Vector.Emplace E v d x w).1 = Outcome.ok d ∧
     slot (Vector.Emplace E v d x w).2.1.elems d = some x) ∧
    (E.copy_constructible = true →
     (Vector.Insert E v d x w).1 = Outcome.ok d ∧
     slot (Vector.Insert E v d x w).2.1.elems d = some x) ∧
    ((Vector.Insert_move E v d x w).1 = Outcome.ok d ∧
     slot (Vector.Insert_move E v d x w).2.1.elems d = some x) :=
  ⟨Emplace_position E v d x w hv hd hfit hq (new_elem_of_flag E v hflag),
   fun hc => Emplace_position E { v with insrt_cpy_called := true } d x w hv hd hfit hq
     (new_elem_Insert E v hc),
   Emplace_position E { v with insrt_mve_called := true } d x w hv hd hfit hq
     (new_elem_Insert_move E v hflag)⟩

/-- C13 (the code departs from the claim): on the full `[1, 2, 4, 5]` (size 4, capacity 4)
of a copyable element type whose copies may throw, `Insert(begin() + 2, 3)` and
`Emplace(begin() + 2, 3)` whose first relocation copy throws return the position at index
2 of the vector after the call, which has `Size() == 5`, and no element is stored at that
index: the handler `catch (...)` of the growth constructor has destroyed the new element
and has not thrown again (the defect of C8).  The claim has the element at the returned
position equal to 3 on every return. -/
theorem C13_returned_position_without_element :
    (Vector.of [(1 : Int), 2, 4, 5] 4).Valid ∧ 2 ≤ (Vector.of [(1 : Int), 2, 4, 5] 4).Size ∧
    ((Vector.Insert probeElem (Vector.of [1, 2, 4, 5] 4) 2 3
        { live := 4, throws := [false, true], asserts_ok := true }).1 = Outcome.ok 2 ∧
     2 < (Vector.Insert probeElem (Vector.of [1, 2, 4, 5] 4) 2 3
        { live := 4, throws := [false, true], asserts_ok := true }).2.1.Size ∧
     slot (Vector.Insert probeElem (Vector.of [1, 2, 4, 5] 4) 2 3
        { live := 4, throws := [false, true], asserts_ok := true }).2.1.elems 2 = none ∧
     slot (Vector.Insert probeElem (Vector.of [1, 2, 4, 5] 4) 2 3
        { live := 4, throws := [false, true], asserts_ok := true }).2.1.elems 2 ≠ some 3) ∧
    ((Vector.Emplace probeElem (Vector.of [1, 2, 4, 5] 4) 2 3
        { live := 4, throws := [false, true], asserts_ok := true }).1 = Outcome.ok 2 ∧
     slot (Vector.Emplace probeElem (Vector.of [1, 2, 4, 5] 4) 2 3
        { live := 4, throws := [false, true], asserts_ok := true }).2.1.elems 2 = none) ∧
    ((Vector.Insert_move probeElem (Vector.of [1, 2, 4, 5] 4) 2 3
        { live := 4, throws := [false, true], asserts_ok := true }).1 = Outcome.ok 2 ∧
     slot (Vector.Insert_move probeElem (Vector.of [1, 2, 4, 5] 4) 2 3
        { live := 4, throws := [false, true], asserts_ok := true }).2.1.elems 2 = none) := by
  decide


/-! ## C14: `Reserve` -/

theorem Reserve_post (E : Elem T) (v : Vector T) (k : Nat) (w : World) (hv : v.Valid)
    (h : (Vector.Reserve E v k w).1 = Outcome.ok ()) :
    (Vector.Reserve E v k w).2.1.size_ = v.size_ ∧
    (Vector.Reserve E v k w).2.1.elems = v.elems ∧
    (Vector.Reserve E v k w).2.1.data_.capacity_ = max v.data_.capacity_ k ∧
    (Vector.Reserve E v k w).2.1.Valid := by
  obtain ⟨hsz, hlen⟩ := hv
  unfold Vector.Reserve at h ⊢
  by_cases hc : k ≤ v.data_.Capacity
  · have hc2 : k ≤ v.data_.capacity_ := hc
    rw [if_pos hc]
    exact ⟨rfl, rfl, by simp only; omega, hsz, hlen⟩
  · have hc2 : ¬ k ≤ v.data_.capacity_ := hc
    rw [if_neg hc] at h ⊢
    simp only at h ⊢
    have hr := relocate_n_spec E v.data_.buffer_ 0 v.size_ (RawMemory.ctor k).buffer_ 0 w
    generalize relocate_n E v.data_.buffer_ 0 v.size_ (RawMemory.ctor k).buffer_ 0 w = m
      at hr h ⊢
    obtain ⟨t, src, dst, w1⟩ := m
    cases t with
    | true => simp at h
    | false =>
      obtain ⟨hl, hs⟩ := hr rfl
      simp only [RawMemory.ctor, length_Allocate] at hl hs
      simp only [RawMemory.Swap, RawMemory.ctor, Vector.elems, Vector.Valid]
      refine ⟨trivial, ?_, by omega, by omega, hl⟩
      apply take_eq_of_slot _ _ _ (by omega) (by omega)
      intro i hi
      rw [hs i, if_pos (by omega)]
      simp

theorem Reserve_quiet (E : Elem T) (v : Vector T) (k : Nat) (w : World) (hq : w.calm) :
    (Vector.Reserve E v k w).1 = Outcome.ok () ∧ (Vector.Reserve E v k w).2.2.calm := by
  unfold Vector.Reserve
  split
  · exact ⟨rfl, hq⟩
  · simp only
    have hr := relocate_n_quiet E v.data_.buffer_ 0 v.size_ (RawMemory.ctor k).buffer_ 0 w hq
    generalize relocate_n E v.data_.buffer_ 0 v.size_ (RawMemory.ctor k).buffer_ 0 w = m
      at hr ⊢
    obtain ⟨t, src, dst, w1⟩ := m
    obtain ⟨h1, h2⟩ := hr
    simp only at h1 h2
    subst h1
    simp only [true_and, destroy_n_calm]
    exact h2

/-- C14: on a valid vector, `Reserve(k)` returns when no element operation throws, and
whenever it returns `Size()` and the element sequence are unchanged and `Capacity()` is
`max(old capacity, k)`; `Reserve(k)` with `k <= Capacity()` changes nothing at all. -/
theorem C14_Reserve (E : Elem T) (v : Vector T) (k : Nat) (w : World) (hv : v.Valid) :
    (w.calm → (Vector.Reserve E v k w).1 = Outcome.ok ()) ∧
    ((Vector.Reserve E v k w).1 = Outcome.ok () →
      (Vector.Reserve E v k w).2.1.Size = v.Size ∧
      (Vector.Reserve E v k w).2.1.elems = v.elems ∧
      (Vector.Reserve E v k w).2.1.Capacity = max v.Capacity k) ∧
    (k ≤ v.Capacity → Vector.Reserve E v k w = (Outcome.ok (), v, w)) := by
  refine ⟨fun hq => (Reserve_quiet E v k w hq).1, fun h => ?_, fun hk => ?_⟩
  · obtain ⟨h1, h2, h3, -⟩ := Reserve_post E v k w hv h
    exact ⟨h1, h2, h3⟩
  · unfold Vector.Reserve
    rw [if_pos (show k ≤ v.data_.Capacity from hk)]

/-- Witness of C14: `Reserve(10)` on `[1, 2, 3]` with capacity 4. -/
theorem C14_Reserve_witness :
    (Vector.of [(1 : Int), 2, 3] 4).Valid ∧
    (Vector.Reserve intElem (Vector.of [1, 2, 3] 4) 10 (World.quiet 3)).2.1.elems =
      (Vector.of [(1 : Int), 2, 3] 4).elems ∧
    (Vector.Reserve intElem (Vector.of [1, 2, 3] 4) 10 (World.quiet 3)).2.1.Capacity =
      max (Vector.of [(1 : Int), 2, 3] 4).Capacity 10 :=
  ⟨by decide,
   ((C14_Reserve intElem (Vector.of [1, 2, 3] 4) 10 (World.quiet 3) (by decide)).2.1
      ((C14_Reserve intElem (Vector.of [1, 2, 3] 4) 10 (World.quiet 3) (by decide)).1
        (by decide))).2.1,
   ((C14_Reserve intElem (Vector.of [1, 2, 3] 4) 10 (World.quiet 3) (by decide)).2.1
      ((C14_Reserve intElem (Vector.of [1, 2, 3] 4) 10 (World.quiet 3) (by decide)).1
        (by decide))).2.2⟩


/-! ## C15: `Resize` -/

theorem slot_replicate_some (n i : Nat) (a : Option T) :
    slot (List.replicate n a) i = if i < n then a else none := by
  simp only [slot_eq, List.getElem?_replicate]
  split <;> simp

theorem uninitialized_value_construct_loop_spec (E : Elem T) (p : Nat) :
    ∀ (r done : Nat) (buf : List (Option T)) (w : World),
      (uninitialized_value_construct_loop E p r done buf w).1 = false →
      (uninitialized_value_construct_loop E p r done buf w).2.1.length = buf.length ∧
      ∀ i, slot (uninitialized_value_construct_loop E p r done buf w).2.1 i =
        if p + done ≤ i ∧ i < p + done + r ∧ i < buf.length then some E.value_init
        else slot buf i := by
  intro r
  induction r with
  | zero =>
    intro done buf w _
    refine ⟨rfl, fun i => ?_⟩
    simp only [uninitialized_value_construct_loop]
    rw [if_neg (by omega)]
  | succ k ih =>
    intro done buf w h
    unfold uninitialized_value_construct_loop at h ⊢
    rcases ht : w.tick with ⟨t, w1⟩
    rw [ht] at h
    cases t with
    | true => simp at h
    | false =>
      simp only at h ⊢
      obtain ⟨hl, hs⟩ := ih _ _ _ h
      refine ⟨by simpa using hl, fun i => ?_⟩
      rw [hs i]
      simp only [slot_set, List.length_set]
      by_cases c1 : p + (done + 1) ≤ i ∧ i < p + (done + 1) + k ∧ i < buf.length
      · rw [if_pos c1, if_pos (by omega)]
      · rw [if_neg c1]
        by_cases c2 : p + done = i ∧ p + done < buf.length
        · rw [if_pos c2, if_pos (by omega)]
        · rw [if_neg c2, if_neg (by omega)]

theorem uninitialized_value_construct_loop_quiet (E : Elem T) (p : Nat) :
    ∀ (r done : Nat) (buf : List (Option T)) (w : World), w.calm →
      (uninitialized_value_construct_loop E p r done buf w).1 = false ∧
      (uninitialized_value_construct_loop E p r done buf w).2.2.calm := by
  intro r
  induction r with
  | zero => intro done buf w h; exact ⟨rfl, h⟩
  | succ k ih =>
    intro done buf w h
    unfold uninitialized_value_construct_loop
    obtain ⟨w1, ht, hc⟩ := tick_calm w h
    rw [ht]
    exact ih _ _ _ hc

theorem Resize_post (E : Elem T) (v : Vector T) (n : Nat) (w : World) (hv : v.Valid)
    (hn : n < SIZE_MOD) (h : (Vector.Resize E v n w).1 = Outcome.ok ()) :
    (Vector.Resize E v n w).2.1.size_ = n ∧
    (Vector.Resize E v n w).2.1.elems =
      v.elems.take n ++ List.replicate (n - v.size_) (some E.value_init) ∧
    (Vector.Resize E v n w).2.1.data_.capacity_ = max v.data_.capacity_ n := by
  have hv0 := hv
  obtain ⟨hsz, hlen⟩ := hv
  unfold Vector.Resize at h ⊢
  simp only at h ⊢
  by_cases c1 : n > v.size_
  · have c2 : ¬ n < v.size_ := by omega
    rw [if_pos c1] at h ⊢
    simp only [if_neg c2] at h ⊢
    have hu : usub n v.size_ = n - v.size_ := usub_of_le _ _ (by omega) hn
    have hR := Reserve_post E v n w hv0
    generalize Vector.Reserve E v n w = m at hR h ⊢
    obtain ⟨o, v2, w2⟩ := m
    cases o with
    | threw => simp at h
    | terminated => simp at h
    | ok u =>
      obtain ⟨r1, r2, r3, r4, r5⟩ := hR rfl
      simp only at r1 r2 r3 r4 r5 h ⊢
      rw [r1, hu] at h ⊢
      have hc := uninitialized_value_construct_loop_spec E v.size_ (n - v.size_) 0
        v2.data_.buffer_ w2
      simp only [uninitialized_value_construct_n] at h ⊢
      generalize uninitialized_value_construct_loop E v.size_ (n - v.size_) 0
        v2.data_.buffer_ w2 = m2 at hc h ⊢
      obtain ⟨t, buf, w3⟩ := m2
      cases t with
      | true => simp at h
      | false =>
        obtain ⟨hl, hs2⟩ := hc rfl
        simp only at hl hs2
        simp only [Vector.elems]
        refine ⟨trivial, ?_, r3⟩
        have hslot : ∀ i, i < v.size_ → slot v2.data_.buffer_ i = slot v.data_.buffer_ i := by
          intro i hi
          have := congrArg (fun l => slot l i) r2
          simp only [Vector.elems, slot_take, r1, if_pos hi] at this
          exact this
        apply ext_slot
        · simp only [List.length_take, List.length_append, List.length_replicate]
          omega
        · intro i hi
          simp only [List.length_take] at hi
          simp only [slot_take, slot_append, slot_replicate_some, List.length_take]
          rw [if_pos (by omega), hs2 i]
          by_cases c3 : i < v.size_
          · rw [if_neg (by omega), if_pos (by omega), if_pos (by omega), if_pos c3]
            exact hslot i c3
          · rw [if_pos (by omega), if_neg (by omega), if_pos (by omega)]
  · rw [if_neg c1] at h ⊢
    simp only [Vector.elems]
    refine ⟨trivial, ?_, by omega⟩
    have e0 : n - v.size_ = 0 := by omega
    have e2 : min n v.size_ = n := by omega
    rw [e0, List.replicate_zero, List.append_nil, List.take_take, e2]
    by_cases c2 : n < v.size_
    · simp only [if_pos c2]
      apply take_eq_of_slot _ _ _ (by rw [destroy_n_length]; omega) (by omega)
      intro i hi
      rw [destroy_n_slot, if_neg (by omega)]
    · simp only [if_neg c2]

theorem Resize_quiet (E : Elem T) (v : Vector T) (n : Nat) (w : World) (hq : w.calm) :
    (Vector.Resize E v n w).1 = Outcome.ok () := by
  unfold Vector.Resize
  simp only
  split
  · rename_i c1
    have c2 : ¬ n < v.size_ := by omega
    simp only [if_neg c2]
    have hR := Reserve_quiet E v n w hq
    generalize Vector.Reserve E v n w = m at hR ⊢
    obtain ⟨o, v2, w2⟩ := m
    obtain ⟨h1, h2⟩ := hR
    simp only at h1 h2
    subst h1
    simp only
    have hc := uninitialized_value_construct_loop_quiet E v2.size_ (usub n v2.size_) 0
      v2.data_.buffer_ w2 h2
    simp only [uninitialized_value_construct_n]
    generalize uninitialized_value_construct_loop E v2.size_ (usub n v2.size_) 0
      v2.data_.buffer_ w2 = m2 at hc ⊢
    obtain ⟨t, buf, w3⟩ := m2
    obtain ⟨h3, -⟩ := hc
    simp only at h3
    subst h3
    rfl
  · rfl

theorem Resize_same (E : Elem T) (v : Vector T) (w : World) :
    Vector.Resize E v v.size_ w = (Outcome.ok (), v, w) := by
  unfold Vector.Resize
  simp only [Nat.lt_irrefl, if_false, gt_iff_lt]

/-- C15: on a valid vector, `Resize(n)` returns when no element operation throws, and
whenever it returns `Size()` is `n`, the element sequence is the first `min(old size, n)`
old elements followed by `n - old size` value-constructed `T()`, and `Capacity()` is
`max(old capacity, n)`; `Resize(Size())` leaves the vector unchanged. -/
theorem C15_Resize (E : Elem T) (v : Vector T) (n : Nat) (w : World) (hv : v.Valid)
    (hn : n < SIZE_MOD) :
    (w.calm → (Vector.Resize E v n w).1 = Outcome.ok ()) ∧
    ((Vector.Resize E v n w).1 = Outcome.ok () →
      (Vector.Resize E v n w).2.1.Size = n ∧
      (Vector.Resize E v n w).2.1.elems =
        v.elems.take n ++ List.replicate (n - v.Size) (some E.value_init) ∧
      (Vector.Resize E v n w).2.1.Capacity = max v.Capacity n) ∧
    Vector.Resize E v v.Size w = (Outcome.ok (), v, w) :=
  ⟨fun hq => Resize_quiet E v n w hq, fun h => Resize_post E v n w hv hn h, Resize_same E v w⟩

/-- Witness of C15: `Resize(5)` on `[1, 2, 3]` with capacity 4 appends two zeros. -/
theorem C15_Resize_witness :
    (Vector.of [(1 : Int), 2, 3] 4).Valid ∧
    (Vector.Resize intElem (Vector.of [1, 2, 3] 4) 5 (World.quiet 3)).2.1.elems =
      (Vector.of [(1 : Int), 2, 3] 4).elems.take 5 ++
        List.replicate (5 - (Vector.of [(1 : Int), 2, 3] 4).Size) (some intElem.value_init) :=
  ⟨by decide,
   ((C15_Resize intElem (Vector.of [1, 2, 3] 4) 5 (World.quiet 3) (by decide) (by decide)).2.1
      ((C15_Resize intElem (Vector.of [1, 2, 3] 4) 5 (World.quiet 3) (by decide)
        (by decide)).1 (by decide))).2.1⟩


/-! ## C16: `Reserve` when relocation throws -/

theorem tick_live (w : World) : w.tick.2.live = w.live ∧ w.tick.2.asserts_ok = w.asserts_ok := by
  unfold World.tick
  split <;> exact ⟨rfl, rfl⟩

theorem uninitialized_copy_loop_live (src : List (Option T)) (s d : Nat) :
    ∀ (r done : Nat) (dst : List (Option T)) (w : World),
      (uninitialized_copy_loop src s d r done dst w).1 = true →
      (uninitialized_copy_loop src s d r done dst w).2.2.live = w.live - done := by
  intro r
  induction r with
  | zero => intro done dst w h; simp [uninitialized_copy_loop] at h
  | succ k ih =>
    intro done dst w h
    unfold uninitialized_copy_loop at h ⊢
    have hl := (tick_live w).1
    generalize w.tick = tk at hl h ⊢
    obtain ⟨t, w1⟩ := tk
    simp only at hl
    cases t with
    | true =>
      simp only
      rw [destroy_n_live, hl]
    | false =>
      simp only at h ⊢
      rw [ih _ _ _ h]
      simp only [World.add, hl]
      push_cast
      ring

theorem relocate_n_live (E : Elem T) (src : List (Option T)) (s n : Nat)
    (dst : List (Option T)) (d : Nat) (w : World) (hE : E.copy_constructible = true)
    (h : (relocate_n E src s n dst d w).1 = true) :
    (relocate_n E src s n dst d w).2.2.2.live = w.live := by
  unfold relocate_n at h ⊢
  split
  · rename_i hc
    rw [if_pos hc] at h
    have hn : E.nothrow_move_constructible = true := by simpa [hE] using hc
    have := uninitialized_move_loop_nothrow E s d hn n 0 src dst w
    simp [uninitialized_move_n, this] at h
  · rename_i hc
    rw [if_neg hc] at h
    have := uninitialized_copy_loop_live src s d n 0 dst w (by simpa [uninitialized_copy_n] using h)
    simpa [uninitialized_copy_n] using this

theorem relocate_n_throws (E : Elem T) (src : List (Option T)) (s n : Nat)
    (dst : List (Option T)) (d : Nat) (w : World) (hE : E.copy_constructible = true)
    (hN : E.nothrow_move_constructible = false) (k : Nat) (rest : List Bool) (hk : k < n)
    (hw : w.throws = List.replicate k false ++ true :: rest) :
    (relocate_n E src s n dst d w).1 = true := by
  unfold relocate_n
  rw [if_neg (by simp [hE, hN])]
  have := uninitialized_copy_loop_throws src s d k n 0 dst w rest hk hw
  simpa [uninitialized_copy_n] using this

theorem Reserve_strong (E : Elem T) (v : Vector T) (k : Nat) (w : World)
    (hE : E.copy_constructible = true) :
    (Vector.Reserve E v k w).1 = Outcome.ok () ∨
    ((Vector.Reserve E v k w).1 = Outcome.threw ∧ (Vector.Reserve E v k w).2.1 = v ∧
      (Vector.Reserve E v k w).2.2.live = w.live) := by
  unfold Vector.Reserve
  split
  · exact Or.inl rfl
  · simp only
    have h1 := relocate_n_source E v.data_.buffer_ 0 v.size_ (RawMemory.ctor k).buffer_ 0 w hE
    have h2 := relocate_n_live E v.data_.buffer_ 0 v.size_ (RawMemory.ctor k).buffer_ 0 w hE
    generalize relocate_n E v.data_.buffer_ 0 v.size_ (RawMemory.ctor k).buffer_ 0 w = m
      at h1 h2 ⊢
    obtain ⟨t, src, dst, w1⟩ := m
    cases t with
    | false => exact Or.inl rfl
    | true =>
      have e1 := h1 rfl
      have e2 := h2 rfl
      simp only at e1 e2
      subst e1
      exact Or.inr ⟨rfl, rfl, e2⟩

/-- C16: for a copy-constructible `T`, a call `Reserve(k)` either returns or throws and
leaves the vector as it was (`Size()`, `Capacity()` and every slot), with as many live
instances as before the call, so every element built in the new block has been destroyed.
In particular, when `k > Capacity()`, moves of `T` may throw, so that relocation copies,
and the copy of the `(j + 1)`-th element throws, the exception leaves `Reserve` with the
vector unchanged. -/
theorem C16_Reserve_relocation_failure (E : Elem T) (v : Vector T) (k : Nat) (w : World)
    (hE : E.copy_constructible = true) :
    ((Vector.Reserve E v k w).1 = Outcome.ok () ∨
      ((Vector.Reserve E v k w).1 = Outcome.threw ∧ (Vector.Reserve E v k w).2.1 = v ∧
        (Vector.Reserve E v k w).2.2.live = w.live)) ∧
    (∀ (j : Nat) (rest : List Bool), v.Capacity < k → E.nothrow_move_constructible = false →
      j < v.Size → w.throws = List.replicate j false ++ true :: rest →
      (Vector.Reserve E v k w).1 = Outcome.threw ∧ (Vector.Reserve E v k w).2.1 = v ∧
      (Vector.Reserve E v k w).2.1.Size = v.Size ∧
      (Vector.Reserve E v k w).2.1.Capacity = v.Capacity ∧
      (Vector.Reserve E v k w).2.1.elems = v.elems ∧
      (Vector.Reserve E v k w).2.2.live = w.live) := by
  have h1 := Reserve_strong E v k w hE
  refine ⟨h1, fun j rest hk hN hj hw => ?_⟩
  have h2 : (Vector.Reserve E v k w).1 = Outcome.threw := by
    unfold Vector.Reserve
    rw [if_neg (show ¬ k ≤ v.data_.Capacity from Nat.not_le.mpr hk)]
    simp only
    have h3 := relocate_n_throws E v.data_.buffer_ 0 v.size_ (RawMemory.ctor k).buffer_ 0 w
      hE hN j rest hj hw
    generalize relocate_n E v.data_.buffer_ 0 v.size_ (RawMemory.ctor k).buffer_ 0 w = m
      at h3 ⊢
    obtain ⟨t, src, dst, w1⟩ := m
    simp only at h3
    subst h3
    rfl
  rcases h1 with h3 | ⟨-, h4, h5⟩
  · rw [h2] at h3
    exact absurd h3 (by simp)
  · exact ⟨h2, h4, by rw [h4], by rw [h4], by rw [h4], h5⟩

/-- Witness of C16: `Reserve(8)` on `[1, 2, 3, 4]` with the third copy throwing. -/
theorem C16_Reserve_relocation_failure_witness :
    probeElem.copy_constructible = true ∧
    (Vector.Reserve probeElem (Vector.of [1, 2, 3, 4] 4) 8
        { live := 4, throws := [false, false, true], asserts_ok := true }).1 = Outcome.threw ∧
    (Vector.Reserve probeElem (Vector.of [1, 2, 3, 4] 4) 8
        { live := 4, throws := [false, false, true], asserts_ok := true }).2.1 =
      Vector.of [1, 2, 3, 4] 4 :=
  ⟨rfl,
   ((C16_Reserve_relocation_failure probeElem (Vector.of [1, 2, 3, 4] 4) 8
      { live := 4, throws := [false, false, true], asserts_ok := true } rfl).2 2 []
      (by decide) rfl (by decide) rfl).1,
   ((C16_Reserve_relocation_failure probeElem (Vector.of [1, 2, 3, 4] 4) 8
      { live := 4, throws := [false, false, true], asserts_ok := true } rfl).2 2 []
      (by decide) rfl (by decide) rfl).2.1⟩


/-! ## C17: copy assignment when an element operation throws -/


theorem copy_assign_loop_any (this_data rhs_data : RawMemory T) :
    ∀ (r i : Nat) (buf : List (Option T)) (w : World) (j : Nat),
      slot (copy_assign_loop this_data rhs_data r i buf w).2.1 j = slot buf j ∨
      (i ≤ j ∧ j < i + r ∧
        slot (copy_assign_loop this_data rhs_data r i buf w).2.1 j = slot rhs_data.buffer_ j) := by
  intro r
  induction r with
  | zero => intro i buf w j; exact Or.inl rfl
  | succ k ih =>
    intro i buf w j
    unfold copy_assign_loop
    generalize (rhs_data.index i (this_data.index i w)).tick = tk
    obtain ⟨t, w1⟩ := tk
    cases t with
    | true => exact Or.inl rfl
    | false =>
      simp only
      rcases ih (i + 1) (buf.set i (slot rhs_data.buffer_ i)) w1 j with h | ⟨h1, h2, h3⟩
      · rw [h, slot_set]
        by_cases c : i = j ∧ i < buf.length
        · rw [if_pos c]
          exact Or.inr ⟨by omega, by omega, by rw [c.1]⟩
        · rw [if_neg c]
          exact Or.inl rfl
      · exact Or.inr ⟨by omega, by omega, h3⟩

theorem uninitialized_copy_loop_below (src : List (Option T)) (s d : Nat) :
    ∀ (r done : Nat) (dst : List (Option T)) (w : World) (j : Nat), j < d →
      slot (uninitialized_copy_loop src s d r done dst w).2.1 j = slot dst j := by
  intro r
  induction r with
  | zero => intro done dst w j _; rfl
  | succ k ih =>
    intro done dst w j hj
    unfold uninitialized_copy_loop
    generalize w.tick = tk
    obtain ⟨t, w1⟩ := tk
    cases t with
    | true =>
      simp only
      rw [destroy_n_slot, if_neg (by omega)]
    | false =>
      simp only
      rw [ih _ _ _ j hj, slot_set, if_neg (by omega)]

/-- C17, the claim as stated fails: `[9, 9, 9]` assigned to `[1, 2, 3]` (capacity 3, storage
reused) with the second element copy-assignment throwing leaves the call by an exception
with the target holding `[9, 2, 3]`, not `[1, 2, 3]`. -/
theorem C17_reuse_branch_not_strong :
    (Vector.assign_copy (Vector.of [(1 : Int), 2, 3] 3) (some (Vector.of [9, 9, 9] 3))
        { live := 6, throws := [false, true], asserts_ok := true }).1 = Outcome.threw ∧
    (Vector.assign_copy (Vector.of [(1 : Int), 2, 3] 3) (some (Vector.of [9, 9, 9] 3))
        { live := 6, throws := [false, true], asserts_ok := true }).2.1.elems =
      [some 9, some 2, some 3] ∧
    (Vector.assign_copy (Vector.of [(1 : Int), 2, 3] 3) (some (Vector.of [9, 9, 9] 3))
        { live := 6, throws := [false, true], asserts_ok := true }).2.1.elems ≠
      (Vector.of [(1 : Int), 2, 3] 3).elems := by
  decide

/-- C17 as amended: copy assignment gives the strong guarantee in the copy-and-swap branch:
when `source.Size() > target.Capacity()` the call either returns or throws and leaves the
target as it was.  In every branch a call that throws leaves `Size()` and `Capacity()` of
the target as they were, and every element of the target is either its old value or the
source's element at the same index: in the branches that reuse the storage the elements
assigned before the failure keep the source's values. -/
theorem C17_copy_assignment_failure (target source : Vector T) (w : World) :
    (target.Capacity < source.Size →
      (Vector.assign_copy target (some source) w).1 = Outcome.ok () ∨
      ((Vector.assign_copy target (some source) w).1 = Outcome.threw ∧
        (Vector.assign_copy target (some source) w).2.1 = target)) ∧
    ((Vector.assign_copy target (some source) w).1 = Outcome.threw →
      (Vector.assign_copy target (some source) w).2.1.Size = target.Size ∧
      (Vector.assign_copy target (some source) w).2.1.Capacity = target.Capacity ∧
      ∀ j, slot (Vector.assign_copy target (some source) w).2.1.elems j = slot target.elems j ∨
        slot (Vector.assign_copy target (some source) w).2.1.elems j = slot source.elems j) := by
  constructor
  · intro hc
    unfold Vector.assign_copy
    simp only
    rw [if_pos (show source.size_ > target.data_.Capacity from hc)]
    unfold Vector.ctor_copy
    simp only
    generalize uninitialized_copy_n source.data_.buffer_ 0 source.size_
      (RawMemory.ctor source.size_ : RawMemory T).buffer_ 0 w = m
    obtain ⟨t, buf, w1⟩ := m
    cases t with
    | true => exact Or.inr ⟨rfl, rfl⟩
    | false => exact Or.inl rfl
  · intro h
    unfold Vector.assign_copy at h ⊢
    simp only at h ⊢
    by_cases c1 : source.size_ > target.data_.Capacity
    · rw [if_pos c1] at h ⊢
      generalize Vector.ctor_copy source w = m at h ⊢
      obtain ⟨o, w1⟩ := m
      cases o with
      | ok u => simp at h
      | threw => exact ⟨rfl, rfl, fun j => Or.inl rfl⟩
      | terminated => exact ⟨rfl, rfl, fun j => Or.inl rfl⟩
    · rw [if_neg c1] at h ⊢
      by_cases c2 : source.size_ < target.size_
      · rw [if_pos c2] at h ⊢
        have ha := copy_assign_loop_any target.data_ source.data_ source.size_ 0
          target.data_.buffer_ w
        generalize copy_assign_loop target.data_ source.data_ source.size_ 0
          target.data_.buffer_ w = m at ha h ⊢
        obtain ⟨t, buf, w1⟩ := m
        cases t with
        | false => simp at h
        | true =>
          refine ⟨rfl, rfl, fun j => ?_⟩
          simp only [Vector.elems, slot_take]
          by_cases cj : j < target.size_
          · rw [if_pos cj, if_pos cj]
            rcases ha j with e | ⟨-, e2, e3⟩
            · exact Or.inl e
            · refine Or.inr ?_
              rw [if_pos (by omega)]
              exact e3
          · rw [if_neg cj, if_neg cj]
            exact Or.inl rfl
      · rw [if_neg c2] at h ⊢
        have ha := copy_assign_loop_any target.data_ source.data_ target.size_ 0
          target.data_.buffer_ w
        generalize copy_assign_loop target.data_ source.data_ target.size_ 0
          target.data_.buffer_ w = m at ha h ⊢
        obtain ⟨t, buf, w1⟩ := m
        have key : ∀ (b : List (Option T)), (∀ j, j < target.size_ → slot b j = slot buf j) →
            ∀ j, slot (List.take target.size_ b) j = slot target.elems j ∨
              slot (List.take target.size_ b) j = slot source.elems j := by
          intro b hb j
          simp only [Vector.elems, slot_take]
          by_cases cj : j < target.size_
          · rw [if_pos cj, if_pos cj, hb j cj]
            rcases ha j with e | ⟨-, e2, e3⟩
            · exact Or.inl e
            · refine Or.inr ?_
              rw [if_pos (by omega)]
              exact e3
          · rw [if_neg cj, if_neg cj]
            exact Or.inl rfl
        cases t with
        | true => exact ⟨rfl, rfl, key buf (fun _ _ => rfl)⟩
        | false =>
          simp only at h ⊢
          have hb := uninitialized_copy_loop_below source.data_.buffer_ target.size_ target.size_
            (usub source.size_ target.size_) 0 buf w1
          simp only [uninitialized_copy_n] at h ⊢
          generalize uninitialized_copy_loop source.data_.buffer_ target.size_ target.size_
            (usub source.size_ target.size_) 0 buf w1 = m2 at hb h ⊢
          obtain ⟨t2, buf2, w2⟩ := m2
          cases t2 with
          | false => simp at h
          | true => exact ⟨rfl, rfl, key buf2 hb⟩

/-- Witness of C17 as amended: `[9, 9, 9]` assigned to `[1, 2]` (capacity 2) with the second
copy construction throwing. -/
theorem C17_copy_assignment_failure_witness :
    (Vector.of [(1 : Int), 2] 2).Capacity < (Vector.of [(9 : Int), 9, 9] 3).Size ∧
    ((Vector.assign_copy (Vector.of [(1 : Int), 2] 2) (some (Vector.of [9, 9, 9] 3))
        { live := 5, throws := [false, true], asserts_ok := true }).1 = Outcome.ok () ∨
     ((Vector.assign_copy (Vector.of [(1 : Int), 2] 2) (some (Vector.of [9, 9, 9] 3))
        { live := 5, throws := [false, true], asserts_ok := true }).1 = Outcome.threw ∧
      (Vector.assign_copy (Vector.of [(1 : Int), 2] 2) (some (Vector.of [9, 9, 9] 3))
        { live := 5, throws := [false, true], asserts_ok := true }).2.1 =
        Vector.of [(1 : Int), 2] 2)) :=
  ⟨by decide,
   (C17_copy_assignment_failure (Vector.of [(1 : Int), 2] 2) (Vector.of [9, 9, 9] 3)
      { live := 5, throws := [false, true], asserts_ok := true }).1 (by decide)⟩


/-! ## C18: `Swap` -/

/-- C18: for every two vectors `a` and `b`, `a.Swap(b)` leaves `a` with the former size,
capacity and element sequence of `b` and `b` with those of `a`, and a second `a.Swap(b)`
restores both vectors to what they were. -/
theorem C18_Swap_involution (a b : Vector T) :
    ((Vector.Swap a b).1.Size = b.Size ∧ (Vector.Swap a b).1.Capacity = b.Capacity ∧
     (Vector.Swap a b).1.elems = b.elems) ∧
    ((Vector.Swap a b).2.Size = a.Size ∧ (Vector.Swap a b).2.Capacity = a.Capacity ∧
     (Vector.Swap a b).2.elems = a.elems) ∧
    Vector.Swap (Vector.Swap a b).1 (Vector.Swap a b).2 = (a, b) :=
  ⟨⟨rfl, rfl, rfl⟩, ⟨rfl, rfl, rfl⟩, rfl⟩


/-! ## C19: `Emplace(end(), x)`, `EmplaceBack(x)` and `PushBack(x)` -/

theorem relocate_n_zero (E : Elem T) (src : List (Option T)) (s : Nat) (dst : List (Option T))
    (d : Nat) (w : World) : relocate_n E src s 0 dst d w = (false, src, dst, w) := by
  unfold relocate_n
  split <;> rfl

theorem ctor_emplace_at_end (E : Elem T) (other : Vector T) (size : Nat) (x : T) (w : World)
    (hq : w.calm) (hflag : Vector.new_elem E other ≠ NewElem.rethrow)
    (hs : other.size_ < SIZE_MOD) :
    Vector.ctor_emplace E other size other.size_ x w = Vector.ctor_push E other size x w := by
  have hsub : usub other.size_ other.size_ = 0 := by
    rw [usub_of_le _ _ (Nat.le_refl _) hs, Nat.sub_self]
  unfold Vector.ctor_emplace Vector.ctor_push
  simp only
  obtain ⟨w1, ht, hc1⟩ := tick_calm ((RawMemory.ctor size : RawMemory T).plus other.size_ w) hq
  rw [ht, hsub]
  simp only
  have hr := relocate_n_quiet E other.data_.buffer_ 0 other.size_
    ((RawMemory.ctor size).buffer_.set other.size_ (some x)) 0 (w1.add 1) hc1
  generalize relocate_n E other.data_.buffer_ 0 other.size_
    ((RawMemory.ctor size).buffer_.set other.size_ (some x)) 0 (w1.add 1) = m at hr ⊢
  obtain ⟨t, src, dst, w2⟩ := m
  obtain ⟨h1, -⟩ := hr
  simp only at h1
  subst h1
  simp only [Bool.false_eq_true, if_false, relocate_n_zero]

theorem Emplace_at_end (E : Elem T) (v : Vector T) (x : T) (w : World)
    (hq : w.calm) (hflag : Vector.new_elem E v ≠ NewElem.rethrow) (hs : v.size_ < SIZE_MOD) :
    (Vector.Emplace E v v.size_ x w).2.1 = (Vector.PushBack E v x w).2.1 ∧
    (Vector.Emplace E v v.size_ x w).1 = Outcome.ok v.size_ := by
  have hp := (PushBack_quiet E v x w hq).1
  unfold Vector.Emplace
  unfold Vector.PushBack at hp ⊢
  split
  · rename_i hc
    rw [if_pos hc] at hp
    rw [ctor_emplace_at_end E v _ x w hq hflag hs]
    generalize Vector.ctor_push E v (if v.size_ = 0 then 1 else usize (2 * v.size_)) x w = m
      at hp ⊢
    obtain ⟨o, other, w1⟩ := m
    cases o with
    | ok nv => exact ⟨rfl, rfl⟩
    | threw => simp at hp
    | terminated => simp at hp
  · rename_i hc
    rw [if_neg hc] at hp
    rw [if_neg (by simp)]
    generalize (v.data_.plus v.size_ w).tick = tk at hp ⊢
    obtain ⟨t, w1⟩ := tk
    cases t with
    | true => simp at hp
    | false => exact ⟨rfl, rfl⟩

/-- Appending when nothing throws: on a valid vector, when no element operation throws and
the argument `x` of `EmplaceBack` selects one of the constructors of lines 98-136,
`Emplace(end(), x)`, `EmplaceBack(x)` and `PushBack(x)` leave the same vector, hence the
same element sequence, `Size()` and `Capacity()`, in place (`size < capacity`) and on
reallocation (`size == capacity`) alike; and the reference that `EmplaceBack` returns designates the
slot at the old `Size()`, which is the last element of the vector after the call and holds
`x`. -/
theorem Emplace_at_end_calm (E : Elem T) (v : Vector T) (x : T) (w : World)
    (hv : v.Valid) (hfit : 2 * v.size_ < SIZE_MOD) (hq : w.calm)
    (hflag : v.insrt_cpy_called = true → E.copy_constructible = true) :
    ((Vector.Emplace E v v.Size x w).1 = Outcome.ok v.Size ∧
     (Vector.PushBack E v x w).1 = Outcome.ok () ∧
     (Vector.EmplaceBack E v (BackArgs.plain x) w).1 = Outcome.ok v.Size) ∧
    ((Vector.Emplace E v v.Size x w).2.1 = (Vector.EmplaceBack E v (BackArgs.plain x) w).2.1 ∧
     (Vector.Emplace E v v.Size x w).2.1 = (Vector.PushBack E v x w).2.1) ∧
    ((Vector.Emplace E v v.Size x w).2.1.elems = (Vector.EmplaceBack E v (BackArgs.plain x) w).2.1.elems ∧
     (Vector.Emplace E v v.Size x w).2.1.Size = (Vector.EmplaceBack E v (BackArgs.plain x) w).2.1.Size ∧
     (Vector.Emplace E v v.Size x w).2.1.Capacity = (Vector.EmplaceBack E v (BackArgs.plain x) w).2.1.Capacity) ∧
    ((Vector.Emplace E v v.Size x w).2.1.elems = (Vector.PushBack E v x w).2.1.elems ∧
     (Vector.Emplace E v v.Size x w).2.1.Size = (Vector.PushBack E v x w).2.1.Size ∧
     (Vector.Emplace E v v.Size x w).2.1.Capacity = (Vector.PushBack E v x w).2.1.Capacity) ∧
    ((Vector.EmplaceBack E v (BackArgs.plain x) w).2.1.Size = v.Size + 1 ∧
     slot (Vector.EmplaceBack E v (BackArgs.plain x) w).2.1.elems v.Size = some x) := by
  have hs : v.size_ < SIZE_MOD := by unfold SIZE_MOD at *; omega
  obtain ⟨e1, e2⟩ := Emplace_at_end E v x w hq (new_elem_of_flag E v hflag) hs
  obtain ⟨b1, b2, -⟩ := EmplaceBack_vec E v x w
  have hp := (PushBack_quiet E v x w hq).1
  obtain ⟨p1, p2, -, -⟩ := PushBack_post E v x w hv hfit hp
  have e1b : (Vector.Emplace E v v.Size x w).2.1 = (Vector.PushBack E v x w).2.1 := e1
  have hret : (Vector.EmplaceBack E v (BackArgs.plain x) w).1 = Outcome.ok v.Size := by
    rw [b2 hp, p2, usub_of_le _ _ (by omega) (by unfold SIZE_MOD at *; omega)]
    rfl
  refine ⟨⟨e2, hp, hret⟩, ⟨by rw [b1]; exact e1b, e1b⟩, ?_, ?_, ?_⟩
  · rw [b1, e1b]
    exact ⟨rfl, rfl, rfl⟩
  · rw [e1b]
    exact ⟨rfl, rfl, rfl⟩
  · rw [b1]
    refine ⟨p2, ?_⟩
    rw [p1, slot_append, elems_length v hv, if_neg (by simp [Vector.Size]), slot_singleton,
      if_pos (by simp [Vector.Size])]

/-- C19 (the code departs from the claim), by two defects.

The handler `catch (...)` of the growth constructor of `Emplace` does not throw again,
the defect of C8: on the full `[1, 2, 3, 4]` of a copyable element type whose copies may
throw, with the first relocation copy throwing, `Emplace(end(), 5)` returns position 4 and
leaves `Size() == 5`, `Capacity() == 8` and no object in any slot, while `EmplaceBack(5)`
and `PushBack(5)` throw and leave the vector as it was.

The constructor call in the growth branch of `EmplaceBack` resolves to the constructor of
`Emplace` when the first argument is an `int64_t` and `T` is not `int64_t`: on the full
`[1, 2, 3, 4]` of `int`, with nothing thrown, `EmplaceBack(int64_t(2))` takes 2 for a
position and builds the element from no argument, `int()`: it leaves `[1, 2, 0, 3, 4]`,
and the reference it returns designates the last slot, which holds 4, while
`Emplace(end(), 2)` and `PushBack(2)` leave `[1, 2, 3, 4, 2]`.  On the in-place path
(capacity 5) the same call does append 2. -/
theorem C19_Emplace_at_end_differs_from_EmplaceBack :
    (Vector.of [(1 : Int), 2, 3, 4] 4).Valid ∧
    ((Vector.Emplace probeElem (Vector.of [1, 2, 3, 4] 4) (Vector.of [(1 : Int), 2, 3, 4] 4).Size 5
        { live := 4, throws := [false, true], asserts_ok := true }).1 = Outcome.ok 4 ∧
     (Vector.Emplace probeElem (Vector.of [1, 2, 3, 4] 4) (Vector.of [(1 : Int), 2, 3, 4] 4).Size 5
        { live := 4, throws := [false, true], asserts_ok := true }).2.1.elems =
       [none, none, none, none, none] ∧
     (Vector.Emplace probeElem (Vector.of [1, 2, 3, 4] 4) (Vector.of [(1 : Int), 2, 3, 4] 4).Size 5
        { live := 4, throws := [false, true], asserts_ok := true }).2.1.Size = 5 ∧
     (Vector.Emplace probeElem (Vector.of [1, 2, 3, 4] 4) (Vector.of [(1 : Int), 2, 3, 4] 4).Size 5
        { live := 4, throws := [false, true], asserts_ok := true }).2.1.Capacity = 8 ∧
     (Vector.EmplaceBack probeElem (Vector.of [1, 2, 3, 4] 4) (BackArgs.plain 5)
        { live := 4, throws := [false, true], asserts_ok := true }).1 = Outcome.threw ∧
     (Vector.EmplaceBack probeElem (Vector.of [1, 2, 3, 4] 4) (BackArgs.plain 5)
        { live := 4, throws := [false, true], asserts_ok := true }).2.1 =
       Vector.of [1, 2, 3, 4] 4 ∧
     (Vector.PushBack probeElem (Vector.of [1, 2, 3, 4] 4) 5
        { live := 4, throws := [false, true], asserts_ok := true }).1 = Outcome.threw ∧
     (Vector.PushBack probeElem (Vector.of [1, 2, 3, 4] 4) 5
        { live := 4, throws := [false, true], asserts_ok := true }).2.1 =
       Vector.of [1, 2, 3, 4] 4) ∧
    ((BackArgs.int64_first 2 2 0 : BackArgs Int).value = 2 ∧
     (Vector.EmplaceBack intElem (Vector.of [1, 2, 3, 4] 4) (BackArgs.int64_first 2 2 0)
        (World.quiet 4)).1 = Outcome.ok 4 ∧
     (Vector.EmplaceBack intElem (Vector.of [1, 2, 3, 4] 4) (BackArgs.int64_first 2 2 0)
        (World.quiet 4)).2.1.elems = [some 1, some 2, some 0, some 3, some 4] ∧
     slot (Vector.EmplaceBack intElem (Vector.of [1, 2, 3, 4] 4) (BackArgs.int64_first 2 2 0)
        (World.quiet 4)).2.1.elems 4 = some 4 ∧
     (Vector.Emplace intElem (Vector.of [1, 2, 3, 4] 4) (Vector.of [(1 : Int), 2, 3, 4] 4).Size 2
        (World.quiet 4)).2.1.elems = [some 1, some 2, some 3, some 4, some 2] ∧
     (Vector.PushBack intElem (Vector.of [1, 2, 3, 4] 4) 2
        (World.quiet 4)).2.1.elems = [some 1, some 2, some 3, some 4, some 2] ∧
     (Vector.EmplaceBack intElem (Vector.of [1, 2, 3, 4] 5) (BackArgs.int64_first 2 2 0)
        (World.quiet 4)).2.1.elems = [some 1, some 2, some 3, some 4, some 2]) := by
  decide


/-! ## C20: the bounds assertions of `RawMemory` -/

theorem destroy_n_asserts (buf : List (Option T)) (p n : Nat) (w : World) :
    (destroy_n buf p n w).2.asserts_ok = w.asserts_ok := by
  induction n with
  | zero => rfl
  | succ k ih => simpa [destroy_n, World.add] using ih

theorem move_construct_tick_asserts (E : Elem T) (w : World) :
    (move_construct_tick E w).2.asserts_ok = w.asserts_ok := by
  unfold move_construct_tick
  split
  · rfl
  · exact (tick_live w).2

theorem move_assign_tick_asserts (E : Elem T) (w : World) :
    (move_assign_tick E w).2.asserts_ok = w.asserts_ok := by
  unfold move_assign_tick
  split
  · rfl
  · exact (tick_live w).2

theorem uninitialized_copy_loop_asserts (src : List (Option T)) (s d : Nat) :
    ∀ (r done : Nat) (dst : List (Option T)) (w : World),
      (uninitialized_copy_loop src s d r done dst w).2.2.asserts_ok = w.asserts_ok := by
  intro r
  induction r with
  | zero => intro done dst w; rfl
  | succ k ih =>
    intro done dst w
    unfold uninitialized_copy_loop
    have hl := (tick_live w).2
    generalize w.tick = tk at hl ⊢
    obtain ⟨t, w1⟩ := tk
    simp only at hl
    cases t with
    | true =>
      simp only
      rw [destroy_n_asserts, hl]
    | false =>
      simp only
      rw [ih]
      exact hl

theorem uninitialized_move_loop_asserts (E : Elem T) (s d : Nat) :
    ∀ (r done : Nat) (src dst : List (Option T)) (w : World),
      (uninitialized_move_loop E s d r done src dst w).2.2.2.asserts_ok = w.asserts_ok := by
  intro r
  induction r with
  | zero => intro done src dst w; rfl
  | succ k ih =>
    intro done src dst w
    unfold uninitialized_move_loop
    have hl := move_construct_tick_asserts E w
    generalize move_construct_tick E w = tk at hl ⊢
    obtain ⟨t, w1⟩ := tk
    simp only at hl
    cases t with
    | true =>
      simp only
      rw [destroy_n_asserts, hl]
    | false =>
      simp only
      rw [ih]
      exact hl

theorem relocate_n_asserts (E : Elem T) (src : List (Option T)) (s n : Nat)
    (dst : List (Option T)) (d : Nat) (w : World) :
    (relocate_n E src s n dst d w).2.2.2.asserts_ok = w.asserts_ok := by
  unfold relocate_n
  split
  · exact uninitialized_move_loop_asserts E s d n 0 src dst w
  · exact uninitialized_copy_loop_asserts src s d n 0 dst w

theorem move_backward_asserts (E : Elem T) (first : Nat) :
    ∀ (n d_last : Nat) (buf : List (Option T)) (w : World),
      (move_backward E first n d_last buf w).2.2.asserts_ok = w.asserts_ok := by
  intro n
  induction n with
  | zero => intro d_last buf w; rfl
  | succ k ih =>
    intro d_last buf w
    unfold move_backward
    have hl := move_assign_tick_asserts E w
    generalize move_assign_tick E w = tk at hl ⊢
    obtain ⟨t, w1⟩ := tk
    simp only at hl
    cases t with
    | true => exact hl
    | false =>
      simp only
      rw [ih]
      exact hl

theorem dtor_asserts (v : Vector T) (w : World) :
    (Vector.dtor v w).asserts_ok = w.asserts_ok := by
  unfold Vector.dtor
  split
  · exact destroy_n_asserts _ _ _ _
  · rfl

theorem ctor_push_asserts (E : Elem T) (other : Vector T) (size : Nat) (elem : T) (w : World)
    (hw : w.asserts_ok = true) (hs : other.size_ ≤ size) :
    (Vector.ctor_push E other size elem w).2.2.asserts_ok = true := by
  unfold Vector.ctor_push
  simp only
  have hp : ((RawMemory.ctor size : RawMemory T).plus other.size_ w).asserts_ok = true := by
    simp [RawMemory.plus, RawMemory.ctor, hw, hs]
  have hl := (tick_live ((RawMemory.ctor size : RawMemory T).plus other.size_ w)).2
  rw [hp] at hl
  generalize ((RawMemory.ctor size : RawMemory T).plus other.size_ w).tick = tk at hl ⊢
  obtain ⟨t, w1⟩ := tk
  simp only at hl
  cases t with
  | true => exact hl
  | false =>
    simp only
    have hr := relocate_n_asserts E other.data_.buffer_ 0 other.size_
      ((RawMemory.ctor size).buffer_.set other.size_ (some elem)) 0 (w1.add 1)
    generalize relocate_n E other.data_.buffer_ 0 other.size_
      ((RawMemory.ctor size).buffer_.set other.size_ (some elem)) 0 (w1.add 1) = m at hr ⊢
    obtain ⟨t2, src, dst, w2⟩ := m
    simp only [World.add] at hr
    cases t2 with
    | true => exact hr.trans hl
    | false => exact hr.trans hl

theorem ctor_emplace_asserts (E : Elem T) (other : Vector T) (size dist : Nat) (x : T)
    (w : World) (hw : w.asserts_ok = true) (hs : dist ≤ size) :
    (Vector.ctor_emplace E other size dist x w).2.2.asserts_ok = true := by
  unfold Vector.ctor_emplace
  simp only
  have hp : ((RawMemory.ctor size : RawMemory T).plus dist w).asserts_ok = true := by
    simp [RawMemory.plus, RawMemory.ctor, hw, hs]
  have hl := (tick_live ((RawMemory.ctor size : RawMemory T).plus dist w)).2
  rw [hp] at hl
  generalize ((RawMemory.ctor size : RawMemory T).plus dist w).tick = tk at hl ⊢
  obtain ⟨t, w1⟩ := tk
  simp only at hl
  have key : ∀ (w0 : World), w0.asserts_ok = true →
      ∀ (src d1 : List (Option T)),
      (if (relocate_n E src dist (usub other.size_ dist) d1 (dist + 1) w0).1 = true then
          destroy_n (relocate_n E src dist (usub other.size_ dist) d1 (dist + 1) w0).2.2.1 0
            (dist + 1) (relocate_n E src dist (usub other.size_ dist) d1 (dist + 1) w0).2.2.2
        else ((relocate_n E src dist (usub other.size_ dist) d1 (dist + 1) w0).2.2.1,
          (relocate_n E src dist (usub other.size_ dist) d1 (dist + 1) w0).2.2.2)).2.asserts_ok =
        true := by
    intro w0 h0 src d1
    split
    · rw [destroy_n_asserts, relocate_n_asserts]
      exact h0
    · simp only
      rw [relocate_n_asserts]
      exact h0
  cases hne : Vector.new_elem E other with
  | rethrow => exact hw
  | forward =>
    cases t with
    | true => exact hl
    | false =>
      simp only
      apply key
      split
      · rw [destroy_n_asserts, relocate_n_asserts]
        exact hl
      · simp only
        rw [relocate_n_asserts]
        exact hl
  | move =>
    cases t with
    | true => exact hl
    | false =>
      simp only
      apply key
      split
      · rw [destroy_n_asserts, relocate_n_asserts]
        exact hl
      · simp only
        rw [relocate_n_asserts]
        exact hl

theorem grow_capacity_gt (n : Nat) (hfit : 2 * n < SIZE_MOD) :
    n < (if n = 0 then 1 else usize (2 * n)) := by
  rw [usize_of_lt _ hfit]
  split <;> omega

theorem PushBack_asserts (E : Elem T) (v : Vector T) (x : T) (w : World) (hv : v.Valid)
    (hfit : 2 * v.size_ < SIZE_MOD) (hw : w.asserts_ok = true) :
    (Vector.PushBack E v x w).2.2.asserts_ok = true := by
  obtain ⟨hsz, hlen⟩ := hv
  unfold Vector.PushBack
  split
  · have hc := ctor_push_asserts E v (if v.size_ = 0 then 1 else usize (2 * v.size_)) x w hw
      (Nat.le_of_lt (grow_capacity_gt v.size_ hfit))
    generalize Vector.ctor_push E v (if v.size_ = 0 then 1 else usize (2 * v.size_)) x w = m
      at hc ⊢
    obtain ⟨o, other, w1⟩ := m
    simp only at hc
    cases o with
    | ok nv =>
      simp only
      rw [dtor_asserts]
      exact hc
    | threw => exact hc
    | terminated => exact hc
  · have hp : (v.data_.plus v.size_ w).asserts_ok = true := by
      simp [RawMemory.plus, hw, hsz]
    have hl := (tick_live (v.data_.plus v.size_ w)).2
    rw [hp] at hl
    generalize (v.data_.plus v.size_ w).tick = tk at hl ⊢
    obtain ⟨t, w1⟩ := tk
    cases t with
    | true => exact hl
    | false => exact hl

theorem EmplaceBack_asserts (E : Elem T) (v : Vector T) (x : T) (w : World) (hv : v.Valid)
    (hfit : 2 * v.size_ < SIZE_MOD) (hw : w.asserts_ok = true) :
    (Vector.EmplaceBack E v (BackArgs.plain x) w).2.2.asserts_ok = true := by
  obtain ⟨hsz, hlen⟩ := hv
  have hS : usize (v.size_ + 1) = v.size_ + 1 :=
    usize_of_lt _ (by unfold SIZE_MOD at *; omega)
  have hU : usub (v.size_ + 1) 1 = v.size_ :=
    usub_of_le _ _ (by omega) (by unfold SIZE_MOD at *; omega)
  unfold Vector.EmplaceBack Vector.ctor_back
  simp only [BackArgs.value]
  split
  · have hgt := grow_capacity_gt v.size_ hfit
    have hc := ctor_push_asserts E v (if v.size_ = 0 then 1 else usize (2 * v.size_)) x w hw
      (Nat.le_of_lt hgt)
    have hk := ctor_push_ok E v (if v.size_ = 0 then 1 else usize (2 * v.size_)) x w
    generalize Vector.ctor_push E v (if v.size_ = 0 then 1 else usize (2 * v.size_)) x w = m
      at hc hk ⊢
    obtain ⟨o, other, w1⟩ := m
    simp only at hc
    cases o with
    | ok nv =>
      obtain ⟨k1, k2, -, -⟩ := hk nv other w1 rfl
      simp only [Vector.Swap, RawMemory.Swap, RawMemory.index, dtor_asserts, hc, k1, k2, hS, hU,
        Bool.true_and, decide_eq_true_eq]
      exact hgt
    | threw => exact hc
    | terminated => exact hc
  · rename_i hne
    have hne2 : v.data_.capacity_ ≠ v.size_ := hne
    have hp : (v.data_.plus v.size_ w).asserts_ok = true := by
      simp [RawMemory.plus, hw, hsz]
    have hl := (tick_live (v.data_.plus v.size_ w)).2
    rw [hp] at hl
    generalize (v.data_.plus v.size_ w).tick = tk at hl ⊢
    obtain ⟨t, w1⟩ := tk
    simp only at hl
    cases t with
    | true => exact hl
    | false =>
      simp only [RawMemory.index, World.add, hl, hS, hU, Bool.true_and, decide_eq_true_eq]
      omega

theorem Emplace_asserts (E : Elem T) (v : Vector T) (d : Nat) (x : T) (w : World)
    (hv : v.Valid) (hd : d ≤ v.size_) (hfit : 2 * v.size_ < SIZE_MOD)
    (hw : w.asserts_ok = true) :
    (Vector.Emplace E v d x w).2.2.asserts_ok = true := by
  obtain ⟨hsz, hlen⟩ := hv
  unfold Vector.Emplace
  split
  · have hgt := grow_capacity_gt v.size_ hfit
    have hc := ctor_emplace_asserts E v (if v.size_ = 0 then 1 else usize (2 * v.size_)) d x w
      hw (by omega)
    generalize Vector.ctor_emplace E v (if v.size_ = 0 then 1 else usize (2 * v.size_)) d x w = m
      at hc ⊢
    obtain ⟨o, other, w1⟩ := m
    simp only at hc
    cases o with
    | ok nv =>
      simp only
      rw [dtor_asserts]
      exact hc
    | threw => exact hc
    | terminated => exact hc
  · split
    · have inner : (match w.tick with
          | (true, w1) => (Outcome.threw, v, w1)
          | (false, w1) =>
            match move_construct_tick E (v.data_.plus v.size_ (w1.add 1)) with
            | (true, w2) => (Outcome.threw, v, w2.add (-1))
            | (false, w2) =>
              match move_backward E d (v.size_ - 1 - d) v.size_
                  ((v.data_.buffer_.set v.size_
                    ((slot v.data_.buffer_ v.size_).map E.moved_from)).set
                    v.size_ (slot v.data_.buffer_ v.size_)) (w2.add 1) with
              | (true, buf, w3) =>
                (Outcome.threw, { v with data_ := { v.data_ with buffer_ := buf } }, w3.add (-1))
              | (false, buf, w3) =>
                match move_assign_tick E w3 with
                | (true, w4) =>
                  (Outcome.threw, { v with data_ := { v.data_ with buffer_ := buf } },
                    w4.add (-1))
                | (false, w4) =>
                  (Outcome.ok d,
                   { v with data_ := { v.data_ with buffer_ := buf.set d (some x) },
                            size_ := usize (v.size_ + 1) },
                   w4.add (-1)) : Outcome Nat × Vector T × World).2.2.asserts_ok = true := by
        have hl := (tick_live w).2
        rw [hw] at hl
        generalize w.tick = tk at hl ⊢
        obtain ⟨t, w1⟩ := tk
        simp only at hl
        cases t with
        | true => exact hl
        | false =>
          simp only
          have hp : (v.data_.plus v.size_ (w1.add 1)).asserts_ok = true := by
            simp [RawMemory.plus, World.add, hl, hsz]
          have hl2 := move_construct_tick_asserts E (v.data_.plus v.size_ (w1.add 1))
          rw [hp] at hl2
          generalize move_construct_tick E (v.data_.plus v.size_ (w1.add 1)) = tk2 at hl2 ⊢
          obtain ⟨t2, w2⟩ := tk2
          simp only at hl2
          cases t2 with
          | true => exact hl2
          | false =>
            simp only
            have hl3 := move_backward_asserts E d (v.size_ - 1 - d) v.size_
              ((v.data_.buffer_.set v.size_
                ((slot v.data_.buffer_ v.size_).map E.moved_from)).set
                v.size_ (slot v.data_.buffer_ v.size_)) (w2.add 1)
            generalize move_backward E d (v.size_ - 1 - d) v.size_
              ((v.data_.buffer_.set v.size_
                ((slot v.data_.buffer_ v.size_).map E.moved_from)).set
                v.size_ (slot v.data_.buffer_ v.size_)) (w2.add 1) = m3 at hl3 ⊢
            obtain ⟨t3, buf, w3⟩ := m3
            simp only [World.add] at hl3
            cases t3 with
            | true => exact hl3.trans hl2
            | false =>
              simp only
              have hl4 := move_assign_tick_asserts E w3
              generalize move_assign_tick E w3 = tk4 at hl4 ⊢
              obtain ⟨t4, w4⟩ := tk4
              simp only at hl4
              cases t4 with
              | true => exact hl4.trans (hl3.trans hl2)
              | false => exact hl4.trans (hl3.trans hl2)
      cases hne : Vector.new_elem E v with
      | rethrow => exact hw
      | forward => exact inner
      | move => exact inner
    · have hp : (v.data_.plus v.size_ w).asserts_ok = true := by
        simp [RawMemory.plus, hw, hsz]
      have hl := (tick_live (v.data_.plus v.size_ w)).2
      rw [hp] at hl
      generalize (v.data_.plus v.size_ w).tick = tk at hl ⊢
      obtain ⟨t, w1⟩ := tk
      cases t with
      | true => exact hl
      | false => exact hl

theorem bounds_assertion_can_fail :
    (Vector.PushBack intElem (Vector.ctor_move (Vector.of [1, 2, 3] 3)).2 4
      (World.quiet 3)).2.2.asserts_ok = false := by
  decide

/-- The bounds assertions away from the position constructor of `EmplaceBack`: on a valid
vector (`size <= capacity`), for every schedule of throws, every offset that `PushBack`
(either overload), `EmplaceBack` with arguments that select one of the constructors of
lines 98-136, and `Emplace` / `Insert` (at a position `0 <= d <= size`) pass to `RawMemory::operator+` is at most the capacity of the storage it
is applied to, and every index they pass to `RawMemory::operator[]` is below it, on the
vector's own storage and on the freshly allocated storage of the growth constructors: no
bounds assertion of `RawMemory` fails during the call. -/
theorem insertion_asserts (E : Elem T) (v : Vector T) (d : Nat) (x : T) (w : World)
    (hv : v.Valid) (hd : d ≤ v.Size) (hfit : 2 * v.size_ < SIZE_MOD)
    (hw : w.asserts_ok = true) :
    (Vector.PushBack E v x w).2.2.asserts_ok = true ∧
    (Vector.PushBack_move E v x w).2.2.asserts_ok = true ∧
    (Vector.EmplaceBack E v (BackArgs.plain x) w).2.2.asserts_ok = true ∧
    (Vector.Emplace E v d x w).2.2.asserts_ok = true ∧
    (Vector.Insert E v d x w).2.2.asserts_ok = true ∧
    (Vector.Insert_move E v d x w).2.2.asserts_ok = true :=
  ⟨PushBack_asserts E v x w hv hfit hw, PushBack_asserts E v x w hv hfit hw,
   EmplaceBack_asserts E v x w hv hfit hw, Emplace_asserts E v d x w hv hd hfit hw,
   Emplace_asserts E { v with insrt_cpy_called := true } d x w hv hd hfit hw,
   Emplace_asserts E { v with insrt_mve_called := true } d x w hv hd hfit hw⟩

theorem ctor_emplace_asserts_fail (E : Elem T) (other : Vector T) (size dist : Nat) (x : T)
    (w : World) (hne : Vector.new_elem E other ≠ NewElem.rethrow) (hs : size < dist) :
    (Vector.ctor_emplace E other size dist x w).2.2.asserts_ok = false := by
  unfold Vector.ctor_emplace
  simp only
  have hp : ((RawMemory.ctor size : RawMemory T).plus dist w).asserts_ok = false := by
    simp [RawMemory.plus, RawMemory.ctor, hs]
  have hl := (tick_live ((RawMemory.ctor size : RawMemory T).plus dist w)).2
  rw [hp] at hl
  generalize ((RawMemory.ctor size : RawMemory T).plus dist w).tick = tk at hl ⊢
  obtain ⟨t, w1⟩ := tk
  simp only at hl
  have key : ∀ (w0 : World), w0.asserts_ok = false →
      ∀ (src d1 : List (Option T)),
      (if (relocate_n E src dist (usub other.size_ dist) d1 (dist + 1) w0).1 = true then
          destroy_n (relocate_n E src dist (usub other.size_ dist) d1 (dist + 1) w0).2.2.1 0
            (dist + 1) (relocate_n E src dist (usub other.size_ dist) d1 (dist + 1) w0).2.2.2
        else ((relocate_n E src dist (usub other.size_ dist) d1 (dist + 1) w0).2.2.1,
          (relocate_n E src dist (usub other.size_ dist) d1 (dist + 1) w0).2.2.2)).2.asserts_ok =
        false := by
    intro w0 h0 src d1
    split
    · rw [destroy_n_asserts, relocate_n_asserts]
      exact h0
    · simp only
      rw [relocate_n_asserts]
      exact h0
  cases hn : Vector.new_elem E other with
  | rethrow => exact absurd hn hne
  | forward =>
    cases t with
    | true => exact hl
    | false =>
      simp only
      apply key
      split
      · rw [destroy_n_asserts, relocate_n_asserts]
        exact hl
      · simp only
        rw [relocate_n_asserts]
        exact hl
  | move =>
    cases t with
    | true => exact hl
    | false =>
      simp only
      apply key
      split
      · rw [destroy_n_asserts, relocate_n_asserts]
        exact hl
      · simp only
        rw [relocate_n_asserts]
        exact hl

theorem EmplaceBack_int64_asserts_fail (E : Elem T) (v : Vector T) (dist : Nat) (x y : T)
    (w : World) (hfull : v.data_.Capacity = v.size_)
    (hne : Vector.new_elem E v ≠ NewElem.rethrow)
    (hs : (if v.size_ = 0 then 1 else usize (2 * v.size_)) < dist) :
    (Vector.EmplaceBack E v (BackArgs.int64_first dist x y) w).2.2.asserts_ok = false := by
  unfold Vector.EmplaceBack Vector.ctor_back
  rw [if_pos hfull]
  simp only
  have hc := ctor_emplace_asserts_fail E v (if v.size_ = 0 then 1 else usize (2 * v.size_))
    dist y w hne hs
  generalize Vector.ctor_emplace E v (if v.size_ = 0 then 1 else usize (2 * v.size_)) dist y w = m
    at hc ⊢
  obtain ⟨o, other, w1⟩ := m
  simp only at hc
  cases o with
  | ok nv => simp only [RawMemory.index, dtor_asserts, hc, Bool.false_and]
  | threw => exact hc
  | terminated => exact hc

/-- C20 (the code departs from the claim): the vector `[1, 2, 3, 4]` of `int` with capacity
4 is in a valid state, and `EmplaceBack(int64_t(10))` on it makes a bounds assertion of
`RawMemory` fail.  The constructor call of the growth branch,
`Vector<T> new_vec(std::move(*this), 8, std::forward<Args>(args)...)`, resolves to
`Vector(Vector&&, size_t, int64_t dist, Args&&...)` with `dist = 10`, and that constructor
evaluates `data_ + 10` on the freshly allocated storage of capacity 8:
`assert(offset <= capacity_)` of `RawMemory::operator+` fails. -/
theorem C20_EmplaceBack_int64_breaks_bounds_assertion :
    (Vector.of [(1 : Int), 2, 3, 4] 4).Valid ∧
    (World.quiet 4).asserts_ok = true ∧
    ((RawMemory.ctor 8 : RawMemory Int).plus 10 (World.quiet 4)).asserts_ok = false ∧
    (Vector.EmplaceBack intElem (Vector.of [1, 2, 3, 4] 4) (BackArgs.int64_first 10 10 0)
        (World.quiet 4)).2.2.asserts_ok = false :=
  ⟨by decide, rfl, by decide,
   EmplaceBack_int64_asserts_fail intElem (Vector.of [1, 2, 3, 4] 4) 10 10 0 (World.quiet 4)
     (by decide) (by decide) (by decide)⟩

end VectorH
